import Mathlib

/-!
# An in-memory pseudo-filesystem (`src/main.c`): shallow embedding

The C program keeps one global `superblock sb`, a singly linked registry of
`inode` records (`sb.inodes_table`, chained through `next_inode`) and, per
directory, a singly linked list of `dir_entry` bindings.  The embedding keeps
the same data, with explicit state passing:

* the C heap is a list of cells addressed by index (`Ptr`); `malloc` appends a
  cell, `free` empties it, so that two pointers to one record share every
  update exactly as in C;
* a linked list is the Lean list of its elements in chain order
  (`superblock.inodes_table`, `inode.children`);
* a C string is the list of its bytes, one `Char` per byte;
* `int` counters are `Int` (no counter comes near `2 ^ 31`); where the source
  computes in `size_t`, the wrap-around modulo `2 ^ 64` is explicit;
* the clock read by `current_time_str` is a parameter of the operations that
  call it;
* a `name` array holds 255 bytes and is filled by `strncpy(.., .., 255)`: a
  name of fewer than 255 bytes is copied whole, a longer one is cut to its
  first 255 bytes and the array is left without terminator; the embedding
  reads a name array as the at most 255 bytes it holds (`name_field`).

Access through a pointer that names no live cell is undefined in C.  The
handlers report it as `Result.undefined`; the helpers treat such a cell as
absent (nothing is read, nothing is written).  The invariants proved below
(`links_ok`, `RegOK.live`, `resolved_live`) show that in a reachable state
every pointer a handler follows names a live cell.
-/



namespace MyFS

/-! ## Data model -/

/-- Address of a heap cell. -/
abbrev Ptr := Nat

/-- One binding of a directory: `struct dir_entry` without its `next` link. -/
structure dir_entry where
  name : List Char
  node : Ptr
deriving DecidableEq, Repr

/-- The record `struct inode`; `next_inode` is represented by the order of
`superblock.inodes_table`, `children` by the list of the chain's entries. -/
structure inode where
  inode_id : Int
  file_type : Int
  access_rights : List Char
  name : List Char
  file_size : Int
  create_time : List Char
  start_block : Int
  total_blocks : Int
  content : Option (List Char)
  children : List dir_entry
  initial_content : Option (List Char)
  parent : Option Ptr
deriving DecidableEq, Repr

/-- The record `struct superblock`; `inodes_table` lists the registry chain
from its head. -/
structure superblock where
  total_inodes : Int
  total_blocks : Int
  free_blocks : Int
  free_inodes : Int
  block_size : Int
  inodes_table : List Ptr
  time_mount : List Char
  root : Ptr
  next_inode_id : Int
deriving DecidableEq, Repr

/-- The heap: cell `p` is `some n` while the record at address `p` is live. -/
abbrev Heap := List (Option inode)

/-- The whole program state: the global `sb` and the heap it points into. -/
structure FS where
  sb : superblock
  heap : Heap
deriving DecidableEq, Repr

/-- The error codes the handlers return (negated in C). -/
inductive Errno
  | ENOENT | EEXIST | ENOTDIR | ENOTEMPTY | ENOSPC
deriving DecidableEq, Repr

/-- Outcome of a handler: a value, an error code, or undefined behaviour. -/
inductive Result (α : Type)
  | ok : α → Result α
  | error : Errno → Result α
  | undefined : Result α
deriving DecidableEq, Repr

/-! ## Heap primitives -/

/-- Read the record at `p`, if the cell is live. -/
def deref : Heap → Ptr → Option inode
  | [], _ => none
  | c :: _, 0 => c
  | _ :: h, p + 1 => deref h p

/-- Overwrite cell `p` (no effect outside the heap). -/
def store : Heap → Ptr → Option inode → Heap
  | [], _, _ => []
  | _ :: h, 0, v => v :: h
  | c :: h, p + 1, v => c :: store h p v

/-- Update the record at `p` in place. -/
def modify (h : Heap) (p : Ptr) (f : inode → inode) : Heap :=
  match deref h p with
  | some n => store h p (some (f n))
  | none => h

/-- Release the record at `p`: `free(p)`. -/
def release (h : Heap) (p : Ptr) : Heap := store h p none

/-! ## C library functions used by the source -/

/-- Tokens produced by the `strtok(_, "/")` loop on the remaining text, `cur`
being the token under construction. -/
def strtokAux : List Char → List Char → List (List Char)
  | [], cur => if cur = [] then [] else [cur]
  | c :: cs, cur =>
    if c = '/' then (if cur = [] then strtokAux cs [] else cur :: strtokAux cs [])
    else strtokAux cs (cur ++ [c])

/-- All tokens that `strtok(p, "/")` followed by `strtok(NULL, "/")` calls
yield: the maximal non-empty runs of bytes other than `/`. -/
def strtok_all (p : List Char) : List (List Char) := strtokAux p []

/-- The function `basename` of `libgen.h` (glibc `__xpg_basename`): `"."` for
the empty string, `"/"` for a string of slashes, else the text after the last
slash once trailing slashes are removed. -/
def basename (path : List Char) : List Char :=
  if path = [] then ['.']
  else
    let r := path.rdropWhile (fun c => c == '/')
    if r = [] then ['/'] else r.rtakeWhile (fun c => c != '/')

/-- The function `dirname` of `libgen.h` (glibc): the text before the last
slash that precedes the final component, trailing slashes removed; `"."` when
there is no such slash, `"/"` when nothing precedes it (`"//"` when the string
starts with exactly two slashes). -/
def dirname (path : List Char) : List Char :=
  let t := path.rdropWhile (fun c => c == '/')
  let q := if path.getLast? = some '/' ∧ 2 ≤ path.length ∧ t ≠ [] then t else path
  if '/' ∈ q then
    let pre := (q.rdropWhile (fun c => c != '/')).dropLast
    let r := pre.rdropWhile (fun c => c == '/')
    if r = [] then (if pre.length = 1 then path.take 2 else path.take 1) else r
  else ['.']

/-- Decimal rendering of an `int` by the `%d` conversion. -/
def fmt_d (i : Int) : List Char :=
  if i < 0 then '-' :: Nat.toDigits 10 i.natAbs else Nat.toDigits 10 i.toNat

/-! ## Helpers of the source -/

/-- One step of both loops of `shift_inode_ids`:
`if (x->inode_id > deleted_id) x->inode_id--`. -/
def dec_id (deleted_id : Int) (n : inode) : inode :=
  if n.inode_id > deleted_id then { n with inode_id := n.inode_id - 1 } else n

/-- First loop of `shift_inode_ids`, over the registry chain. -/
def shift_registry (deleted_id : Int) : List Ptr → Heap → Heap
  | [], h => h
  | p :: ps, h => shift_registry deleted_id ps (modify h p (dec_id deleted_id))

/-- Inner loop of the second pass of `shift_inode_ids`: the records the
entries of one directory point to. -/
def shift_entries (deleted_id : Int) : List dir_entry → Heap → Heap
  | [], h => h
  | e :: es, h => shift_entries deleted_id es (modify h e.node (dec_id deleted_id))

/-- The children chain of the record at `p` (empty when `p` is not live). -/
def children_of (h : Heap) (p : Ptr) : List dir_entry :=
  match deref h p with
  | some n => n.children
  | none => []

/-- Second loop of `shift_inode_ids`: for every registered record, every
entry of its children chain. -/
def shift_children (deleted_id : Int) : List Ptr → Heap → Heap
  | [], h => h
  | p :: ps, h =>
    shift_children deleted_id ps (shift_entries deleted_id (children_of h p) h)

/-- The function `shift_inode_ids`. -/
def shift_inode_ids (s : FS) (deleted_id : Int) : FS :=
  let h1 := shift_registry deleted_id s.sb.inodes_table s.heap
  let h2 := shift_children deleted_id s.sb.inodes_table h1
  { sb := { s.sb with
      next_inode_id :=
        if s.sb.next_inode_id > 0 then s.sb.next_inode_id - 1 else s.sb.next_inode_id },
    heap := h2 }

/-- What `strncpy(dst, name, sizeof(dst))` leaves in a `name` array of 255
bytes, read as a string: the name itself when it is shorter than 255 bytes,
its first 255 bytes otherwise. -/
def name_field (name : List Char) : List Char := name.take 255

/-- The function `create_inode`: a fresh record, numbered `sb.next_inode_id++`.
Returns the new state and the address of the record. -/
def create_inode (s : FS) (now : List Char) (type : Int) (rights name : List Char)
    (init_content : Option (List Char)) (parent : Option Ptr) : FS × Ptr :=
  let node : inode :=
    { inode_id := s.sb.next_inode_id
      file_type := type
      access_rights := rights
      name := name_field name
      file_size := 0
      create_time := now
      start_block := -1
      total_blocks := 0
      content := none
      children := []
      initial_content := init_content
      parent := parent }
  ({ sb := { s.sb with next_inode_id := s.sb.next_inode_id + 1 },
     heap := s.heap ++ [some node] },
   s.heap.length)

/-- The function `add_entry_to_dir`: a new binding at the head of the chain,
its name copied from the child's `name` array. -/
def add_entry_to_dir (h : Heap) (dir child : Ptr) : Heap :=
  match deref h child with
  | some c =>
    modify h dir (fun d => { d with children := ⟨name_field c.name, child⟩ :: d.children })
  | none => h

/-- The scan of `find_inode_in_dir` over a children chain. -/
def find_entry : List dir_entry → List Char → Option Ptr
  | [], _ => none
  | e :: es, name => if e.name = name then some e.node else find_entry es name

/-- The function `find_inode_in_dir`; `none` is the null pointer. -/
def find_inode_in_dir (h : Heap) (dir : Option Ptr) (name : List Char) : Option Ptr :=
  match dir with
  | none => none
  | some d => find_entry (children_of h d) name

/-- The loop `while (comp && current)` of `find_inode_by_path`. -/
def walk (h : Heap) : List (List Char) → Option Ptr → Option Ptr
  | [], current => current
  | comp :: comps, current =>
    match current with
    | none => none
    | some c => walk h comps (find_inode_in_dir h (some c) comp)

/-- The function `find_inode_by_path`. -/
def find_inode_by_path (s : FS) (path : List Char) : Option Ptr :=
  if path = ['/'] then some s.sb.root
  else
    let p := match path with
      | '/' :: rest => rest
      | _ => path
    walk s.heap (strtok_all p) (some s.sb.root)

/-- The scan of `remove_entry_from_dir`: the first binding called `name` is
unlinked from the chain. -/
def remove_entry : List dir_entry → List Char → List dir_entry
  | [], _ => []
  | e :: es, name => if e.name = name then es else e :: remove_entry es name

/-- The function `remove_entry_from_dir` (its status code is dropped: both
callers ignore it). -/
def remove_entry_from_dir (h : Heap) (parent : Option Ptr) (name : List Char) : Heap :=
  match parent with
  | none => h
  | some p => modify h p (fun d => { d with children := remove_entry d.children name })

/-! ## Initial state -/

/-- The state `main` hands to `fuse_main`; `mount_time` and `root_time` are
the two readings of the clock. -/
def main (mount_time root_time : List Char) : FS :=
  let s0 : FS :=
    { sb :=
        { total_inodes := 0
          total_blocks := 1024
          free_blocks := 1024
          free_inodes := 100
          block_size := 4096
          inodes_table := []
          time_mount := mount_time
          root := 0
          next_inode_id := 1 },
      heap := [] }
  let (s1, root) := create_inode s0 root_time 2 ("rwxr-xr-x").toList ("/").toList none none
  let h2 := modify s1.heap root (fun n => { n with inode_id := 0 })
  { sb := { s1.sb with
      root := root
      inodes_table := root :: s1.sb.inodes_table
      total_inodes := 1
      free_inodes := s1.sb.free_inodes - 1 },
    heap := h2 }

/-! ## Handlers -/

/-- The fields of `struct stat` that `myfs_getattr` fills. -/
structure stat where
  st_mode : Nat
  st_nlink : Nat
  st_size : Int
deriving DecidableEq, Repr

/-- File type bit `S_IFDIR`. -/
def S_IFDIR : Nat := 0o040000

/-- File type bit `S_IFREG`. -/
def S_IFREG : Nat := 0o100000

/-- The literal path of the diagnostic file. -/
def superblock_path : List Char := ("/superblock").toList

/-- The handler `myfs_getattr` (stat). -/
def myfs_getattr (s : FS) (path : List Char) : Result stat :=
  if path = ['/'] then .ok { st_mode := S_IFDIR + 0o755, st_nlink := 2, st_size := 0 }
  else if path = superblock_path then
    .ok { st_mode := S_IFREG + 0o444, st_nlink := 1, st_size := 1024 }
  else
    match find_inode_by_path s path with
    | none => .error .ENOENT
    | some node =>
      match deref s.heap node with
      | none => .undefined
      | some n =>
        .ok { st_mode := (if n.file_type = 1 then S_IFREG else S_IFDIR) + 0o644,
              st_nlink := 1, st_size := n.file_size }

/-- The handler `myfs_readdir` (list): the names passed to `filler`, in call
order, and the status code. -/
def myfs_readdir (s : FS) (path : List Char) : List (List Char) × Result Unit :=
  let filled := [(".").toList, ("..").toList, ("superblock").toList]
  let dir := if path = ['/'] then some s.sb.root else find_inode_by_path s path
  match dir with
  | none => (filled, .error .ENOENT)
  | some d =>
    match deref s.heap d with
    | none => (filled, .undefined)
    | some n =>
      if n.file_type ≠ 2 then (filled, .error .ENOENT)
      else (filled ++ n.children.map (fun e => e.name), .ok ())

/-- The text `myfs_create` stores for an initial content: clamped to
`block_size - 1` bytes, a newline added unless the byte before the end is one
(for an empty content that byte is the terminator written over `=`).
Returns the buffer and the recorded size. -/
def initial_buffer (block_size : Nat) (init_content : List Char) : List Char × Int :=
  let zeros := List.replicate block_size (Char.ofNat 0)
  let len := if init_content.length ≥ block_size then block_size - 1 else init_content.length
  let copied := init_content.take len ++ zeros.drop len
  let last := if len = 0 then Char.ofNat 0 else init_content.getD (len - 1) (Char.ofNat 0)
  if last ≠ '\n' then (copied.set len '\n', (len : Int) + 1) else (copied, (len : Int))

/-- The handler `myfs_create`. -/
def myfs_create (s : FS) (now : List Char) (path : List Char) : FS × Result Unit :=
  let dir_path := dirname path
  let base := basename path
  let file_name := base.takeWhile (fun c => c != '=')
  let init_content : Option (List Char) :=
    if '=' ∈ base then some ((base.dropWhile (fun c => c != '=')).drop 1) else none
  let parent := if dir_path = ['/'] then some s.sb.root else find_inode_by_path s dir_path
  match parent with
  | none => (s, .error .ENOENT)
  | some par =>
    match deref s.heap par with
    | none => (s, .undefined)
    | some pn =>
      if pn.file_type ≠ 2 then (s, .error .ENOENT)
      else if (find_inode_in_dir s.heap parent file_name).isSome then (s, .error .EEXIST)
      else
        let (s1, node) := create_inode s now 1 ("rw-r--r--").toList file_name init_content parent
        if s1.sb.free_blocks > 0 then
          let data : List Char × Int :=
            match init_content with
            | some ic => initial_buffer s1.sb.block_size.toNat ic
            | none => (List.replicate s1.sb.block_size.toNat (Char.ofNat 0), 0)
          let h2 := modify s1.heap node (fun n =>
            { n with
              start_block := s1.sb.total_blocks - s1.sb.free_blocks
              total_blocks := 1
              content := some data.1
              file_size := data.2 })
          let h3 := add_entry_to_dir h2 par node
          ({ sb := { s1.sb with
                free_blocks := s1.sb.free_blocks - 1
                inodes_table := node :: s1.sb.inodes_table
                total_inodes := s1.sb.total_inodes + 1
                free_inodes := s1.sb.free_inodes - 1 },
             heap := h3 }, .ok ())
        else (s1, .error .ENOSPC)

/-- The handler `myfs_mkdir`. -/
def myfs_mkdir (s : FS) (now : List Char) (path : List Char) : FS × Result Unit :=
  let dir_path := dirname path
  let dir_name := basename path
  let parent := if dir_path = ['/'] then some s.sb.root else find_inode_by_path s dir_path
  match parent with
  | none => (s, .error .ENOENT)
  | some par =>
    match deref s.heap par with
    | none => (s, .undefined)
    | some pn =>
      if pn.file_type ≠ 2 then (s, .error .ENOENT)
      else if (find_inode_in_dir s.heap parent dir_name).isSome then (s, .error .EEXIST)
      else
        let (s1, node) := create_inode s now 2 ("rwxr-xr-x").toList dir_name none parent
        let h2 := add_entry_to_dir s1.heap par node
        ({ sb := { s1.sb with
              inodes_table := node :: s1.sb.inodes_table
              total_inodes := s1.sb.total_inodes + 1
              free_inodes := s1.sb.free_inodes - 1 },
           heap := h2 }, .ok ())

/-- The handler `myfs_rmdir`. -/
def myfs_rmdir (s : FS) (path : List Char) : FS × Result Unit :=
  match find_inode_by_path s path with
  | none => (s, .error .ENOTDIR)
  | some node =>
    match deref s.heap node with
    | none => (s, .undefined)
    | some n =>
      if n.file_type ≠ 2 then (s, .error .ENOTDIR)
      else if n.children ≠ [] then (s, .error .ENOTEMPTY)
      else
        let dir_name := basename path
        match n.parent with
        | none => (s, .error .ENOENT)
        | some parent =>
          let h1 := remove_entry_from_dir s.heap (some parent) dir_name
          if node ∈ s.sb.inodes_table then
            let deleted_id := n.inode_id
            let s2 : FS :=
              { sb := { s.sb with
                  inodes_table := s.sb.inodes_table.erase node
                  free_inodes := s.sb.free_inodes + 1 },
                heap := release h1 node }
            (shift_inode_ids s2 deleted_id, .ok ())
          else ({ s with heap := h1 }, .error .ENOENT)

/-- The handler `myfs_unlink`. -/
def myfs_unlink (s : FS) (path : List Char) : FS × Result Unit :=
  match find_inode_by_path s path with
  | none => (s, .error .ENOENT)
  | some node =>
    match deref s.heap node with
    | none => (s, .undefined)
    | some n =>
      if n.file_type ≠ 1 then (s, .error .ENOENT)
      else
        let file_name := basename path
        match n.parent with
        | none => (s, .error .ENOENT)
        | some parent =>
          let h1 := remove_entry_from_dir s.heap (some parent) file_name
          let free_blocks1 := s.sb.free_blocks + n.total_blocks
          let h2 := modify h1 node (fun m => { m with total_blocks := 0 })
          if node ∈ s.sb.inodes_table then
            let deleted_id := n.inode_id
            let s2 : FS :=
              { sb := { s.sb with
                  free_blocks := free_blocks1
                  inodes_table := s.sb.inodes_table.erase node
                  free_inodes := s.sb.free_inodes + 1 },
                heap := release h2 node }
            (shift_inode_ids s2 deleted_id, .ok ())
          else ({ sb := { s.sb with free_blocks := free_blocks1 }, heap := h2 }, .error .ENOENT)

/-! ## The diagnostic report -/

/-- The bytes of the indentation unit of `build_tree_string` (a vertical bar
in UTF-8, then three spaces). -/
def tree_indent : List Char :=
  [Char.ofNat 0xE2, Char.ofNat 0x94, Char.ofNat 0x82, ' ', ' ', ' ']

/-- The bytes of the branch mark of `build_tree_string` (a tee and two
dashes in UTF-8, then a space). -/
def tree_branch : List Char :=
  [Char.ofNat 0xE2, Char.ofNat 0x94, Char.ofNat 0x9C, Char.ofNat 0xE2, Char.ofNat 0x94,
   Char.ofNat 0x80, Char.ofNat 0xE2, Char.ofNat 0x94, Char.ofNat 0x80, ' ']

/-- The name of a kind in the report. -/
def kind_name (file_type : Int) : List Char :=
  if file_type = 1 then ("file").toList else ("dir").toList

/-- The line `build_tree_string` formats for one record (before the cut to
the 256 bytes of `node_info`). -/
def tree_line (depth : Nat) (n : inode) : List Char :=
  (List.replicate depth tree_indent).flatten ++ tree_branch ++ n.name ++ (" (").toList
    ++ kind_name n.file_type ++ (", inode: ").toList ++ fmt_d n.inode_id
    ++ (", size: ").toList ++ fmt_d n.file_size ++ (")\n").toList

/-- The function `build_tree_string`.  The pair is the text of `buffer` up to
its terminator and `*pos`; text copied behind the terminator is not part of
the string.  The first argument counts the levels left before `indent`
overflows (a depth of 22 does not fit its 128 bytes); `none` is that
overflow, or a dangling record. -/
def build_tree_string (h : Heap) (max_size : Nat) :
    Nat → Ptr → List Char × Nat → Nat → Option (List Char × Nat)
  | 0, _, acc, _ => if acc.2 + 200 ≥ max_size then some acc else none
  | fuel + 1, node, acc, depth =>
    if acc.2 + 200 ≥ max_size then some acc
    else
      match deref h node with
      | none => none
      | some n =>
        let node_info := (tree_line depth n).take 255
        let acc1 : List Char × Nat :=
          if acc.2 + node_info.length < max_size then
            (if acc.2 = acc.1.length then acc.1 ++ node_info else acc.1,
             acc.2 + node_info.length)
          else acc
        if n.file_type = 2 then
          n.children.foldl
            (fun r child =>
              match r with
              | none => none
              | some a => build_tree_string h max_size fuel child.node a (depth + 1))
            (some acc1)
        else some acc1

/-- The line the registry loop of `myfs_read` formats for one record. -/
def inode_line (n : inode) : List Char :=
  ("Inode ").toList ++ fmt_d n.inode_id ++ (": ").toList ++ n.name ++ (", type=").toList
    ++ kind_name n.file_type ++ (", size=").toList ++ fmt_d n.file_size
    ++ (", blocks=").toList ++ fmt_d n.total_blocks ++ (", rights=").toList
    ++ n.access_rights ++ (", created=").toList ++ n.create_time ++ ("\n").toList

/-- The registry loop of `myfs_read`, one line per registered record while
room is left. -/
def list_inodes (h : Heap) (max_size : Nat) :
    List Ptr → List Char × Nat → Option (List Char × Nat)
  | [], acc => some acc
  | p :: ps, acc =>
    if acc.2 + 200 < max_size then
      match deref h p with
      | none => none
      | some n =>
        let line := inode_line n
        if acc.2 + line.length < max_size then
          list_inodes h max_size ps
            (if acc.2 = acc.1.length then acc.1 ++ line.take 511 else acc.1,
             acc.2 + line.length)
        else some acc
    else some acc

/-- The counters block at the head of the report. -/
def report_header (sb : superblock) : List Char :=
  ("Superblock Info:\nTotal inodes: ").toList ++ fmt_d sb.total_inodes
    ++ ("\nFree inodes: ").toList ++ fmt_d sb.free_inodes
    ++ ("\nTotal blocks: ").toList ++ fmt_d sb.total_blocks
    ++ ("\nFree blocks: ").toList ++ fmt_d sb.free_blocks
    ++ ("\nBlock size: ").toList ++ fmt_d sb.block_size
    ++ ("\nMounted at: ").toList ++ sb.time_mount ++ ("\n\n").toList

/-- The string the diagnostic branch of `myfs_read` builds in `output`
(16384 bytes); `none` when building it is undefined. -/
def superblock_report (s : FS) : Option (List Char) :=
  let max_size := 16384
  let header := report_header s.sb
  if header.length ≥ max_size then none
  else
    let title := ("File system tree:\n").toList
    let acc0 : List Char × Nat :=
      (header ++ title.take (max_size - header.length - 1), header.length + title.length)
    match build_tree_string s.heap max_size 22 s.sb.root acc0 0 with
    | none => none
    | some acc1 =>
      match list_inodes s.heap max_size s.sb.inodes_table acc1 with
      | none => none
      | some acc2 => some acc2.1

/-- The slice both branches of `myfs_read` copy out of a text of which `len`
bytes count; the sum `offset + size` is computed in `size_t`.  `none` when
the copy leaves the text. -/
def read_slice (text : List Char) (len : Nat) (size offset : Nat) : Option (List Char) :=
  if offset < len then
    let size1 := if (offset + size) % 2 ^ 64 > len then len - offset else size
    if offset + size1 ≤ text.length then some ((text.drop offset).take size1) else none
  else some []

/-- The handler `myfs_read`: the bytes copied to `buf` (their number is the
return value). -/
def myfs_read (s : FS) (path : List Char) (size offset : Nat) : Result (List Char) :=
  if path = superblock_path then
    match superblock_report s with
    | none => .undefined
    | some output =>
      match read_slice output output.length size offset with
      | some bytes => .ok bytes
      | none => .undefined
  else
    match find_inode_by_path s path with
    | none => .error .ENOENT
    | some node =>
      match deref s.heap node with
      | none => .undefined
      | some n =>
        if n.file_type = 1 then
          match n.content with
          | none => .error .ENOENT
          | some content =>
            match read_slice content n.file_size.toNat size offset with
            | some bytes => .ok bytes
            | none => .undefined
        else .error .ENOENT

/-- The handler `myfs_write`: the new state and the accepted byte count.
`size` is the length of `buf`; `block_size - offset` is converted to `size_t`. -/
def myfs_write (s : FS) (path : List Char) (buf : List Char) (offset : Nat) :
    FS × Result Nat :=
  match find_inode_by_path s path with
  | none => (s, .error .ENOENT)
  | some node =>
    match deref s.heap node with
    | none => (s, .undefined)
    | some n =>
      if n.file_type ≠ 1 then (s, .error .ENOENT)
      else
        let alloc : Option (FS × List Char) :=
          match n.content with
          | some c => some (s, c)
          | none =>
            if s.sb.free_blocks ≤ 0 then none
            else
              let c := List.replicate s.sb.block_size.toNat (Char.ofNat 0)
              some ({ sb := { s.sb with free_blocks := s.sb.free_blocks - 1 },
                      heap := modify s.heap node (fun m =>
                        { m with
                          content := some c
                          total_blocks := 1
                          start_block := s.sb.total_blocks - s.sb.free_blocks }) }, c)
        match alloc with
        | none => (s, .error .ENOSPC)
        | some (s1, content) =>
          let size := buf.length
          let size1 : Nat :=
            if (offset + size) % 2 ^ 64 > s1.sb.block_size.toNat then
              ((s1.sb.block_size - (offset : Int)) % 2 ^ 64).toNat
            else size
          if size1 > 0 then
            if offset + size1 ≤ content.length ∧ size1 ≤ size then
              let content1 := content.take offset ++ buf.take size1 ++ content.drop (offset + size1)
              let h2 := modify s1.heap node (fun m =>
                { m with
                  content := some content1
                  file_size :=
                    if ((offset + size1 : Nat) : Int) > m.file_size then ((offset + size1 : Nat) : Int)
                    else m.file_size })
              ({ s1 with heap := h2 }, .ok size1)
            else (s, .undefined)
          else (s1, .ok size1)

/-- The handler `myfs_open`. -/
def myfs_open (s : FS) (path : List Char) : Result Unit :=
  if path = superblock_path then .ok ()
  else if (find_inode_by_path s path).isSome then .ok () else .error .ENOENT

/-- The handler `fs_utimens`: accepted and ignored. -/
def fs_utimens (_s : FS) (_path : List Char) : Result Unit := .ok ()

/-! ## Sequences of handler calls -/

/-- One call of a handler of the table `myfs_oper`, with its arguments. -/
inductive Op
  | getattr (path : List Char)
  | readdir (path : List Char)
  | create (now path : List Char)
  | mkdir (now path : List Char)
  | rmdir (path : List Char)
  | unlink (path : List Char)
  | read (path : List Char) (size offset : Nat)
  | write (path buf : List Char) (offset : Nat)
  | open (path : List Char)
  | utimens (path : List Char)
deriving DecidableEq, Repr

/-- The state a call leaves behind; `none` when its behaviour is undefined. -/
def step (s : FS) : Op → Option FS
  | .getattr path => if myfs_getattr s path = .undefined then none else some s
  | .readdir path => if (myfs_readdir s path).2 = .undefined then none else some s
  | .create now path =>
    if (myfs_create s now path).2 = .undefined then none else some (myfs_create s now path).1
  | .mkdir now path =>
    if (myfs_mkdir s now path).2 = .undefined then none else some (myfs_mkdir s now path).1
  | .rmdir path =>
    if (myfs_rmdir s path).2 = .undefined then none else some (myfs_rmdir s path).1
  | .unlink path =>
    if (myfs_unlink s path).2 = .undefined then none else some (myfs_unlink s path).1
  | .read path size offset => if myfs_read s path size offset = .undefined then none else some s
  | .write path buf offset =>
    if (myfs_write s path buf offset).2 = .undefined then none
    else some (myfs_write s path buf offset).1
  | .open _ => some s
  | .utimens _ => some s

/-- The state after a sequence of calls, from left to right. -/
def run (s : FS) : List Op → Option FS
  | [] => some s
  | op :: ops =>
    match step s op with
    | some s1 => run s1 ops
    | none => none

/-- The states the mounted filesystem can be in: the state `main` builds, and
every state a handler call with defined behaviour leads to. -/
inductive Reachable : FS → Prop
  | init (mount_time root_time : List Char) : Reachable (main mount_time root_time)
  | step {s s1 : FS} (op : Op) : Reachable s → step s op = some s1 → Reachable s1

/-! ## Observations used by the statements -/

/-- The identifiers of the registered records, in registry order. -/
def registered_ids (s : FS) : List Int :=
  s.sb.inodes_table.filterMap (fun p => (deref s.heap p).map (fun n => n.inode_id))

/-- The record a path resolves to, if any. -/
def resolve (s : FS) (path : List Char) : Option inode :=
  match find_inode_by_path s path with
  | some node => deref s.heap node
  | none => none

/-- The state after a successful-or-not `myfs_create` with an empty clock
reading. -/
def after_create (s : FS) (path : String) : FS := (myfs_create s [] path.toList).1

/-- The state after `myfs_mkdir` with an empty clock reading. -/
def after_mkdir (s : FS) (path : String) : FS := (myfs_mkdir s [] path.toList).1

/-- The mounted, empty filesystem (empty clock readings). -/
def fs0 : FS := main [] []

/-- Example state: `/a`, `/b`, `/c` created in this order on the empty
filesystem. -/
def fs_abc : FS := after_create (after_create (after_create fs0 "/a") "/b") "/c"

/-- The root record of `fs_abc`. -/
def fs_abc_root : inode :=
  { inode_id := 0, file_type := 2, access_rights := ("rwxr-xr-x").toList,
    name := ("/").toList, file_size := 0, create_time := [], start_block := -1,
    total_blocks := 0, content := none,
    children := [⟨("c").toList, 3⟩, ⟨("b").toList, 2⟩, ⟨("a").toList, 1⟩],
    initial_content := none, parent := none }

/-- A path whose only component has 300 bytes, more than a `name` array
holds. -/
def long_path : List Char := '/' :: List.replicate 300 'a'

/-- Example state: `create` called twice with `long_path` on the empty
filesystem. -/
def fs_long2 : FS := (myfs_create (myfs_create fs0 [] long_path).1 [] long_path).1

/-- Example state: directory `/d` holding the file `b.txt`. -/
def fs_d : FS := after_create (after_mkdir fs0 "/d") "/d/b.txt"

/-! ## Invariants of the reachable states -/

/-- The fields of a record that fix the shape of the tree. -/
def shape (n : inode) : Int × List Char × List dir_entry × Option Ptr :=
  (n.file_type, n.name, n.children, n.parent)

/-- The fields of a record other than its identifier and block bookkeeping. -/
def core (n : inode) : (Int × List Char × List dir_entry × Option Ptr) × Int × Option (List Char) :=
  (shape n, n.file_size, n.content)

/-- Two heaps hold the same cells up to the fields a projection forgets. -/
def same_on {β : Type} (view : inode → β) (h h1 : Heap) : Prop :=
  ∀ p, (deref h1 p).map view = (deref h p).map view

/-- Two bindings of one record carry the same name only when the name fills
the whole `name` array: a name shorter than 255 bytes is bound at most once. -/
def names_ok (h : Heap) : Prop :=
  ∀ q pn, deref h q = some pn →
    pn.children.Pairwise (fun a b => a.name = b.name → 255 ≤ a.name.length)

/-- Within every live record the bindings point to pairwise distinct records. -/
def targets_ok (h : Heap) : Prop :=
  ∀ q pn, deref h q = some pn → (pn.children.map (fun e => e.node)).Nodup

/-- Every binding of a live record points to a live record that names this
record as its parent and carries the binding's name. -/
def links_ok (h : Heap) : Prop :=
  ∀ q pn, deref h q = some pn → ∀ e ∈ pn.children,
    ∃ cn, deref h e.node = some cn ∧ cn.parent = some q ∧ cn.name = e.name

/-- A record that has bindings is a directory. -/
def dirs_ok (h : Heap) : Prop :=
  ∀ q pn, deref h q = some pn → pn.children ≠ [] → pn.file_type = 2

/-- The record owns a content buffer of one block and its size fits in it. -/
def has_buffer (bs : Int) (n : inode) : Prop :=
  ∃ buf, n.content = some buf ∧ (buf.length : Int) = bs ∧ 0 ≤ n.file_size ∧ n.file_size ≤ bs

/-- Every file a binding points to owns its buffer. -/
def files_ok (bs : Int) (h : Heap) : Prop :=
  ∀ q pn, deref h q = some pn → ∀ e ∈ pn.children, ∀ cn, deref h e.node = some cn →
    cn.file_type = 1 → has_buffer bs cn

/-- The root pointer names a live directory without parent. -/
def root_ok (h : Heap) (root : Ptr) : Prop :=
  ∃ r, deref h root = some r ∧ r.parent = none ∧ r.file_type = 2

/-- The invariant of the heap below a root pointer (the block size is 4096). -/
structure HeapInv (h : Heap) (root : Ptr) : Prop where
  names : names_ok h
  targets : targets_ok h
  links : links_ok h
  dirs : dirs_ok h
  files : files_ok 4096 h
  root : root_ok h root

/-- The invariant of the tree that every handler preserves. -/
structure Inv (s : FS) : Prop where
  block_size : s.sb.block_size = 4096
  heap : HeapInv s.heap s.sb.root

/-! ## The handlers after their path arguments are parsed

These functions repeat the bodies of the mutating handlers from the point
where the path has been split; `myfs_create_eq` and its siblings show that
the handlers are these functions applied to the parsed path. -/

/-- The parent `myfs_create` and `myfs_mkdir` look up. -/
def parent_of (s : FS) (path : List Char) : Option Ptr :=
  if dirname path = ['/'] then some s.sb.root else find_inode_by_path s (dirname path)

/-- The file name `myfs_create` takes from a path: the final component up to
its first `=`. -/
def file_name_of (path : List Char) : List Char :=
  (basename path).takeWhile (fun c => c != '=')

/-- The initial content `myfs_create` takes from a path: the text after the
first `=` of the final component, if there is one. -/
def init_content_of (path : List Char) : Option (List Char) :=
  if '=' ∈ basename path then some (((basename path).dropWhile (fun c => c != '=')).drop 1)
  else none

/-- The record `create_inode` builds. -/
def new_inode (s : FS) (now : List Char) (type : Int) (rights name : List Char)
    (init_content : Option (List Char)) (parent : Option Ptr) : inode :=
  { inode_id := s.sb.next_inode_id
    file_type := type
    access_rights := rights
    name := name_field name
    file_size := 0
    create_time := now
    start_block := -1
    total_blocks := 0
    content := none
    children := []
    initial_content := init_content
    parent := parent }

/-- The buffer and size `myfs_create` gives a new file. -/
def file_data (s : FS) (init_content : Option (List Char)) : List Char × Int :=
  match init_content with
  | some ic => initial_buffer s.sb.block_size.toNat ic
  | none => (List.replicate s.sb.block_size.toNat (Char.ofNat 0), 0)

/-- The state `myfs_create` returns with `ENOSPC`: the record is allocated and
numbered, and left unregistered. -/
def create_leak_state (s : FS) (now : List Char) (par : Ptr) (file_name : List Char)
    (init_content : Option (List Char)) : FS :=
  { sb := { s.sb with next_inode_id := s.sb.next_inode_id + 1 },
    heap := s.heap ++ [some (new_inode s now 1 ("rw-r--r--").toList file_name init_content
      (some par))] }

/-- The state a successful `myfs_create` returns. -/
def create_file_state (s : FS) (now : List Char) (par : Ptr) (file_name : List Char)
    (init_content : Option (List Char)) : FS :=
  { sb := { s.sb with
      next_inode_id := s.sb.next_inode_id + 1
      free_blocks := s.sb.free_blocks - 1
      inodes_table := s.heap.length :: s.sb.inodes_table
      total_inodes := s.sb.total_inodes + 1
      free_inodes := s.sb.free_inodes - 1 },
    heap :=
      modify
        (modify
          (s.heap ++ [some (new_inode s now 1 ("rw-r--r--").toList file_name init_content
            (some par))])
          s.heap.length
          (fun n =>
            { n with
              start_block := s.sb.total_blocks - s.sb.free_blocks
              total_blocks := 1
              content := some (file_data s init_content).1
              file_size := (file_data s init_content).2 }))
        par
        (fun d => { d with children := ⟨name_field file_name, s.heap.length⟩ :: d.children }) }

/-- The body of `myfs_create` once parent, name and content are known. -/
def create_at (s : FS) (now : List Char) (parent : Option Ptr) (file_name : List Char)
    (init_content : Option (List Char)) : FS × Result Unit :=
  match parent with
  | none => (s, .error .ENOENT)
  | some par =>
    match deref s.heap par with
    | none => (s, .undefined)
    | some pn =>
      if pn.file_type ≠ 2 then (s, .error .ENOENT)
      else if (find_entry pn.children file_name).isSome then (s, .error .EEXIST)
      else if s.sb.free_blocks > 0 then
        (create_file_state s now par file_name init_content, .ok ())
      else (create_leak_state s now par file_name init_content, .error .ENOSPC)

/-- The state a successful `myfs_mkdir` returns. -/
def mkdir_state (s : FS) (now : List Char) (par : Ptr) (dir_name : List Char) : FS :=
  { sb := { s.sb with
      next_inode_id := s.sb.next_inode_id + 1
      inodes_table := s.heap.length :: s.sb.inodes_table
      total_inodes := s.sb.total_inodes + 1
      free_inodes := s.sb.free_inodes - 1 },
    heap :=
      modify
        (s.heap ++ [some (new_inode s now 2 ("rwxr-xr-x").toList dir_name none (some par))])
        par
        (fun d => { d with children := ⟨name_field dir_name, s.heap.length⟩ :: d.children }) }

/-- The body of `myfs_mkdir` once parent and name are known. -/
def mkdir_at (s : FS) (now : List Char) (parent : Option Ptr) (dir_name : List Char) :
    FS × Result Unit :=
  match parent with
  | none => (s, .error .ENOENT)
  | some par =>
    match deref s.heap par with
    | none => (s, .undefined)
    | some pn =>
      if pn.file_type ≠ 2 then (s, .error .ENOENT)
      else if (find_entry pn.children dir_name).isSome then (s, .error .EEXIST)
      else (mkdir_state s now par dir_name, .ok ())

/-- The heap of `myfs_unlink` and `myfs_rmdir` after the binding is removed
from the parent and the record is released. -/
def detach_heap (h : Heap) (parent node : Ptr) (name : List Char) : Heap :=
  release (modify h parent (fun d => { d with children := remove_entry d.children name })) node

/-- The state a successful `myfs_unlink` returns. -/
def unlink_state (s : FS) (node : Ptr) (n : inode) (parent : Ptr) (name : List Char) : FS :=
  shift_inode_ids
    { sb := { s.sb with
        free_blocks := s.sb.free_blocks + n.total_blocks
        inodes_table := s.sb.inodes_table.erase node
        free_inodes := s.sb.free_inodes + 1 },
      heap := detach_heap s.heap parent node name }
    n.inode_id

/-- The state a successful `myfs_rmdir` returns. -/
def rmdir_state (s : FS) (node : Ptr) (n : inode) (parent : Ptr) (name : List Char) : FS :=
  shift_inode_ids
    { sb := { s.sb with
        inodes_table := s.sb.inodes_table.erase node
        free_inodes := s.sb.free_inodes + 1 },
      heap := detach_heap s.heap parent node name }
    n.inode_id

/-- The byte count `myfs_write` settles on: `size`, or `block_size - offset`
converted to `size_t` when `offset + size` exceeds the block. -/
def clipped_size (block_size : Int) (offset size : Nat) : Nat :=
  if (offset + size) % 2 ^ 64 > block_size.toNat then
    ((block_size - (offset : Int)) % 2 ^ 64).toNat
  else size

/-- The record `myfs_write` leaves after copying `size1` bytes of `buf` to
`offset` of the buffer `content`. -/
def written (content buf : List Char) (offset size1 : Nat) (m : inode) : inode :=
  { m with
    content := some (content.take offset ++ buf.take size1 ++ content.drop (offset + size1))
    file_size :=
      if ((offset + size1 : Nat) : Int) > m.file_size then ((offset + size1 : Nat) : Int)
      else m.file_size }

/-- Example state: a file named `superblock` created in the root, by
`create("/superblock=x")`. -/
def fs_sb : FS := after_create fs0 "/superblock=x"

/-- The state `myfs_write` returns after copying `size1` bytes. -/
def write_state (s : FS) (node : Ptr) (content buf : List Char) (offset size1 : Nat) : FS :=
  { sb := s.sb, heap := modify s.heap node (written content buf offset size1) }

/-- The path `d/n` of the entry `n` of the directory path `d` (no second
slash after a `d` that ends in one, as in `/` and `a.txt` giving `/a.txt`). -/
def join_path (d n : List Char) : List Char :=
  if d.getLast? = some '/' then d ++ n else d ++ '/' :: n

/-- The initial content as the specification words it: the text cut to
`block_size - 1` bytes, with a newline appended unless the cut text ends in
one. -/
def spec_initial_content (block_size : Nat) (c : List Char) : List Char :=
  if (c.take (block_size - 1)).getLast? = some '\n' then c.take (block_size - 1)
  else c.take (block_size - 1) ++ ['\n']

/-! ## Agreement of the registry and the tree -/

/-- The registry `reg` and the tree below `root` agree in the heap `h`. -/
structure RegOK (reg : List Ptr) (root : Ptr) (h : Heap) : Prop where
  nodup : reg.Nodup
  root_mem : root ∈ reg
  live : ∀ p ∈ reg, ∃ n, deref h p = some n
  orphan : ∀ p ∈ reg, ∀ n, deref h p = some n → n.parent = none → p = root
  child_mem : ∀ q ∈ reg, ∀ pn, deref h q = some pn → ∀ e ∈ pn.children, e.node ∈ reg
  parent_mem : ∀ p ∈ reg, ∀ n, deref h p = some n → ∀ q, n.parent = some q →
    q ∈ reg ∧ ∃ pn, deref h q = some pn ∧ pn.file_type = 2 ∧ ∃ e ∈ pn.children, e.node = p

/-- The root carries identifier 0, every other registered record a positive
one, and the next identifier is beyond the number of registered records. -/
structure IdOK (reg : List Ptr) (root : Ptr) (h : Heap) (next_id : Int) : Prop where
  root_id : ∀ r, deref h root = some r → r.inode_id = 0
  ids : ∀ p ∈ reg, p ≠ root → ∀ n, deref h p = some n → 1 ≤ n.inode_id
  next : (reg.length : Int) + 1 ≤ next_id

/-- The invariant of the registry that every handler preserves. -/
structure RegInv (s : FS) : Prop where
  reg : RegOK s.sb.inodes_table s.sb.root s.heap
  id : IdOK s.sb.inodes_table s.sb.root s.heap s.sb.next_inode_id

/-- The statement of C5: the root is the one registered record without
parent, it is a directory numbered 0; every other registered record has a
registered directory as parent, which holds exactly one binding to it; every
binding of a registered record points to a registered record; and no record
is registered twice. -/
def registry_tree_agree (s : FS) : Prop :=
  (∃ r, deref s.heap s.sb.root = some r ∧ s.sb.root ∈ s.sb.inodes_table
      ∧ r.parent = none ∧ r.inode_id = 0 ∧ r.file_type = 2)
  ∧ s.sb.inodes_table.Nodup
  ∧ (∀ p ∈ s.sb.inodes_table, (∃ n, deref s.heap p = some n)
      ∧ ∀ n, deref s.heap p = some n → n.parent = none → p = s.sb.root)
  ∧ (∀ p ∈ s.sb.inodes_table, p ≠ s.sb.root →
      ∃ n q pn, deref s.heap p = some n ∧ n.parent = some q ∧ q ∈ s.sb.inodes_table
        ∧ deref s.heap q = some pn ∧ pn.file_type = 2
        ∧ (pn.children.filter (fun e => e.node = p)).length = 1)
  ∧ (∀ q ∈ s.sb.inodes_table, ∀ pn, deref s.heap q = some pn →
      ∀ e ∈ pn.children, e.node ∈ s.sb.inodes_table)

/-- How the passes of `shift_inode_ids` for the deleted identifier `d` may
change an identifier: not at all, or down to a value that is still at
least `d`. -/
def id_step (d : Int) (a b : inode) : Prop :=
  b.inode_id = a.inode_id ∨ (d ≤ b.inode_id ∧ b.inode_id < a.inode_id)

/-- Every cell of the second heap stems from the same cell of the first by
`id_step`. -/
def ids_rel (d : Int) (h h1 : Heap) : Prop :=
  ∀ p b, deref h1 p = some b → ∃ a, deref h p = some a ∧ id_step d a b


/-! ## Observations used by the claims on errors and accounting -/

/-- The error code a result carries, if it is an error. -/
def error_of {α : Type} : Result α → Option Errno
  | .error e => some e
  | _ => none

/-- The error code a call returns in a state, if it returns one. -/
def op_error (s : FS) : Op → Option Errno
  | .getattr path => error_of (myfs_getattr s path)
  | .readdir path => error_of (myfs_readdir s path).2
  | .create now path => error_of (myfs_create s now path).2
  | .mkdir now path => error_of (myfs_mkdir s now path).2
  | .rmdir path => error_of (myfs_rmdir s path).2
  | .unlink path => error_of (myfs_unlink s path).2
  | .read path size offset => error_of (myfs_read s path size offset)
  | .write path buf offset => error_of (myfs_write s path buf offset).2
  | .open path => error_of (myfs_open s path)
  | .utimens path => error_of (fs_utimens s path)

/-- Example state: `/a` created on the empty filesystem and unlinked again. -/
def fs_a_unlinked : FS := (myfs_unlink (after_create fs0 "/a") ("/a").toList).1

/-! ## Block accounting -/

/-- Kind and block count of a record. -/
def blk (n : inode) : Int × Int := (n.file_type, n.total_blocks)

/-- The block count of the record at `p` when it is a file; 0 for a directory
and for a cell that is not live. -/
def blocks_of (h : Heap) (p : Ptr) : Int :=
  match deref h p with
  | some n => if n.file_type = 1 then n.total_blocks else 0
  | none => 0

/-- The sum of the block counts of the files among the records `reg`. -/
def held_blocks (h : Heap) (reg : List Ptr) : Int := (reg.map (blocks_of h)).sum

/-- The records `reg` hold `used` blocks: one for every file, none for a
directory. -/
structure BlkOK (reg : List Ptr) (h : Heap) (used : Int) : Prop where
  sum_eq : used = held_blocks h reg
  count : ∀ p ∈ reg, ∀ n, deref h p = some n →
    n.total_blocks = if n.file_type = 1 then 1 else 0

/-- The invariant of the block counters that every handler preserves. -/
structure BlkInv (s : FS) : Prop where
  free_nonneg : 0 ≤ s.sb.free_blocks
  held : BlkOK s.sb.inodes_table s.heap (s.sb.total_blocks - s.sb.free_blocks)

/-! ## Path resolution as the specification words it -/

/-- The non-empty `/`-separated components of a path. -/
def components (path : List Char) : List (List Char) :=
  (path.splitOn '/').filter (fun t => t ≠ [])

/-- Starting at the root, `find_inode_in_dir` applied with each component in
order; a failed lookup leaves nothing to continue from. -/
def lookup_components (s : FS) (ts : List (List Char)) : Option Ptr :=
  ts.foldl (fun cur t => find_inode_in_dir s.heap cur t) (some s.sb.root)

/-! ## The frame of the mutating calls -/

/-- Kind, name, recorded size and content of a record. -/
def file_view (n : inode) : Int × List Char × Int × Option (List Char) :=
  (n.file_type, n.name, n.file_size, n.content)

/-- The names of the children of a record, in binding order. -/
def child_names (n : inode) : List (List Char) := n.children.map (fun e => e.name)

/-- Kind, name, recorded size, content and child names of a record: all of
it but identifier, times, rights, block bookkeeping and addresses. -/
def entity_view (n : inode) :
    (Int × List Char × Int × Option (List Char)) × List (List Char) :=
  (file_view n, child_names n)

/-- Whether a result is a success. -/
def is_ok {α : Type} : Result α → Bool
  | .ok _ => true
  | _ => false

/-- Whether a mutating call succeeds in a state. -/
def succeeds (s : FS) : Op → Bool
  | .create now path => is_ok (myfs_create s now path).2
  | .mkdir now path => is_ok (myfs_mkdir s now path).2
  | .rmdir path => is_ok (myfs_rmdir s path).2
  | .unlink path => is_ok (myfs_unlink s path).2
  | .write path buf offset => is_ok (myfs_write s path buf offset).2
  | _ => false

/-- The components of the path of the entity a mutating call affects: for
`create` and `mkdir` the components of the parent path and the new name, for
the others the components of the path. -/
def affected : Op → Option (List (List Char))
  | .create _ path => some (components (dirname path) ++ [file_name_of path])
  | .mkdir _ path => some (components (dirname path) ++ [basename path])
  | .rmdir path => some (components path)
  | .unlink path => some (components path)
  | .write path _ _ => some (components path)
  | _ => none

/-- The child names of the parent directory of the affected entity after the
call: the new name is bound first, a removed name is gone. -/
def parent_names_after : Op → List (List Char) → List (List Char)
  | .create _ path, names => file_name_of path :: names
  | .mkdir _ path, names => basename path :: names
  | .rmdir path, names => names.erase (basename path)
  | .unlink path, names => names.erase (basename path)
  | _, names => names

/-- Whether the name a mutating call binds or removes, the final component of
its path, has fewer than 255 bytes, so that a `name` array holds it whole
with its terminator; `write` binds and removes no name. -/
def short_named : Op → Bool
  | .create _ path => decide ((file_name_of path).length < 255)
  | .mkdir _ path => decide ((basename path).length < 255)
  | .rmdir path => decide ((basename path).length < 255)
  | .unlink path => decide ((basename path).length < 255)
  | _ => true

/-! ## Resolvability of the registered records -/

/-- The names on the chain of parent links from the root down to a record:
none for the root itself, and the names down to the parent followed by the
record's own name otherwise. -/
inductive Chain (h : Heap) (root : Ptr) : List (List Char) → Ptr → Prop
  | top : Chain h root [] root
  | child {ts : List (List Char)} {q p : Ptr} {n : inode} :
    Chain h root ts q → deref h p = some n → n.parent = some q →
    Chain h root (ts ++ [n.name]) p

/-- The names joined to an absolute path, a `/` before each. -/
def chain_path : List (List Char) → List Char
  | [] => []
  | t :: ts => '/' :: t ++ chain_path ts

/-- A name a path component can carry and a `name` array holds whole: not
empty, without `/` and shorter than 255 bytes. -/
def component_name (t : List Char) : Prop := t ≠ [] ∧ (∀ x ∈ t, x ≠ '/') ∧ t.length < 255

/-- Any `create` or `mkdir` call. -/
def is_create_or_mkdir : Op → Bool
  | .create _ _ => true
  | .mkdir _ _ => true
  | _ => false

/-- A `create` or `mkdir` call whose new name (the final component, for
`create` up to its first `=`) is not empty, has no `/` and is shorter than
255 bytes. -/
def well_named : Op → Bool
  | .create _ path =>
    decide (file_name_of path ≠ [] ∧ (∀ x ∈ file_name_of path, x ≠ '/')
      ∧ (file_name_of path).length < 255)
  | .mkdir _ path =>
    decide (basename path ≠ [] ∧ (∀ x ∈ basename path, x ≠ '/')
      ∧ (basename path).length < 255)
  | _ => false

/-- The states reached from the initial state by calls that all satisfy `ok`. -/
inductive BuiltBy (ok : Op → Bool) : FS → Prop
  | init (mount_time root_time : List Char) : BuiltBy ok (main mount_time root_time)
  | step {s s1 : FS} (op : Op) : BuiltBy ok s → ok op = true → step s op = some s1 →
    BuiltBy ok s1

/-- Every binding carries a name a path component can carry, and every
registered record is reached from the root by some components. -/
structure PathInv (s : FS) : Prop where
  names : ∀ q pn, deref s.heap q = some pn → ∀ e ∈ pn.children, component_name e.name
  reach : ∀ p ∈ s.sb.inodes_table, ∃ ts, walk s.heap ts (some s.sb.root) = some p

/-- Example state: `create("/=x")` on the empty filesystem. -/
def fs_eq : FS := after_create fs0 "/=x"

/-! ## The diagnostic report as the specification words it -/

/-- The records found so far followed by those of the subtree below one more
child, `f` giving the records of a subtree. -/
def append_subtree (f : Ptr → Option (List (Nat × inode)))
    (r : Option (List (Nat × inode))) (child : dir_entry) : Option (List (Nat × inode)) :=
  match r with
  | none => none
  | some l =>
    match f child.node with
    | none => none
    | some l1 => some (l ++ l1)

/-- The records reachable from `node`, in depth-first pre-order with children
in binding order, each with its depth; `none` when the tree below `node` has
more levels than the first argument, or a binding dangles. -/
def tree_entities (h : Heap) : Nat → Ptr → Nat → Option (List (Nat × inode))
  | 0, _, _ => none
  | levels + 1, node, depth =>
    match deref h node with
    | none => none
    | some n =>
      n.children.foldl (append_subtree (fun p => tree_entities h levels p (depth + 1)))
        (some [(depth, n)])

/-- One tree line for each of the records, in order. -/
def tree_lines (es : List (Nat × inode)) : List Char :=
  (es.map (fun x => tree_line x.1 x.2)).flatten

/-- The registered records, in registry order. -/
def registered_records (s : FS) : List inode :=
  s.sb.inodes_table.filterMap (deref s.heap)

/-- One registry line for each of the records, in order. -/
def registry_lines (rs : List inode) : List Char := (rs.map inode_line).flatten

/-- The full report: the counters, the title of the tree, one tree line for
each of the records `es`, one line for each registered record. -/
def full_report (s : FS) (es : List (Nat × inode)) : List Char :=
  report_header s.sb ++ ("File system tree:\n").toList ++ tree_lines es
    ++ registry_lines (registered_records s)

/-- The records of the example state `fs_d` in depth-first pre-order: the
root, `/d` and `/d/b.txt`. -/
def fs_d_entities : List (Nat × inode) :=
  (tree_entities fs_d.heap 22 fs_d.sb.root 0).getD []
/-! ## Heap lemmas -/

theorem deref_of_length_le : ∀ (h : Heap) (p : Ptr), h.length ≤ p → deref h p = none
  | [], _, _ => rfl
  | _ :: _, 0, hp => by simp at hp
  | _ :: h, p + 1, hp => by
    simp only [deref]
    exact deref_of_length_le h p (by simpa using hp)

theorem lt_length_of_deref {h : Heap} {p : Ptr} {n : inode} (hd : deref h p = some n) :
    p < h.length := by
  by_contra hlt
  rw [deref_of_length_le h p (Nat.le_of_not_lt hlt)] at hd
  cases hd

theorem length_store : ∀ (h : Heap) (p : Ptr) (v : Option inode),
    (store h p v).length = h.length
  | [], _, _ => rfl
  | _ :: _, 0, _ => rfl
  | _ :: h, p + 1, v => by simp [store, length_store h p v]

theorem deref_store : ∀ (h : Heap) (p q : Ptr) (v : Option inode),
    deref (store h p v) q = if q = p then (if p < h.length then v else none) else deref h q
  | [], p, q, v => by simp [store, deref]
  | c :: h, 0, 0, v => by simp [store, deref]
  | c :: h, 0, q + 1, v => by simp [store, deref]
  | c :: h, p + 1, 0, v => by simp [store, deref]
  | c :: h, p + 1, q + 1, v => by simp [store, deref, deref_store h p q v]

theorem deref_modify (h : Heap) (p q : Ptr) (f : inode → inode) :
    deref (modify h p f) q = if q = p then (deref h p).map f else deref h q := by
  unfold modify
  cases hd : deref h p with
  | none =>
    by_cases hq : q = p
    · subst hq; simp [hd]
    · simp [hq]
  | some n =>
    simp only [deref_store, lt_length_of_deref hd, if_true, Option.map_some']

theorem length_modify (h : Heap) (p : Ptr) (f : inode → inode) :
    (modify h p f).length = h.length := by
  unfold modify
  cases deref h p <;> simp [length_store]

theorem deref_release (h : Heap) (p q : Ptr) :
    deref (release h p) q = if q = p then none else deref h q := by
  unfold release
  rw [deref_store]
  by_cases hq : q = p
  · simp [hq]
  · simp [hq]

theorem length_release (h : Heap) (p : Ptr) : (release h p).length = h.length :=
  length_store h p none

theorem deref_append : ∀ (h : Heap) (c : Option inode) (q : Ptr),
    deref (h ++ [c]) q = if q = h.length then c else deref h q
  | [], c, 0 => by simp [deref]
  | [], c, q + 1 => by simp [deref]
  | _ :: h, c, 0 => by simp [deref]
  | _ :: h, c, q + 1 => by simp [deref, deref_append h c q]

theorem children_of_eq {h : Heap} {p : Ptr} {n : inode} (hd : deref h p = some n) :
    children_of h p = n.children := by
  simp [children_of, hd]

/-! ## The invariants under the heap primitives -/

theorem same_on_refl {β : Type} (view : inode → β) (h : Heap) : same_on view h h :=
  fun _ => rfl

theorem same_on_trans {β : Type} {view : inode → β} {h h1 h2 : Heap}
    (h01 : same_on view h h1) (h12 : same_on view h1 h2) : same_on view h h2 :=
  fun p => (h12 p).trans (h01 p)

theorem same_on_modify {β : Type} (view : inode → β) (h : Heap) (p : Ptr) (f : inode → inode)
    (hf : ∀ a, view (f a) = view a) : same_on view h (modify h p f) := by
  intro q
  rw [deref_modify]
  by_cases hq : q = p
  · subst hq
    cases hd : deref h q <;> simp [hd, hf]
  · simp [hq]

theorem same_on_shape_of_core {h h1 : Heap} (hc : same_on core h h1) : same_on shape h h1 := by
  intro p
  have := congrArg (Option.map Prod.fst) (hc p)
  simpa [Option.map_map, Function.comp, core] using this

theorem same_on_inv {β : Type} {view : inode → β} {h h1 : Heap} (hs : same_on view h h1)
    {p : Ptr} {b : inode} (hb : deref h1 p = some b) :
    ∃ a, deref h p = some a ∧ view a = view b := by
  have := hs p
  rw [hb] at this
  cases ha : deref h p with
  | none => simp [ha] at this
  | some a =>
    refine ⟨a, rfl, ?_⟩
    simpa [ha] using this.symm

theorem same_on_fwd {β : Type} {view : inode → β} {h h1 : Heap} (hs : same_on view h h1)
    {p : Ptr} {a : inode} (ha : deref h p = some a) :
    ∃ b, deref h1 p = some b ∧ view b = view a := by
  have := hs p
  rw [ha] at this
  cases hb : deref h1 p with
  | none => simp [hb] at this
  | some b =>
    refine ⟨b, rfl, ?_⟩
    simpa [hb] using this

theorem names_ok_of_same {h h1 : Heap} (hs : same_on shape h h1) (hn : names_ok h) :
    names_ok h1 := by
  intro q pn hq
  obtain ⟨a, ha, hv⟩ := same_on_inv hs hq
  have hc : a.children = pn.children := by
    have := congrArg (fun x => x.2.2.1) hv
    simpa [shape] using this
  rw [← hc]
  exact hn q a ha

theorem targets_ok_of_same {h h1 : Heap} (hs : same_on shape h h1) (hn : targets_ok h) :
    targets_ok h1 := by
  intro q pn hq
  obtain ⟨a, ha, hv⟩ := same_on_inv hs hq
  have hc : a.children = pn.children := by
    have := congrArg (fun x => x.2.2.1) hv
    simpa [shape] using this
  rw [← hc]
  exact hn q a ha

theorem dirs_ok_of_same {h h1 : Heap} (hs : same_on shape h h1) (hn : dirs_ok h) :
    dirs_ok h1 := by
  intro q pn hq hne
  obtain ⟨a, ha, hv⟩ := same_on_inv hs hq
  simp only [shape, Prod.mk.injEq] at hv
  rw [← hv.1]
  exact hn q a ha (by rw [hv.2.2.1]; exact hne)

theorem links_ok_of_same {h h1 : Heap} (hs : same_on shape h h1) (hn : links_ok h) :
    links_ok h1 := by
  intro q pn hq e he
  obtain ⟨a, ha, hv⟩ := same_on_inv hs hq
  simp only [shape, Prod.mk.injEq] at hv
  obtain ⟨cn, hcn, hp, hnm⟩ := hn q a ha e (by rw [hv.2.2.1]; exact he)
  obtain ⟨b, hb, hvb⟩ := same_on_fwd hs hcn
  simp only [shape, Prod.mk.injEq] at hvb
  exact ⟨b, hb, by rw [hvb.2.2.2]; exact hp, by rw [hvb.2.1]; exact hnm⟩

theorem root_ok_of_same {h h1 : Heap} {root : Ptr} (hs : same_on shape h h1)
    (hn : root_ok h root) : root_ok h1 root := by
  obtain ⟨r, hr, hp, ht⟩ := hn
  obtain ⟨b, hb, hvb⟩ := same_on_fwd hs hr
  simp only [shape, Prod.mk.injEq] at hvb
  exact ⟨b, hb, by rw [hvb.2.2.2]; exact hp, by rw [hvb.1]; exact ht⟩

theorem files_ok_of_same {bs : Int} {h h1 : Heap} (hs : same_on core h h1)
    (hn : files_ok bs h) : files_ok bs h1 := by
  intro q pn hq e he cn hcn hft
  obtain ⟨a, ha, hv⟩ := same_on_inv hs hq
  simp only [core, shape, Prod.mk.injEq] at hv
  obtain ⟨c0, hc0, hvc⟩ := same_on_inv hs hcn
  simp only [core, shape, Prod.mk.injEq] at hvc
  obtain ⟨buf, hbuf, hlen, h0, h1⟩ :=
    hn q a ha e (by rw [hv.1.2.2.1]; exact he) c0 hc0 (by rw [hvc.1.1]; exact hft)
  exact ⟨buf, by rw [← hvc.2.2]; exact hbuf, hlen, by rw [← hvc.2.1]; exact h0,
    by rw [← hvc.2.1]; exact h1⟩

/-! ### Renumbering -/

theorem core_dec_id (d : Int) (a : inode) : core (dec_id d a) = core a := by
  unfold dec_id
  split <;> rfl

theorem same_on_shift_registry (d : Int) : ∀ (ps : List Ptr) (h : Heap),
    same_on core h (shift_registry d ps h)
  | [], h => same_on_refl core h
  | p :: ps, h =>
    same_on_trans (same_on_modify core h p (dec_id d) (core_dec_id d))
      (same_on_shift_registry d ps _)

theorem same_on_shift_entries (d : Int) : ∀ (es : List dir_entry) (h : Heap),
    same_on core h (shift_entries d es h)
  | [], h => same_on_refl core h
  | e :: es, h =>
    same_on_trans (same_on_modify core h e.node (dec_id d) (core_dec_id d))
      (same_on_shift_entries d es _)

theorem same_on_shift_children (d : Int) : ∀ (ps : List Ptr) (h : Heap),
    same_on core h (shift_children d ps h)
  | [], h => same_on_refl core h
  | p :: ps, h =>
    same_on_trans (same_on_shift_entries d (children_of h p) h)
      (same_on_shift_children d ps _)

theorem same_on_shift (s : FS) (d : Int) : same_on core s.heap (shift_inode_ids s d).heap :=
  same_on_trans (same_on_shift_registry d s.sb.inodes_table s.heap)
    (same_on_shift_children d s.sb.inodes_table _)

/-! ### Allocation of a record without bindings -/

theorem deref_append_old {h : Heap} {c : Option inode} {p : Ptr} {n : inode}
    (hd : deref h p = some n) : deref (h ++ [c]) p = some n := by
  rw [deref_append, if_neg (Nat.ne_of_lt (lt_length_of_deref hd))]
  exact hd

theorem deref_append_inv {h : Heap} {c : inode} {p : Ptr} {n : inode}
    (hd : deref (h ++ [some c]) p = some n) :
    (p = h.length ∧ n = c) ∨ (p ≠ h.length ∧ deref h p = some n) := by
  rw [deref_append] at hd
  by_cases hp : p = h.length
  · left
    simp only [hp, if_true, Option.some.injEq] at hd
    exact ⟨hp, hd.symm⟩
  · right
    simp only [hp, if_false] at hd
    exact ⟨hp, hd⟩

theorem names_ok_append {h : Heap} {c : inode} (hn : names_ok h) (hc : c.children = []) :
    names_ok (h ++ [some c]) := by
  intro q pn hq
  rcases deref_append_inv hq with ⟨_, rfl⟩ | ⟨_, hq⟩
  · rw [hc]
    exact List.Pairwise.nil
  · exact hn q pn hq

theorem targets_ok_append {h : Heap} {c : inode} (hn : targets_ok h) (hc : c.children = []) :
    targets_ok (h ++ [some c]) := by
  intro q pn hq
  rcases deref_append_inv hq with ⟨_, rfl⟩ | ⟨_, hq⟩
  · simp [hc]
  · exact hn q pn hq

theorem dirs_ok_append {h : Heap} {c : inode} (hn : dirs_ok h) (hc : c.children = []) :
    dirs_ok (h ++ [some c]) := by
  intro q pn hq hne
  rcases deref_append_inv hq with ⟨_, rfl⟩ | ⟨_, hq⟩
  · exact absurd hc hne
  · exact hn q pn hq hne

theorem links_ok_append {h : Heap} {c : inode} (hn : links_ok h) (hc : c.children = []) :
    links_ok (h ++ [some c]) := by
  intro q pn hq e he
  rcases deref_append_inv hq with ⟨_, rfl⟩ | ⟨_, hq⟩
  · simp [hc] at he
  · obtain ⟨cn, hcn, hp, hnm⟩ := hn q pn hq e he
    exact ⟨cn, deref_append_old hcn, hp, hnm⟩

theorem files_ok_append {bs : Int} {h : Heap} {c : inode} (hl : links_ok h)
    (hn : files_ok bs h) (hc : c.children = []) : files_ok bs (h ++ [some c]) := by
  intro q pn hq e he cn hcn hft
  rcases deref_append_inv hq with ⟨_, rfl⟩ | ⟨_, hq⟩
  · simp [hc] at he
  · obtain ⟨c0, hc0, _, _⟩ := hl q pn hq e he
    have := deref_append_old (c := some c) hc0
    rw [this] at hcn
    have hcc : c0 = cn := Option.some.inj hcn
    subst hcc
    exact hn q pn hq e he c0 hc0 hft

theorem root_ok_append {h : Heap} {c : inode} {root : Ptr} (hn : root_ok h root) :
    root_ok (h ++ [some c]) root := by
  obtain ⟨r, hr, hp, ht⟩ := hn
  exact ⟨r, deref_append_old hr, hp, ht⟩

/-! ### Updates of one record -/

theorem files_ok_modify {bs : Int} {h : Heap} {p : Ptr} {f : inode → inode}
    (hn : files_ok bs h) (hs : ∀ a, shape (f a) = shape a)
    (hb : ∀ a, deref h p = some a → (f a).file_type = 1 → has_buffer bs (f a)) :
    files_ok bs (modify h p f) := by
  intro q pn hq e he cn hcn hft
  obtain ⟨a, ha, hv⟩ := same_on_inv (same_on_modify shape h p f hs) hq
  simp only [shape, Prod.mk.injEq] at hv
  rw [deref_modify] at hcn
  by_cases hx : e.node = p
  · rw [if_pos hx] at hcn
    cases hpd : deref h p with
    | none => simp [hpd] at hcn
    | some a0 =>
      simp only [hpd, Option.map_some', Option.some.injEq] at hcn
      subst hcn
      exact hb a0 hpd hft
  · rw [if_neg hx] at hcn
    exact hn q a ha e (by rw [hv.2.2.1]; exact he) cn hcn hft

/-! ### Removal of a binding -/

theorem remove_entry_sublist : ∀ (l : List dir_entry) (t : List Char),
    (remove_entry l t).Sublist l
  | [], _ => List.Sublist.slnil
  | e :: es, t => by
    unfold remove_entry
    split
    · exact List.sublist_cons_self e es
    · exact (remove_entry_sublist es t).cons₂ e

theorem mem_of_mem_remove_entry {l : List dir_entry} {t : List Char} {e : dir_entry}
    (he : e ∈ remove_entry l t) : e ∈ l :=
  (remove_entry_sublist l t).subset he

/-- The effect of an update of the bindings of one record on any cell. -/
theorem deref_modify_children (h : Heap) (par : Ptr) (g : List dir_entry → List dir_entry)
    (x : Ptr) :
    deref (modify h par (fun d => { d with children := g d.children })) x
      = if x = par then (deref h par).map (fun d => { d with children := g d.children })
        else deref h x :=
  deref_modify h par x _

theorem modify_children_inv {h : Heap} {par : Ptr} {g : List dir_entry → List dir_entry}
    {x : Ptr} {b : inode}
    (hb : deref (modify h par (fun d => { d with children := g d.children })) x = some b) :
    ∃ a, deref h x = some a ∧ b.parent = a.parent ∧ b.name = a.name
      ∧ b.file_type = a.file_type ∧ b.content = a.content ∧ b.file_size = a.file_size
      ∧ b.inode_id = a.inode_id
      ∧ b.children = if x = par then g a.children else a.children := by
  rw [deref_modify] at hb
  by_cases hx : x = par
  · subst hx
    cases ha : deref h x with
    | none => simp [ha] at hb
    | some a =>
      simp only [ha, if_true, Option.map_some', Option.some.injEq] at hb
      subst hb
      exact ⟨a, rfl, rfl, rfl, rfl, rfl, rfl, rfl, by simp⟩
  · simp only [hx, if_false] at hb
    exact ⟨b, hb, rfl, rfl, rfl, rfl, rfl, rfl, by simp [hx]⟩

theorem modify_children_fwd {h : Heap} (par : Ptr) (g : List dir_entry → List dir_entry)
    {x : Ptr} {a : inode} (ha : deref h x = some a) :
    ∃ b, deref (modify h par (fun d => { d with children := g d.children })) x = some b
      ∧ b.parent = a.parent ∧ b.name = a.name
      ∧ b.file_type = a.file_type ∧ b.content = a.content ∧ b.file_size = a.file_size
      ∧ b.inode_id = a.inode_id
      ∧ b.children = if x = par then g a.children else a.children := by
  rw [deref_modify]
  by_cases hx : x = par
  · subst hx
    simp [ha]
  · simp [hx, ha]

theorem names_ok_shrink {h : Heap} {par : Ptr} {g : List dir_entry → List dir_entry}
    (hg : ∀ l, (g l).Sublist l) (hn : names_ok h) :
    names_ok (modify h par (fun d => { d with children := g d.children })) := by
  intro q pn hq
  obtain ⟨a, ha, _, _, _, _, _, _, hc⟩ := modify_children_inv hq
  rw [hc]
  have hold := hn q a ha
  split
  · exact hold.sublist (hg a.children)
  · exact hold

theorem targets_ok_shrink {h : Heap} {par : Ptr} {g : List dir_entry → List dir_entry}
    (hg : ∀ l, (g l).Sublist l) (hn : targets_ok h) :
    targets_ok (modify h par (fun d => { d with children := g d.children })) := by
  intro q pn hq
  obtain ⟨a, ha, _, _, _, _, _, _, hc⟩ := modify_children_inv hq
  rw [hc]
  have hold := hn q a ha
  split
  · exact ((hg a.children).map _).nodup hold
  · exact hold

theorem mem_of_shrink {par q : Ptr} {g : List dir_entry → List dir_entry}
    (hg : ∀ l, (g l).Sublist l) {l : List dir_entry} {e : dir_entry}
    (he : e ∈ (if q = par then g l else l)) : e ∈ l := by
  split at he
  · exact (hg l).subset he
  · exact he

theorem links_ok_shrink {h : Heap} {par : Ptr} {g : List dir_entry → List dir_entry}
    (hg : ∀ l, (g l).Sublist l) (hn : links_ok h) :
    links_ok (modify h par (fun d => { d with children := g d.children })) := by
  intro q pn hq e he
  obtain ⟨a, ha, _, _, _, _, _, _, hc⟩ := modify_children_inv hq
  rw [hc] at he
  obtain ⟨cn, hcn, hp, hnm⟩ := hn q a ha e (mem_of_shrink hg he)
  obtain ⟨b, hb, hbp, hbn, _⟩ := modify_children_fwd par g hcn
  exact ⟨b, hb, hbp.trans hp, hbn.trans hnm⟩

theorem dirs_ok_shrink {h : Heap} {par : Ptr} {g : List dir_entry → List dir_entry}
    (hg : ∀ l, (g l).Sublist l) (hn : dirs_ok h) :
    dirs_ok (modify h par (fun d => { d with children := g d.children })) := by
  intro q pn hq hne
  obtain ⟨a, ha, _, _, hft, _, _, _, hc⟩ := modify_children_inv hq
  rw [hft]
  apply hn q a ha
  intro hnil
  apply hne
  rw [hc, hnil]
  split
  · exact List.eq_nil_of_sublist_nil (hg [])
  · rfl

theorem files_ok_shrink {bs : Int} {h : Heap} {par : Ptr} {g : List dir_entry → List dir_entry}
    (hg : ∀ l, (g l).Sublist l) (hn : files_ok bs h) :
    files_ok bs (modify h par (fun d => { d with children := g d.children })) := by
  intro q pn hq e he cn hcn hft
  obtain ⟨a, ha, _, _, _, _, _, _, hc⟩ := modify_children_inv hq
  rw [hc] at he
  obtain ⟨c0, hc0, _, _, hcft, hcc, hcs, _⟩ := modify_children_inv hcn
  obtain ⟨buf, hbuf, hlen, h0, h1⟩ :=
    hn q a ha e (mem_of_shrink hg he) c0 hc0 (hcft.symm.trans hft)
  exact ⟨buf, hcc.trans hbuf, hlen, by rw [hcs]; exact h0, by rw [hcs]; exact h1⟩

theorem root_ok_modify_children {h : Heap} {par root : Ptr}
    (g : List dir_entry → List dir_entry) (hn : root_ok h root) :
    root_ok (modify h par (fun d => { d with children := g d.children })) root := by
  obtain ⟨r, hr, hp, ht⟩ := hn
  obtain ⟨b, hb, hbp, _, hbt, _⟩ := modify_children_fwd par g hr
  exact ⟨b, hb, hbp.trans hp, hbt.trans ht⟩

/-! ### Insertion of a binding -/

theorem names_ok_add {h : Heap} {par : Ptr} {e0 : dir_entry} (hn : names_ok h)
    (hfresh : ∀ a, deref h par = some a → ∀ e ∈ a.children, e0.name = e.name →
      255 ≤ e0.name.length) :
    names_ok (modify h par (fun d => { d with children := e0 :: d.children })) := by
  intro q pn hq
  obtain ⟨a, ha, _, _, _, _, _, _, hc⟩ := modify_children_inv (g := fun l => e0 :: l) hq
  rw [hc]
  have hold := hn q a ha
  split
  · rename_i hqp
    subst hqp
    exact List.pairwise_cons.mpr ⟨fun e he => hfresh a ha e he, hold⟩
  · exact hold

theorem targets_ok_add {h : Heap} {par : Ptr} {e0 : dir_entry} (hn : targets_ok h)
    (hnode : ∀ a, deref h par = some a → ∀ e ∈ a.children, e.node ≠ e0.node) :
    targets_ok (modify h par (fun d => { d with children := e0 :: d.children })) := by
  intro q pn hq
  obtain ⟨a, ha, _, _, _, _, _, _, hc⟩ := modify_children_inv (g := fun l => e0 :: l) hq
  rw [hc]
  have hold := hn q a ha
  split
  · rename_i hqp
    subst hqp
    simp only [List.map_cons, List.nodup_cons]
    refine ⟨?_, hold⟩
    intro hmem
    obtain ⟨e, he, hnm⟩ := List.mem_map.mp hmem
    exact hnode a ha e he hnm
  · exact hold

theorem links_ok_add {h : Heap} {par : Ptr} {e0 : dir_entry} (hn : links_ok h)
    (hnew : ∃ c, deref h e0.node = some c ∧ c.parent = some par ∧ c.name = e0.name) :
    links_ok (modify h par (fun d => { d with children := e0 :: d.children })) := by
  intro q pn hq e he
  obtain ⟨a, ha, _, _, _, _, _, _, hc⟩ := modify_children_inv (g := fun l => e0 :: l) hq
  rw [hc] at he
  have key : ∃ cn, deref h e.node = some cn ∧ cn.parent = some q ∧ cn.name = e.name := by
    by_cases hqp : q = par
    · simp only [hqp, if_true, List.mem_cons] at he
      rcases he with rfl | he
      · rw [hqp]
        exact hnew
      · exact hn q a ha e he
    · simp only [hqp, if_false] at he
      exact hn q a ha e he
  obtain ⟨cn, hcn, hp, hnm⟩ := key
  obtain ⟨b, hb, hbp, hbn, _⟩ := modify_children_fwd par (fun l => e0 :: l) hcn
  exact ⟨b, hb, hbp.trans hp, hbn.trans hnm⟩

theorem dirs_ok_add {h : Heap} {par : Ptr} {e0 : dir_entry} (hn : dirs_ok h)
    (hdir : ∀ a, deref h par = some a → a.file_type = 2) :
    dirs_ok (modify h par (fun d => { d with children := e0 :: d.children })) := by
  intro q pn hq hne
  obtain ⟨a, ha, _, _, hft, _, _, _, hc⟩ := modify_children_inv (g := fun l => e0 :: l) hq
  rw [hft]
  by_cases hqp : q = par
  · subst hqp
    exact hdir a ha
  · simp only [hqp, if_false] at hc
    exact hn q a ha (by rw [← hc]; exact hne)

theorem files_ok_add {bs : Int} {h : Heap} {par : Ptr} {e0 : dir_entry} (hn : files_ok bs h)
    (hnew : ∀ c, deref h e0.node = some c → c.file_type = 1 → has_buffer bs c) :
    files_ok bs (modify h par (fun d => { d with children := e0 :: d.children })) := by
  intro q pn hq e he cn hcn hft
  obtain ⟨a, ha, _, _, _, _, _, _, hc⟩ := modify_children_inv (g := fun l => e0 :: l) hq
  rw [hc] at he
  obtain ⟨c0, hc0, _, _, hcft, hcc, hcs, _⟩ := modify_children_inv hcn
  have key : has_buffer bs c0 := by
    by_cases hqp : q = par
    · simp only [hqp, if_true, List.mem_cons] at he
      rcases he with rfl | he
      · exact hnew c0 hc0 (hcft.symm.trans hft)
      · exact hn q a ha e he c0 hc0 (hcft.symm.trans hft)
    · simp only [hqp, if_false] at he
      exact hn q a ha e he c0 hc0 (hcft.symm.trans hft)
  obtain ⟨buf, hbuf, hlen, h0, h1⟩ := key
  exact ⟨buf, hcc.trans hbuf, hlen, by rw [hcs]; exact h0, by rw [hcs]; exact h1⟩

/-! ### Release of a record -/

theorem deref_release_inv {h : Heap} {node p : Ptr} {n : inode}
    (hd : deref (release h node) p = some n) : p ≠ node ∧ deref h p = some n := by
  rw [deref_release] at hd
  by_cases hp : p = node
  · simp [hp] at hd
  · simp only [hp, if_false] at hd
    exact ⟨hp, hd⟩

theorem names_ok_release {h : Heap} {node : Ptr} (hn : names_ok h) :
    names_ok (release h node) :=
  fun q pn hq => hn q pn (deref_release_inv hq).2

theorem targets_ok_release {h : Heap} {node : Ptr} (hn : targets_ok h) :
    targets_ok (release h node) :=
  fun q pn hq => hn q pn (deref_release_inv hq).2

theorem dirs_ok_release {h : Heap} {node : Ptr} (hn : dirs_ok h) :
    dirs_ok (release h node) :=
  fun q pn hq => hn q pn (deref_release_inv hq).2

theorem files_ok_release {bs : Int} {h : Heap} {node : Ptr} (hn : files_ok bs h) :
    files_ok bs (release h node) :=
  fun q pn hq e he cn hcn =>
    hn q pn (deref_release_inv hq).2 e he cn (deref_release_inv hcn).2

theorem links_ok_release {h : Heap} {node : Ptr} (hn : links_ok h)
    (hfree : ∀ q pn, deref h q = some pn → q ≠ node → ∀ e ∈ pn.children, e.node ≠ node) :
    links_ok (release h node) := by
  intro q pn hq e he
  obtain ⟨hqn, hq⟩ := deref_release_inv hq
  obtain ⟨cn, hcn, hp, hnm⟩ := hn q pn hq e he
  refine ⟨cn, ?_, hp, hnm⟩
  rw [deref_release, if_neg (hfree q pn hq hqn e he)]
  exact hcn

theorem root_ok_release {h : Heap} {node root : Ptr} (hn : root_ok h root)
    (hne : root ≠ node) : root_ok (release h node) root := by
  obtain ⟨r, hr, hp, ht⟩ := hn
  exact ⟨r, by rw [deref_release, if_neg hne]; exact hr, hp, ht⟩

/-! ### The bundled heap invariant -/

theorem heapinv_of_same {h h1 : Heap} {root : Ptr} (hs : same_on core h h1)
    (hi : HeapInv h root) : HeapInv h1 root :=
  have hs1 := same_on_shape_of_core hs
  ⟨names_ok_of_same hs1 hi.names, targets_ok_of_same hs1 hi.targets,
    links_ok_of_same hs1 hi.links, dirs_ok_of_same hs1 hi.dirs,
    files_ok_of_same hs hi.files, root_ok_of_same hs1 hi.root⟩

theorem heapinv_append {h : Heap} {root : Ptr} {c : inode} (hi : HeapInv h root)
    (hc : c.children = []) : HeapInv (h ++ [some c]) root :=
  ⟨names_ok_append hi.names hc, targets_ok_append hi.targets hc, links_ok_append hi.links hc, dirs_ok_append hi.dirs hc,
    files_ok_append hi.links hi.files hc, root_ok_append hi.root⟩

theorem heapinv_modify {h : Heap} {root p : Ptr} {f : inode → inode} (hi : HeapInv h root)
    (hs : ∀ a, shape (f a) = shape a)
    (hb : ∀ a, deref h p = some a → (f a).file_type = 1 → has_buffer 4096 (f a)) :
    HeapInv (modify h p f) root :=
  have hs1 := same_on_modify shape h p f hs
  ⟨names_ok_of_same hs1 hi.names, targets_ok_of_same hs1 hi.targets,
    links_ok_of_same hs1 hi.links, dirs_ok_of_same hs1 hi.dirs,
    files_ok_modify hi.files hs hb, root_ok_of_same hs1 hi.root⟩

theorem heapinv_shrink {h : Heap} {root par : Ptr} {g : List dir_entry → List dir_entry}
    (hi : HeapInv h root) (hg : ∀ l, (g l).Sublist l) :
    HeapInv (modify h par (fun d => { d with children := g d.children })) root :=
  ⟨names_ok_shrink hg hi.names, targets_ok_shrink hg hi.targets, links_ok_shrink hg hi.links, dirs_ok_shrink hg hi.dirs,
    files_ok_shrink hg hi.files, root_ok_modify_children g hi.root⟩

theorem heapinv_add {h : Heap} {root par : Ptr} {e0 : dir_entry} (hi : HeapInv h root)
    (hfresh : ∀ a, deref h par = some a → ∀ e ∈ a.children, e0.name = e.name →
      255 ≤ e0.name.length)
    (hnode : ∀ a, deref h par = some a → ∀ e ∈ a.children, e.node ≠ e0.node)
    (hdir : ∀ a, deref h par = some a → a.file_type = 2)
    (hnew : ∃ c, deref h e0.node = some c ∧ c.parent = some par ∧ c.name = e0.name
      ∧ (c.file_type = 1 → has_buffer 4096 c)) :
    HeapInv (modify h par (fun d => { d with children := e0 :: d.children })) root := by
  obtain ⟨c, hc, hcp, hcn, hcb⟩ := hnew
  refine ⟨names_ok_add hi.names hfresh, targets_ok_add hi.targets hnode,
    links_ok_add hi.links ⟨c, hc, hcp, hcn⟩,
    dirs_ok_add hi.dirs hdir, files_ok_add hi.files ?_,
    root_ok_modify_children (fun l => e0 :: l) hi.root⟩
  intro c1 hc1 hft
  rw [hc] at hc1
  cases hc1
  exact hcb hft

theorem heapinv_release {h : Heap} {root node : Ptr} (hi : HeapInv h root)
    (hfree : ∀ q pn, deref h q = some pn → q ≠ node → ∀ e ∈ pn.children, e.node ≠ node)
    (hne : root ≠ node) : HeapInv (release h node) root :=
  ⟨names_ok_release hi.names, targets_ok_release hi.targets, links_ok_release hi.links hfree, dirs_ok_release hi.dirs,
    files_ok_release hi.files, root_ok_release hi.root hne⟩

/-! ## Tokens, `basename` and `dirname` -/

theorem strtokAux_nil (cur : List Char) :
    strtokAux [] cur = if cur = [] then [] else [cur] := rfl

theorem strtokAux_snoc_slash : ∀ (l cur : List Char),
    strtokAux (l ++ ['/']) cur = strtokAux l cur
  | [], cur => by
    by_cases hc : cur = [] <;> simp [strtokAux, hc]
  | c :: cs, cur => by
    have ih1 := strtokAux_snoc_slash cs []
    have ih2 := strtokAux_snoc_slash cs (cur ++ [c])
    by_cases hc : c = '/'
    · simp [strtokAux, hc, ih1]
    · simp [strtokAux, hc, ih2]

theorem strtok_all_snoc_slash (l : List Char) : strtok_all (l ++ ['/']) = strtok_all l :=
  strtokAux_snoc_slash l []

theorem strtok_all_cons_slash (l : List Char) : strtok_all ('/' :: l) = strtok_all l := by
  simp [strtok_all, strtokAux]

theorem rtakeWhile_after_slash (a : List Char) : ∀ (xs : List Char),
    (a ++ '/' :: xs).rtakeWhile (fun c => c != '/') = xs.rtakeWhile (fun c => c != '/') := by
  intro xs
  induction xs using List.reverseRecOn with
  | nil =>
    rw [List.rtakeWhile_concat_neg]
    · simp
    · simp
  | append_singleton ys y ih =>
    have hassoc : a ++ '/' :: (ys ++ [y]) = (a ++ '/' :: ys) ++ [y] := by simp
    rw [hassoc, List.rtakeWhile_concat, List.rtakeWhile_concat, ih]

theorem rtakeWhile_all {l : List Char} (hl : ∀ x ∈ l, x ≠ '/') :
    l.rtakeWhile (fun c => c != '/') = l :=
  List.rtakeWhile_eq_self_iff.mpr (fun x hx => by simpa using hl x hx)

theorem strtokAux_snoc_last (c : Char) (hc : c ≠ '/') : ∀ (l cur : List Char),
    (∀ x ∈ cur, x ≠ '/') →
    (strtokAux (l ++ [c]) cur).getLast?
      = some ((cur ++ l).rtakeWhile (fun c => c != '/') ++ [c])
  | [], cur, hcur => by
    simp only [List.nil_append, strtokAux, hc, if_false, List.append_nil]
    simp [rtakeWhile_all hcur]
  | x :: xs, cur, hcur => by
    simp only [List.cons_append, strtokAux]
    by_cases hx : x = '/'
    · subst hx
      have ih := strtokAux_snoc_last c hc xs [] (by simp)
      simp only [List.nil_append] at ih
      simp only [if_true, rtakeWhile_after_slash]
      by_cases hcu : cur = []
      · simp only [hcu, if_true]
        exact ih
      · simp only [hcu, if_false]
        cases ht : strtokAux (xs ++ [c]) [] with
        | nil => rw [ht] at ih; simp at ih
        | cons t ts =>
          rw [ht] at ih
          rw [List.getLast?_cons_cons]
          exact ih
    · simp only [hx, if_false]
      have ih := strtokAux_snoc_last c hc xs (cur ++ [x]) (by
        intro y hy
        rcases List.mem_append.mp hy with hy | hy
        · exact hcur y hy
        · simp at hy; rw [hy]; exact hx)
      simpa using ih

theorem basename_snoc_slash {l : List Char} (hl : l ≠ []) :
    basename (l ++ ['/']) = basename l := by
  unfold basename
  simp only [hl, if_false, List.append_eq_nil, List.cons_ne_self, and_false]
  rw [List.rdropWhile_concat_pos _ _ _ (by simp)]

theorem basename_snoc_other (l : List Char) {c : Char} (hc : c ≠ '/') :
    basename (l ++ [c]) = l.rtakeWhile (fun c => c != '/') ++ [c] := by
  unfold basename
  have h1 : (l ++ [c]).rdropWhile (fun c => c == '/') = l ++ [c] :=
    List.rdropWhile_concat_neg _ _ _ (by simpa using hc)
  simp only [h1, List.append_eq_nil, List.cons_ne_self, and_false, if_false]
  rw [List.rtakeWhile_concat_pos _ _ _ (by simpa using hc)]

/-- The last token of a path is its `basename`. -/
theorem last_token_eq_basename (path : List Char) (hne : strtok_all path ≠ []) :
    (strtok_all path).getLast? = some (basename path) := by
  induction path using List.reverseRecOn with
  | nil => simp [strtok_all, strtokAux] at hne
  | append_singleton l c ih =>
    by_cases hc : c = '/'
    · subst hc
      rw [strtok_all_snoc_slash] at hne ⊢
      have hl : l ≠ [] := by
        rintro rfl
        simp [strtok_all, strtokAux] at hne
      rw [basename_snoc_slash hl]
      exact ih hne
    · rw [basename_snoc_other l hc]
      have := strtokAux_snoc_last c hc l [] (by simp)
      simpa [strtok_all] using this

/-! ## Path resolution -/

theorem find_entry_eq_none {l : List dir_entry} {t : List Char} :
    find_entry l t = none ↔ ∀ e ∈ l, e.name ≠ t := by
  induction l with
  | nil => simp [find_entry]
  | cons e es ih =>
    unfold find_entry
    by_cases he : e.name = t
    · simp [he]
    · simp [he, ih]

theorem find_entry_eq_some {l : List dir_entry} {t : List Char} {x : Ptr}
    (h : find_entry l t = some x) : (⟨t, x⟩ : dir_entry) ∈ l := by
  induction l with
  | nil => simp [find_entry] at h
  | cons e es ih =>
    unfold find_entry at h
    by_cases he : e.name = t
    · simp only [he, if_true, Option.some.injEq] at h
      have : e = ⟨t, x⟩ := by
        cases e
        simp_all
      rw [this]
      exact List.mem_cons_self _ _
    · simp only [he, if_false] at h
      exact List.mem_cons_of_mem _ (ih h)

theorem find_entry_remove_entry_same {l : List dir_entry} {t : List Char}
    (hn : (l.map (fun e => e.name)).Nodup) : find_entry (remove_entry l t) t = none := by
  induction l with
  | nil => simp [remove_entry, find_entry]
  | cons e es ih =>
    simp only [List.map_cons, List.nodup_cons] at hn
    unfold remove_entry
    by_cases he : e.name = t
    · simp only [he, if_true]
      rw [find_entry_eq_none]
      intro e1 he1 hnm
      apply hn.1
      rw [he, ← hnm]
      exact List.mem_map_of_mem _ he1
    · simp only [he, if_false]
      unfold find_entry
      simp only [he, if_false]
      exact ih hn.2

theorem find_entry_remove_entry_other {l : List dir_entry} {t u : List Char} (hne : u ≠ t) :
    find_entry (remove_entry l t) u = find_entry l u := by
  induction l with
  | nil => simp [remove_entry]
  | cons e es ih =>
    unfold remove_entry
    by_cases he : e.name = t
    · simp only [he, if_true]
      conv_rhs => unfold find_entry
      have : ¬ e.name = u := by rw [he]; exact fun h => hne h.symm
      simp [this]
    · simp only [he, if_false]
      unfold find_entry
      rw [ih]

theorem walk_none (h : Heap) : ∀ (ts : List (List Char)), walk h ts none = none
  | [] => rfl
  | _ :: _ => rfl

theorem walk_append (h : Heap) : ∀ (ts us : List (List Char)) (cur : Option Ptr),
    walk h (ts ++ us) cur = walk h us (walk h ts cur)
  | [], us, cur => rfl
  | t :: ts, us, none => by simp [walk, walk_none]
  | t :: ts, us, some c => by
    simp only [List.cons_append, walk]
    exact walk_append h ts us _

theorem find_inode_by_path_eq_walk (s : FS) (path : List Char) :
    find_inode_by_path s path = walk s.heap (strtok_all path) (some s.sb.root) := by
  unfold find_inode_by_path
  by_cases hp : path = ['/']
  · subst hp
    simp [strtok_all, strtokAux, walk]
  · simp only [hp, if_false]
    split
    · rw [strtok_all_cons_slash]
    · rfl

/-! ## Names in their arrays -/

theorem name_field_short {name : List Char} (h : name.length < 255) :
    name_field name = name :=
  List.take_of_length_le (Nat.le_of_lt h)

theorem name_field_idem (name : List Char) : name_field (name_field name) = name_field name := by
  simp [name_field, List.take_take]

theorem name_field_length_le (name : List Char) : (name_field name).length ≤ 255 := by
  simp only [name_field, List.length_take]
  omega

theorem name_field_length_long {name : List Char} (h : 255 ≤ name.length) :
    (name_field name).length = 255 := by
  simp only [name_field, List.length_take]
  omega

/-- A name that was not found is bound without clashing with a shorter name:
the new binding equals an old one only when it fills the whole array. -/
theorem name_field_fresh {l : List dir_entry} {name : List Char}
    (hf : ∀ e ∈ l, e.name ≠ name) :
    ∀ e ∈ l, name_field name = e.name → 255 ≤ (name_field name).length := by
  intro e he heq
  by_cases hs : name.length < 255
  · rw [name_field_short hs] at heq
    exact absurd heq.symm (hf e he)
  · rw [name_field_length_long (Nat.le_of_not_lt hs)]

/-! ## The handlers in terms of their parsed bodies -/

theorem add_entry_to_dir_eq {h : Heap} {dir child : Ptr} {c : inode}
    (hc : deref h child = some c) :
    add_entry_to_dir h dir child
      = modify h dir
          (fun d => { d with children := ⟨name_field c.name, child⟩ :: d.children }) := by
  simp [add_entry_to_dir, hc]

theorem deref_append_new (h : Heap) (c : Option inode) : deref (h ++ [c]) h.length = c := by
  simp [deref_append]

theorem deref_modify_new (h : Heap) (c : inode) (f : inode → inode) :
    deref (modify (h ++ [some c]) h.length f) h.length = some (f c) := by
  simp [deref_modify, deref_append_new]

theorem myfs_create_eq (s : FS) (now path : List Char) :
    myfs_create s now path
      = create_at s now (parent_of s path) (file_name_of path) (init_content_of path) := by
  unfold myfs_create create_at parent_of file_name_of init_content_of
  dsimp only
  cases hp : (if dirname path = ['/'] then some s.sb.root else find_inode_by_path s (dirname path)) with
  | none => rfl
  | some par =>
    dsimp only
    cases hpn : deref s.heap par with
    | none => rfl
    | some pn =>
      dsimp only
      by_cases hft : pn.file_type = 2
      · simp only [hft, ne_eq, not_true_eq_false, if_false, find_inode_in_dir, children_of_eq hpn]
        by_cases hex : (find_entry pn.children (List.takeWhile (fun c => c != '=') (basename path))).isSome = true
        · simp only [hex, if_true]
        · simp only [hex, if_false]
          simp only [create_inode]
          by_cases hfb : s.sb.free_blocks > 0
          · simp only [hfb, if_true]
            rw [add_entry_to_dir_eq (deref_modify_new _ _ _)]
            simp [create_file_state, new_inode, file_data, name_field_idem]
          · simp [hfb, create_leak_state, new_inode]
      · simp [hft]

theorem myfs_mkdir_eq (s : FS) (now path : List Char) :
    myfs_mkdir s now path = mkdir_at s now (parent_of s path) (basename path) := by
  unfold myfs_mkdir mkdir_at parent_of
  dsimp only
  cases hp : (if dirname path = ['/'] then some s.sb.root else find_inode_by_path s (dirname path)) with
  | none => rfl
  | some par =>
    dsimp only
    cases hpn : deref s.heap par with
    | none => rfl
    | some pn =>
      dsimp only
      by_cases hft : pn.file_type = 2
      · simp only [hft, ne_eq, not_true_eq_false, if_false, find_inode_in_dir, children_of_eq hpn]
        by_cases hex : (find_entry pn.children (basename path)).isSome = true
        · simp only [hex, if_true]
        · simp only [hex, if_false]
          simp only [create_inode]
          rw [add_entry_to_dir_eq (deref_append_new _ _)]
          simp [mkdir_state, new_inode, name_field_idem]
      · simp [hft]
theorem store_store : ∀ (h : Heap) (p : Ptr) (v w : Option inode),
    store (store h p v) p w = store h p w
  | [], _, _, _ => rfl
  | _ :: _, 0, _, _ => rfl
  | c :: h, p + 1, v, w => by simp [store, store_store h p v w]

theorem release_modify (h : Heap) (p : Ptr) (f : inode → inode) :
    release (modify h p f) p = release h p := by
  unfold modify release
  cases deref h p with
  | none => rfl
  | some n => exact store_store h p _ _

theorem myfs_unlink_cases (s : FS) (path : List Char) :
    ((myfs_unlink s path).1 = s ∧ (myfs_unlink s path).2 ≠ .ok ())
    ∨ ∃ node n parent, find_inode_by_path s path = some node ∧ deref s.heap node = some n
        ∧ n.file_type = 1 ∧ n.parent = some parent
        ∧ ((node ∈ s.sb.inodes_table
            ∧ myfs_unlink s path = (unlink_state s node n parent (basename path), .ok ()))
          ∨ (node ∉ s.sb.inodes_table
            ∧ myfs_unlink s path =
              ({ sb := { s.sb with free_blocks := s.sb.free_blocks + n.total_blocks },
                 heap := modify
                  (modify s.heap parent
                    (fun d => { d with children := remove_entry d.children (basename path) }))
                  node (fun m => { m with total_blocks := 0 }) }, .error .ENOENT))) := by
  unfold myfs_unlink
  cases hf : find_inode_by_path s path with
  | none => left; exact ⟨rfl, fun h => by cases h⟩
  | some node =>
    dsimp only
    cases hn : deref s.heap node with
    | none => left; exact ⟨rfl, fun h => by cases h⟩
    | some n =>
      dsimp only
      by_cases hft : n.file_type = 1
      · simp only [hft, ne_eq, not_true_eq_false, if_false]
        cases hp : n.parent with
        | none => left; exact ⟨rfl, fun h => by cases h⟩
        | some parent =>
          right
          refine ⟨node, n, parent, rfl, hn, hft, hp, ?_⟩
          dsimp only
          by_cases hreg : node ∈ s.sb.inodes_table
          · left
            refine ⟨hreg, ?_⟩
            simp only [hreg, if_true, unlink_state, detach_heap, remove_entry_from_dir,
              release_modify]
          · right
            refine ⟨hreg, ?_⟩
            simp only [hreg, if_false, remove_entry_from_dir]
      · left
        simp [hft]

theorem myfs_rmdir_cases (s : FS) (path : List Char) :
    ((myfs_rmdir s path).1 = s ∧ (myfs_rmdir s path).2 ≠ .ok ())
    ∨ ∃ node n parent, find_inode_by_path s path = some node ∧ deref s.heap node = some n
        ∧ n.file_type = 2 ∧ n.children = [] ∧ n.parent = some parent
        ∧ ((node ∈ s.sb.inodes_table
            ∧ myfs_rmdir s path = (rmdir_state s node n parent (basename path), .ok ()))
          ∨ (node ∉ s.sb.inodes_table
            ∧ myfs_rmdir s path =
              ({ sb := s.sb,
                 heap := modify s.heap parent
                  (fun d => { d with children := remove_entry d.children (basename path) }) },
               .error .ENOENT))) := by
  unfold myfs_rmdir
  cases hf : find_inode_by_path s path with
  | none => left; exact ⟨rfl, fun h => by cases h⟩
  | some node =>
    dsimp only
    cases hn : deref s.heap node with
    | none => left; exact ⟨rfl, fun h => by cases h⟩
    | some n =>
      dsimp only
      by_cases hft : n.file_type = 2
      · simp only [hft, ne_eq, not_true_eq_false, if_false]
        by_cases hch : n.children = []
        · simp only [hch, not_true_eq_false, if_false]
          cases hp : n.parent with
          | none => left; exact ⟨rfl, fun h => by cases h⟩
          | some parent =>
            right
            refine ⟨node, n, parent, rfl, hn, hft, hch, hp, ?_⟩
            dsimp only
            by_cases hreg : node ∈ s.sb.inodes_table
            · left
              refine ⟨hreg, ?_⟩
              simp only [hreg, if_true, rmdir_state, detach_heap, remove_entry_from_dir]
            · right
              refine ⟨hreg, ?_⟩
              simp only [hreg, if_false, remove_entry_from_dir]
        · left
          simp [hch]
      · left
        simp [hft]
/-! ## Resolution inside a well-formed heap -/

theorem walk_last {h : Heap} {ts : List (List Char)} {root node : Ptr}
    (hw : walk h ts (some root) = some node) :
    (ts = [] ∧ node = root)
    ∨ ∃ ts1 t P, ts = ts1 ++ [t] ∧ walk h ts1 (some root) = some P
        ∧ find_entry (children_of h P) t = some node := by
  rcases List.eq_nil_or_concat ts with rfl | ⟨ts1, t, hts⟩
  · left
    simp only [walk, Option.some.injEq] at hw
    exact ⟨rfl, hw.symm⟩
  · right
    rw [List.concat_eq_append] at hts
    subst hts
    rw [walk_append] at hw
    cases hP : walk h ts1 (some root) with
    | none => rw [hP] at hw; simp [walk] at hw
    | some P =>
      rw [hP] at hw
      exact ⟨ts1, t, P, rfl, hP, by simpa [walk, find_inode_in_dir] using hw⟩

theorem entry_of_find {h : Heap} {P node : Ptr} {t : List Char}
    (hf : find_entry (children_of h P) t = some node) :
    ∃ pP, deref h P = some pP ∧ (⟨t, node⟩ : dir_entry) ∈ pP.children
      ∧ find_entry pP.children t = some node := by
  unfold children_of at hf
  cases hP : deref h P with
  | none => rw [hP] at hf; simp [find_entry] at hf
  | some pP =>
    rw [hP] at hf
    exact ⟨pP, rfl, find_entry_eq_some hf, hf⟩

/-- A path that resolves either names the root or ends in a binding of a
live directory; in the second case the last token is the `basename`. -/
theorem resolve_last {s : FS} {path : List Char} {node : Ptr}
    (hf : find_inode_by_path s path = some node) :
    node = s.sb.root
    ∨ ∃ ts1 P pP, strtok_all path = ts1 ++ [basename path]
        ∧ walk s.heap ts1 (some s.sb.root) = some P
        ∧ deref s.heap P = some pP
        ∧ (⟨basename path, node⟩ : dir_entry) ∈ pP.children
        ∧ find_entry pP.children (basename path) = some node := by
  rw [find_inode_by_path_eq_walk] at hf
  rcases walk_last hf with ⟨_, h2⟩ | ⟨ts1, t, P, hts, hw, hfe⟩
  · exact Or.inl h2
  · right
    have hlast := last_token_eq_basename path (by rw [hts]; simp)
    rw [hts] at hlast
    simp at hlast
    subst hlast
    obtain ⟨pP, hP, hmem, hfe1⟩ := entry_of_find hfe
    exact ⟨ts1, P, pP, hts, hw, hP, hmem, hfe1⟩

/-- After the first binding named `t` is removed, no binding of the list
points to the record that binding pointed to. -/
theorem remove_entry_target {t : List Char} {x : Ptr} : ∀ {l : List dir_entry},
    find_entry l t = some x → (l.map (fun e => e.node)).Nodup →
    ∀ e ∈ remove_entry l t, e.node ≠ x
  | [], hf, _ => by cases hf
  | a :: l, hf, hnd => by
    simp only [List.map_cons, List.nodup_cons] at hnd
    simp only [find_entry] at hf
    simp only [remove_entry]
    by_cases ha : a.name = t
    · rw [if_pos ha] at hf ⊢
      simp only [Option.some.injEq] at hf
      intro e he heq
      exact hnd.1 (hf ▸ heq ▸ List.mem_map_of_mem (fun e => e.node) he)
    · rw [if_neg ha] at hf ⊢
      intro e he
      rcases List.mem_cons.mp he with h1 | h1
      · intro heq
        have hx : x ∈ l.map (fun e => e.node) :=
          List.mem_map_of_mem (fun e => e.node) (find_entry_eq_some hf)
        rw [h1] at heq
        exact hnd.1 (heq ▸ hx)
      · exact remove_entry_target hf hnd.2 e h1

theorem detach_free {h : Heap} {root P node : Ptr} {pP n : inode} {t : List Char}
    (hi : HeapInv h root) (hP : deref h P = some pP)
    (hfe : find_entry pP.children t = some node) (hn : deref h node = some n) :
    n.parent = some P ∧ n.name = t
    ∧ ∀ q pn, deref (modify h P (fun d => { d with children := remove_entry d.children t })) q
          = some pn → q ≠ node → ∀ e ∈ pn.children, e.node ≠ node := by
  obtain ⟨cn, hcn, hcp, hcnm⟩ := hi.links P pP hP _ (find_entry_eq_some hfe)
  rw [hn] at hcn
  have hcn : n = cn := Option.some.inj hcn
  subst hcn
  refine ⟨hcp, hcnm, ?_⟩
  intro q pn hq _ e he hen
  obtain ⟨a, ha, _, _, _, _, _, _, hc⟩ :=
    modify_children_inv (g := fun l => remove_entry l t) hq
  rw [hc] at he
  have hea : e ∈ a.children := mem_of_shrink (fun l => remove_entry_sublist l t) he
  obtain ⟨c2, hc2, hc2p, hc2n⟩ := hi.links q a ha e hea
  rw [hen, hn] at hc2
  have hc2 : n = c2 := Option.some.inj hc2
  subst hc2
  have hqP : q = P := by
    rw [hcp] at hc2p
    exact (Option.some.inj hc2p).symm
  subst hqP
  rw [hP] at ha
  have ha : pP = a := Option.some.inj ha
  subst ha
  simp only [if_true] at he
  exact remove_entry_target hfe (hi.targets q pP hP) e he hen

/-! ## The invariant is preserved -/

theorem inv_main (mount_time root_time : List Char) : Inv (main mount_time root_time) := by
  have hheap : (main mount_time root_time).heap
      = [some (new_inode
          { sb := { total_inodes := 0, total_blocks := 1024, free_blocks := 1024,
                    free_inodes := 100, block_size := 4096, inodes_table := [],
                    time_mount := mount_time, root := 0, next_inode_id := 0 }, heap := [] }
          root_time 2 ("rwxr-xr-x").toList ("/").toList none none)] := rfl
  have hroot : (main mount_time root_time).sb.root = 0 := rfl
  have hd : ∀ q pn, deref (main mount_time root_time).heap q = some pn →
      pn.children = [] ∧ pn.parent = none ∧ pn.file_type = 2 ∧ q = 0 := by
    intro q pn hq
    rw [hheap] at hq
    cases q with
    | zero =>
      simp only [deref, Option.some.injEq] at hq
      subst hq
      exact ⟨rfl, rfl, rfl, rfl⟩
    | succ q => simp [deref] at hq
  refine ⟨rfl, ⟨?_, ?_, ?_, ?_, ?_, ?_⟩⟩
  · intro q pn hq
    rw [(hd q pn hq).1]
    exact List.Pairwise.nil
  · intro q pn hq
    rw [(hd q pn hq).1]
    exact List.nodup_nil
  · intro q pn hq e he
    rw [(hd q pn hq).1] at he
    cases he
  · intro q pn hq hne
    exact absurd (hd q pn hq).1 hne
  · intro q pn hq e he
    rw [(hd q pn hq).1] at he
    cases he
  · rw [hroot, hheap]
    exact ⟨_, rfl, rfl, rfl⟩
theorem initial_buffer_length (bs : Nat) (ic : List Char) (hbs : 0 < bs) :
    (initial_buffer bs ic).1.length = bs
      ∧ 0 ≤ (initial_buffer bs ic).2 ∧ (initial_buffer bs ic).2 ≤ (bs : Int) := by
  unfold initial_buffer
  dsimp only
  have hlen : (if ic.length ≥ bs then bs - 1 else ic.length) ≤ ic.length
      ∧ (if ic.length ≥ bs then bs - 1 else ic.length) < bs := by
    split <;> omega
  generalize (if ic.length ≥ bs then bs - 1 else ic.length) = len at hlen ⊢
  have hcopy : (List.take len ic ++ List.drop len (List.replicate bs (Char.ofNat 0))).length
      = bs := by
    simp only [List.length_append, List.length_take, List.length_drop, List.length_replicate]
    omega
  generalize (if len = 0 then Char.ofNat 0 else ic.getD (len - 1) (Char.ofNat 0)) = last
  by_cases hl : last = '\n'
  · simp only [hl, ne_eq, not_true_eq_false, if_false]
    exact ⟨hcopy, by omega, by omega⟩
  · simp only [hl, ne_eq, not_false_eq_true, if_true, List.length_set]
    exact ⟨hcopy, by omega, by omega⟩

theorem file_data_ok {s : FS} (hbs : s.sb.block_size = 4096) (init_content : Option (List Char)) :
    ((file_data s init_content).1.length : Int) = 4096
      ∧ 0 ≤ (file_data s init_content).2 ∧ (file_data s init_content).2 ≤ 4096 := by
  have hnat : ((s.sb.block_size.toNat : Nat) : Int) = 4096 := by
    rw [hbs]
    rfl
  unfold file_data
  cases init_content with
  | none =>
    simp only [List.length_replicate]
    exact ⟨hnat, le_refl _, by norm_num⟩
  | some ic =>
    obtain ⟨h1, h2, h3⟩ := initial_buffer_length s.sb.block_size.toNat ic (by omega)
    dsimp only
    refine ⟨by rw [h1]; exact hnat, h2, by rw [← hnat]; exact h3⟩

theorem deref_modify_new_old {h : Heap} {par : Ptr} {pn : inode} (c : inode) (f : inode → inode)
    (hpar : deref h par = some pn) :
    deref (modify (h ++ [some c]) h.length f) par = some pn := by
  rw [deref_modify, if_neg (Nat.ne_of_lt (lt_length_of_deref hpar))]
  exact deref_append_old hpar

theorem inv_create_at {s : FS} (hi : Inv s) (now : List Char) (parent : Option Ptr)
    (file_name : List Char) (init_content : Option (List Char)) :
    Inv (create_at s now parent file_name init_content).1 := by
  unfold create_at
  split
  · exact hi
  · rename_i par
    split
    · exact hi
    · rename_i pn hpn
      by_cases hft : pn.file_type = 2
      · simp only [hft, ne_eq, not_true_eq_false, if_false]
        by_cases hex : (find_entry pn.children file_name).isSome = true
        · simp only [hex, if_true]
          exact hi
        · simp only [hex, if_false]
          have hnone : find_entry pn.children file_name = none := by
            cases hfe : find_entry pn.children file_name with
            | none => rfl
            | some x => simp [hfe] at hex
          by_cases hfb : s.sb.free_blocks > 0
          · simp only [hfb, if_true]
            refine ⟨hi.block_size, ?_⟩
            show HeapInv (create_file_state s now par file_name init_content).heap s.sb.root
            unfold create_file_state
            dsimp only
            apply heapinv_add
            · apply heapinv_modify (heapinv_append hi.heap rfl)
              · intro a; rfl
              · intro a _ _
                obtain ⟨h1, h2, h3⟩ := file_data_ok hi.block_size init_content
                exact ⟨_, rfl, h1, h2, h3⟩
            · intro a ha e he
              rw [deref_modify_new_old _ _ hpn] at ha
              have ha : pn = a := Option.some.inj ha
              subst ha
              exact name_field_fresh (find_entry_eq_none.mp hnone) e he
            · intro a ha e he heq
              rw [deref_modify_new_old _ _ hpn] at ha
              have ha : pn = a := Option.some.inj ha
              subst ha
              obtain ⟨cn, hcn, _⟩ := hi.heap.links par pn hpn e he
              have hlt := lt_length_of_deref hcn
              have heq1 : e.node = s.heap.length := heq
              rw [heq1] at hlt
              exact Nat.lt_irrefl _ hlt
            · intro a ha
              rw [deref_modify_new_old _ _ hpn] at ha
              have ha : pn = a := Option.some.inj ha
              subst ha
              exact hft
            · refine ⟨_, deref_modify_new _ _ _, rfl, rfl, ?_⟩
              intro _
              obtain ⟨h1, h2, h3⟩ := file_data_ok hi.block_size init_content
              exact ⟨_, rfl, h1, h2, h3⟩
          · simp only [hfb, if_false]
            exact ⟨hi.block_size, heapinv_append hi.heap rfl⟩
      · simp only [hft, ne_eq, not_false_eq_true, if_true]
        exact hi

theorem inv_mkdir_at {s : FS} (hi : Inv s) (now : List Char) (parent : Option Ptr)
    (dir_name : List Char) : Inv (mkdir_at s now parent dir_name).1 := by
  unfold mkdir_at
  split
  · exact hi
  · rename_i par
    split
    · exact hi
    · rename_i pn hpn
      by_cases hft : pn.file_type = 2
      · simp only [hft, ne_eq, not_true_eq_false, if_false]
        by_cases hex : (find_entry pn.children dir_name).isSome = true
        · simp only [hex, if_true]
          exact hi
        · simp only [hex, if_false]
          have hnone : find_entry pn.children dir_name = none := by
            cases hfe : find_entry pn.children dir_name with
            | none => rfl
            | some x => simp [hfe] at hex
          refine ⟨hi.block_size, ?_⟩
          show HeapInv (mkdir_state s now par dir_name).heap s.sb.root
          unfold mkdir_state
          dsimp only
          apply heapinv_add (heapinv_append hi.heap rfl)
          · intro a ha e he
            rw [deref_append_old hpn] at ha
            have ha : pn = a := Option.some.inj ha
            subst ha
            exact name_field_fresh (find_entry_eq_none.mp hnone) e he
          · intro a ha e he heq
            rw [deref_append_old hpn] at ha
            have ha : pn = a := Option.some.inj ha
            subst ha
            obtain ⟨cn, hcn, _⟩ := hi.heap.links par pn hpn e he
            have hlt := lt_length_of_deref hcn
            have heq1 : e.node = s.heap.length := heq
            rw [heq1] at hlt
            exact Nat.lt_irrefl _ hlt
          · intro a ha
            rw [deref_append_old hpn] at ha
            have ha : pn = a := Option.some.inj ha
            subst ha
            exact hft
          · refine ⟨_, deref_append_new _ _, rfl, rfl, ?_⟩
            intro hf
            simp [new_inode] at hf
      · simp only [hft, ne_eq, not_false_eq_true, if_true]
        exact hi

theorem inv_create {s : FS} (hi : Inv s) (now path : List Char) :
    Inv (myfs_create s now path).1 := by
  rw [myfs_create_eq]
  exact inv_create_at hi _ _ _ _

theorem inv_mkdir {s : FS} (hi : Inv s) (now path : List Char) :
    Inv (myfs_mkdir s now path).1 := by
  rw [myfs_mkdir_eq]
  exact inv_mkdir_at hi _ _ _

theorem root_ne_of_parent {h : Heap} {root node : Ptr} {n : inode} {parent : Ptr}
    (hr : root_ok h root) (hn : deref h node = some n) (hp : n.parent = some parent) :
    root ≠ node := by
  rintro rfl
  obtain ⟨r, hr, hrp, _⟩ := hr
  rw [hn] at hr
  have : n = r := Option.some.inj hr
  subst this
  rw [hp] at hrp
  cases hrp

/-- What `myfs_unlink` and `myfs_rmdir` know, in a well-formed heap, about
the record a path resolves to when that record has a parent. -/
theorem resolved_child {s : FS} (hi : Inv s) {path : List Char} {node parent : Ptr} {n : inode}
    (hf : find_inode_by_path s path = some node) (hn : deref s.heap node = some n)
    (hp : n.parent = some parent) :
    ∃ ts1 pP, strtok_all path = ts1 ++ [basename path]
      ∧ walk s.heap ts1 (some s.sb.root) = some parent
      ∧ deref s.heap parent = some pP
      ∧ (⟨basename path, node⟩ : dir_entry) ∈ pP.children
      ∧ find_entry pP.children (basename path) = some node
      ∧ n.name = basename path
      ∧ ∀ q pn, deref (modify s.heap parent
            (fun d => { d with children := remove_entry d.children (basename path) })) q
          = some pn → q ≠ node → ∀ e ∈ pn.children, e.node ≠ node := by
  rcases resolve_last hf with hroot | ⟨ts1, P, pP, hts, hw, hP, hmem, hfe⟩
  · exact absurd hroot.symm (root_ne_of_parent hi.heap.root hn hp)
  · obtain ⟨hpar, hname, hfree⟩ := detach_free hi.heap hP hfe hn
    rw [hp] at hpar
    have hpar : parent = P := Option.some.inj hpar
    subst hpar
    exact ⟨ts1, pP, hts, hw, hP, hmem, hfe, hname, hfree⟩

theorem heapinv_detach {s : FS} (hi : Inv s) {path : List Char} {node parent : Ptr} {n : inode}
    (hf : find_inode_by_path s path = some node) (hn : deref s.heap node = some n)
    (hp : n.parent = some parent) :
    HeapInv (detach_heap s.heap parent node (basename path)) s.sb.root := by
  obtain ⟨_, _, _, _, _, _, _, _, hfree⟩ := resolved_child hi hf hn hp
  unfold detach_heap
  exact heapinv_release (heapinv_shrink hi.heap (fun l => remove_entry_sublist l _)) hfree
    (root_ne_of_parent hi.heap.root hn hp)

theorem inv_unlink {s : FS} (hi : Inv s) (path : List Char) : Inv (myfs_unlink s path).1 := by
  rcases myfs_unlink_cases s path with h | ⟨node, n, parent, hf, hn, _, hp, h | h⟩
  · rw [h.1]; exact hi
  · rw [h.2]
    exact ⟨hi.block_size, heapinv_of_same (same_on_shift _ _) (heapinv_detach hi hf hn hp)⟩
  · rw [h.2]
    refine ⟨hi.block_size, ?_⟩
    exact heapinv_of_same (same_on_modify core _ node _ (fun _ => rfl))
      (heapinv_shrink hi.heap (fun l => remove_entry_sublist l _))

theorem inv_rmdir {s : FS} (hi : Inv s) (path : List Char) : Inv (myfs_rmdir s path).1 := by
  rcases myfs_rmdir_cases s path with h | ⟨node, n, parent, hf, hn, _, _, hp, h | h⟩
  · rw [h.1]; exact hi
  · rw [h.2]
    exact ⟨hi.block_size, heapinv_of_same (same_on_shift _ _) (heapinv_detach hi hf hn hp)⟩
  · rw [h.2]
    exact ⟨hi.block_size, heapinv_shrink hi.heap (fun l => remove_entry_sublist l _)⟩

/-- A path never resolves to a dangling pointer. -/
theorem resolved_live {s : FS} (hi : Inv s) {path : List Char} {node : Ptr}
    (hf : find_inode_by_path s path = some node) : ∃ n, deref s.heap node = some n := by
  rcases resolve_last hf with hroot | ⟨_, P, pP, _, _, hP, hmem, _⟩
  · obtain ⟨r, hr, _, _⟩ := hi.heap.root
    exact ⟨r, by rw [hroot]; exact hr⟩
  · obtain ⟨cn, hcn, _, _⟩ := hi.heap.links P pP hP _ hmem
    exact ⟨cn, hcn⟩

/-- A file a path resolves to owns its buffer. -/
theorem resolved_file_has_buffer {s : FS} (hi : Inv s) {path : List Char} {node : Ptr}
    {n : inode} (hf : find_inode_by_path s path = some node) (hn : deref s.heap node = some n)
    (hft : n.file_type = 1) : has_buffer 4096 n := by
  rcases resolve_last hf with hroot | ⟨ts1, P, pP, _, _, hP, hmem, _⟩
  · obtain ⟨r, hr, _, hrt⟩ := hi.heap.root
    rw [← hroot, hn] at hr
    have : n = r := Option.some.inj hr
    subst this
    rw [hft] at hrt
    cases hrt
  · exact hi.heap.files P pP hP _ hmem n hn hft

/-- The handler `myfs_write` on a path that resolves to a file owning a buffer. -/
theorem myfs_write_file {s : FS} {path : List Char} {node : Ptr} {n : inode}
    {content : List Char} (hf : find_inode_by_path s path = some node)
    (hn : deref s.heap node = some n) (hft : n.file_type = 1)
    (hc : n.content = some content) (buf : List Char) (offset : Nat) :
    myfs_write s path buf offset
      = if clipped_size s.sb.block_size offset buf.length > 0 then
          if offset + clipped_size s.sb.block_size offset buf.length ≤ content.length
              ∧ clipped_size s.sb.block_size offset buf.length ≤ buf.length then
            (write_state s node content buf offset
                (clipped_size s.sb.block_size offset buf.length),
              .ok (clipped_size s.sb.block_size offset buf.length))
          else (s, .undefined)
        else (s, .ok (clipped_size s.sb.block_size offset buf.length)) := by
  unfold myfs_write
  simp only [hf, hn, hft, hc, ne_eq, not_true_eq_false, if_false]
  rfl

theorem length_written_content {content buf : List Char} {offset size1 : Nat}
    (h1 : offset + size1 ≤ content.length) (h2 : size1 ≤ buf.length) :
    (content.take offset ++ buf.take size1 ++ content.drop (offset + size1)).length
      = content.length := by
  simp only [List.length_append, List.length_take, List.length_drop]
  omega

theorem inv_write {s : FS} (hi : Inv s) (path buf : List Char) (offset : Nat) :
    Inv (myfs_write s path buf offset).1 := by
  cases hf : find_inode_by_path s path with
  | none => simp only [myfs_write, hf]; exact hi
  | some node =>
    cases hn : deref s.heap node with
    | none => simp only [myfs_write, hf, hn]; exact hi
    | some n =>
      by_cases hft : n.file_type = 1
      · obtain ⟨content, hc, hlen, h0, h1⟩ := resolved_file_has_buffer hi hf hn hft
        rw [myfs_write_file hf hn hft hc]
        split
        · split
          · rename_i hsz hb
            refine ⟨hi.block_size, ?_⟩
            apply heapinv_modify hi.heap
            · intro a; rfl
            · intro a ha _
              rw [hn] at ha
              have ha : n = a := Option.some.inj ha
              subst ha
              refine ⟨_, rfl, ?_, ?_, ?_⟩
              · rw [length_written_content hb.1 hb.2]
                exact hlen
              · simp only [written]
                split <;> omega
              · simp only [written]
                split
                · have := hb.1
                  omega
                · exact h1
          · exact hi
        · exact hi
      · simp only [myfs_write, hf, hn, hft, ne_eq, not_false_eq_true, if_true]
        exact hi

theorem inv_step {s s1 : FS} (hi : Inv s) (op : Op) (hs : step s op = some s1) : Inv s1 := by
  cases op with
  | getattr path =>
    simp only [step] at hs
    split at hs
    · cases hs
    · cases hs; exact hi
  | readdir path =>
    simp only [step] at hs
    split at hs
    · cases hs
    · cases hs; exact hi
  | create now path =>
    simp only [step] at hs
    split at hs
    · cases hs
    · cases hs; exact inv_create hi now path
  | mkdir now path =>
    simp only [step] at hs
    split at hs
    · cases hs
    · cases hs; exact inv_mkdir hi now path
  | rmdir path =>
    simp only [step] at hs
    split at hs
    · cases hs
    · cases hs; exact inv_rmdir hi path
  | unlink path =>
    simp only [step] at hs
    split at hs
    · cases hs
    · cases hs; exact inv_unlink hi path
  | read path size offset =>
    simp only [step] at hs
    split at hs
    · cases hs
    · cases hs; exact hi
  | write path buf offset =>
    simp only [step] at hs
    split at hs
    · cases hs
    · cases hs; exact inv_write hi path buf offset
  | «open» path =>
    simp only [step] at hs
    cases hs; exact hi
  | utimens path =>
    simp only [step] at hs
    cases hs; exact hi

/-- Every reachable state satisfies the invariant. -/
theorem reachable_inv {s : FS} (hr : Reachable s) : Inv s := by
  induction hr with
  | init mount_time root_time => exact inv_main mount_time root_time
  | step op _ hs ih => exact inv_step ih op hs

/-! ## Resolution after a removal -/

theorem walk_congr {h h1 : Heap} (hc : ∀ p, children_of h1 p = children_of h p) :
    ∀ (ts : List (List Char)) (cur : Option Ptr), walk h1 ts cur = walk h ts cur
  | [], _ => rfl
  | _ :: _, none => rfl
  | t :: ts, some c => by
    simp only [walk, find_inode_in_dir, hc]
    exact walk_congr hc ts _

theorem children_of_same {h h1 : Heap} (hs : same_on shape h h1) (p : Ptr) :
    children_of h1 p = children_of h p := by
  unfold children_of
  have := hs p
  cases h1p : deref h1 p with
  | none =>
    cases hp : deref h p with
    | none => rfl
    | some a => simp [h1p, hp] at this
  | some b =>
    cases hp : deref h p with
    | none => simp [h1p, hp] at this
    | some a =>
      simp only [h1p, hp, Option.map_some', Option.some.injEq, shape, Prod.mk.injEq] at this
      exact this.2.2.1

theorem find_inode_by_path_congr {s u : FS} (hroot : u.sb.root = s.sb.root)
    (hs : same_on shape s.heap u.heap) (path : List Char) :
    find_inode_by_path u path = find_inode_by_path s path := by
  rw [find_inode_by_path_eq_walk, find_inode_by_path_eq_walk, hroot]
  exact walk_congr (children_of_same hs) _ _

theorem children_of_detach {h : Heap} {parent node : Ptr} {pP : inode} (t : List Char)
    (hP : deref h parent = some pP) (q : Ptr) :
    children_of (detach_heap h parent node t) q
      = if q = node then [] else if q = parent then remove_entry pP.children t
        else children_of h q := by
  unfold detach_heap children_of
  rw [deref_release]
  by_cases hq : q = node
  · simp [hq]
  · simp only [hq, if_false]
    rw [deref_modify]
    by_cases hqp : q = parent
    · simp [hqp, hP]
    · simp [hqp]

/-- A name shorter than 255 bytes is bound at most once: after its first
binding is removed it is not found. -/
theorem find_entry_remove_entry_short {t : List Char} (ht : t.length < 255) :
    ∀ {l : List dir_entry},
      l.Pairwise (fun a b => a.name = b.name → 255 ≤ a.name.length) →
      find_entry (remove_entry l t) t = none
  | [], _ => rfl
  | a :: l, hp => by
    have hp1 := List.pairwise_cons.mp hp
    simp only [remove_entry]
    by_cases ha : a.name = t
    · rw [if_pos ha, find_entry_eq_none]
      intro e he hne
      have := hp1.1 e he (ha.trans hne.symm)
      rw [ha] at this
      omega
    · rw [if_neg ha]
      simp only [find_entry, if_neg ha]
      exact find_entry_remove_entry_short ht hp1.2

theorem find_entry_detach {h : Heap} {parent : Ptr} (node : Ptr) {pP : inode} (t : List Char)
    (hP : deref h parent = some pP)
    (hnd : find_entry (remove_entry pP.children t) t = none)
    (q : Ptr) (name : List Char) :
    (find_entry (children_of (detach_heap h parent node t) q) name
        = find_entry (children_of h q) name ∧ ¬ (q = parent ∧ name = t))
      ∨ find_entry (children_of (detach_heap h parent node t) q) name = none := by
  rw [children_of_detach t hP]
  by_cases hq : q = node
  · right
    simp [hq, find_entry]
  · simp only [hq, if_false]
    by_cases hqp : q = parent
    · simp only [hqp, if_true, children_of_eq hP]
      by_cases hnm : name = t
      · right
        rw [hnm]
        exact hnd
      · left
        exact ⟨find_entry_remove_entry_other hnm, fun hh => hnm hh.2⟩
    · left
      simp [hqp]

theorem walk_detach {h : Heap} {parent : Ptr} (node : Ptr) {pP : inode} (t : List Char)
    (hP : deref h parent = some pP)
    (hnd : find_entry (remove_entry pP.children t) t = none) :
    ∀ (ts : List (List Char)) (cur : Option Ptr),
      walk (detach_heap h parent node t) ts cur = walk h ts cur
        ∨ walk (detach_heap h parent node t) ts cur = none
  | [], _ => Or.inl rfl
  | _ :: _, none => Or.inl rfl
  | u :: ts, some c => by
    simp only [walk, find_inode_in_dir]
    rcases find_entry_detach node t hP hnd c u with ⟨h1, _⟩ | h1
    · rw [h1]
      exact walk_detach node t hP hnd ts _
    · rw [h1]
      right
      exact walk_none _ _

/-- Once the binding a path ends in is removed, the path resolves to nothing. -/
theorem walk_detach_last {h : Heap} {root parent node : Ptr} {pP : inode} {t : List Char}
    {ts1 : List (List Char)} (hP : deref h parent = some pP)
    (hnd : find_entry (remove_entry pP.children t) t = none)
    (hw : walk h ts1 (some root) = some parent) :
    walk (detach_heap h parent node t) (ts1 ++ [t]) (some root) = none := by
  rw [walk_append]
  rcases walk_detach node t hP hnd ts1 (some root) with h1 | h1
  · rw [h1, hw]
    simp only [walk, find_inode_in_dir]
    rcases find_entry_detach node t hP hnd parent t with ⟨_, h2⟩ | h2
    · exact absurd ⟨rfl, rfl⟩ h2
    · exact h2
  · rw [h1]
    rfl

theorem unlink_state_resolves_none {s : FS} (hi : Inv s) {path : List Char} {node parent : Ptr}
    {n : inode} (hf : find_inode_by_path s path = some node)
    (hn : deref s.heap node = some n) (hp : n.parent = some parent)
    (hshort : (basename path).length < 255) :
    find_inode_by_path (unlink_state s node n parent (basename path)) path = none := by
  obtain ⟨ts1, pP, hts, hw, hP, _, _, _, _⟩ := resolved_child hi hf hn hp
  have hsame : same_on shape (detach_heap s.heap parent node (basename path))
      (unlink_state s node n parent (basename path)).heap :=
    same_on_shape_of_core (same_on_shift _ _)
  rw [find_inode_by_path_eq_walk]
  have hroot : (unlink_state s node n parent (basename path)).sb.root = s.sb.root := rfl
  rw [hroot, walk_congr (children_of_same hsame), hts]
  exact walk_detach_last hP
    (find_entry_remove_entry_short hshort (hi.heap.names parent pP hP)) hw

/-! ## Reading and writing a file -/

theorem clipped_size_in_block (offset size : Nat) (ho : offset ≤ 4096)
    (hs : offset + size < 2 ^ 64) :
    clipped_size 4096 offset size = min size (4096 - offset) := by
  unfold clipped_size
  have h1 : (offset + size) % 2 ^ 64 = offset + size := Nat.mod_eq_of_lt hs
  have h2 : (4096 : Int).toNat = 4096 := rfl
  rw [h1, h2]
  split
  · have h3 : ((4096 : Int) - (offset : Int)) % 2 ^ 64 = 4096 - (offset : Int) := by
      apply Int.emod_eq_of_lt
      · omega
      · have : (4096 : Int) < 2 ^ 64 := by norm_num
        omega
    rw [h3]
    omega
  · omega

theorem myfs_read_file {s : FS} {path : List Char} {node : Ptr} {n : inode}
    {content : List Char} (hsb : path ≠ superblock_path)
    (hf : find_inode_by_path s path = some node) (hn : deref s.heap node = some n)
    (hft : n.file_type = 1) (hc : n.content = some content) (size offset : Nat) :
    myfs_read s path size offset
      = match read_slice content n.file_size.toNat size offset with
        | some bytes => .ok bytes
        | none => .undefined := by
  unfold myfs_read
  simp only [hsb, if_false, hf, hn, hft, hc, if_true]

theorem drop_take_written (content buf : List Char) {offset a : Nat}
    (ho : offset ≤ content.length) (ha : a ≤ buf.length) :
    ((content.take offset ++ buf.take a ++ content.drop (offset + a)).drop offset).take a
      = buf.take a := by
  have h1 : (content.take offset).length = offset := by
    rw [List.length_take]; omega
  rw [List.append_assoc, List.drop_append_eq_append_drop, h1]
  simp only [Nat.sub_self, List.drop_zero]
  rw [List.drop_eq_nil_of_le (by omega), List.nil_append]
  rw [List.take_append_eq_append_take]
  have h2 : (buf.take a).length = a := by
    rw [List.length_take]; omega
  rw [h2]
  simp

theorem find_inode_by_path_write_state (s : FS) (node : Ptr) (content buf : List Char)
    (offset size1 : Nat) (path : List Char) :
    find_inode_by_path (write_state s node content buf offset size1) path
      = find_inode_by_path s path :=
  find_inode_by_path_congr (s := s) (u := write_state s node content buf offset size1) rfl
    (same_on_modify shape s.heap node _ (fun _ => rfl)) path

/-! ## Paths of the form `e/w` -/

theorem strtokAux_no_slash : ∀ (w cur : List Char), (∀ x ∈ w, x ≠ '/') →
    strtokAux w cur = if cur ++ w = [] then [] else [cur ++ w]
  | [], cur, _ => by simp [strtokAux]
  | x :: w, cur, hw => by
    have hx : x ≠ '/' := hw x (List.mem_cons_self _ _)
    have ih := strtokAux_no_slash w (cur ++ [x]) (fun y hy => hw y (List.mem_cons_of_mem _ hy))
    simp [strtokAux, hx, ih]

theorem strtokAux_append_component (w : List Char) (hne : w ≠ []) (hw : ∀ x ∈ w, x ≠ '/') :
    ∀ (e cur : List Char), strtokAux (e ++ '/' :: w) cur = strtokAux e cur ++ [w]
  | [], cur => by
    have h1 := strtokAux_no_slash w [] hw
    simp only [List.nil_append, hne, if_false] at h1
    by_cases hc : cur = [] <;> simp [strtokAux, hc, h1]
  | c :: e, cur => by
    have ih1 := strtokAux_append_component w hne hw e []
    have ih2 := strtokAux_append_component w hne hw e (cur ++ [c])
    by_cases hc : c = '/'
    · by_cases hcu : cur = [] <;> simp [strtokAux, hc, hcu, ih1]
    · simp [strtokAux, hc, ih2]

theorem strtok_all_append_component (e w : List Char) (hne : w ≠ [])
    (hw : ∀ x ∈ w, x ≠ '/') : strtok_all (e ++ '/' :: w) = strtok_all e ++ [w] :=
  strtokAux_append_component w hne hw e []

theorem strtok_all_rdropWhile (e : List Char) :
    strtok_all (e.rdropWhile (fun c => c == '/')) = strtok_all e := by
  induction e using List.reverseRecOn with
  | nil => rfl
  | append_singleton l c ih =>
    by_cases hc : c = '/'
    · subst hc
      rw [List.rdropWhile_concat_pos _ _ _ (by simp), ih, strtok_all_snoc_slash]
    · rw [List.rdropWhile_concat_neg _ _ _ (by simpa using hc)]

theorem rdropWhile_component (e w : List Char) (hne : w ≠ []) (hw : ∀ x ∈ w, x ≠ '/') :
    (e ++ '/' :: w).rdropWhile (fun c => c == '/') = e ++ '/' :: w := by
  rcases List.eq_nil_or_concat w with rfl | ⟨w1, x, rfl⟩
  · exact absurd rfl hne
  · rw [List.concat_eq_append] at hw ⊢
    have hx : x ≠ '/' := hw x (by simp)
    have : e ++ '/' :: (w1 ++ [x]) = (e ++ '/' :: w1) ++ [x] := by simp
    rw [this]
    exact List.rdropWhile_concat_neg _ _ _ (by simpa using hx)

theorem rdropWhile_not_slash_component (e : List Char) : ∀ (w : List Char),
    (∀ x ∈ w, x ≠ '/') →
    (e ++ '/' :: w).rdropWhile (fun c => c != '/') = e ++ ['/'] := by
  intro w
  induction w using List.reverseRecOn with
  | nil =>
    intro _
    exact List.rdropWhile_concat_neg _ _ _ (by simp)
  | append_singleton w1 x ih =>
    intro hw
    have hx : x ≠ '/' := hw x (by simp)
    have : e ++ '/' :: (w1 ++ [x]) = (e ++ '/' :: w1) ++ [x] := by simp
    rw [this, List.rdropWhile_concat_pos _ _ _ (by simpa using hx)]
    exact ih (fun y hy => hw y (by simp [hy]))

theorem basename_component (e w : List Char) (hne : w ≠ []) (hw : ∀ x ∈ w, x ≠ '/') :
    basename (e ++ '/' :: w) = w := by
  unfold basename
  simp only [List.append_eq_nil, reduceCtorEq, and_false, if_false,
    rdropWhile_component e w hne hw]
  rw [rtakeWhile_after_slash, rtakeWhile_all hw]

theorem dirname_component (e w : List Char) (hne : w ≠ []) (hw : ∀ x ∈ w, x ≠ '/') :
    dirname (e ++ '/' :: w)
      = if e.rdropWhile (fun c => c == '/') = [] then
          (if e.length = 1 then (e ++ '/' :: w).take 2 else (e ++ '/' :: w).take 1)
        else e.rdropWhile (fun c => c == '/') := by
  unfold dirname
  simp only [rdropWhile_component e w hne hw, ite_self, List.mem_append, List.mem_cons,
    true_or, or_true, if_true, rdropWhile_not_slash_component e w hw, List.dropLast_concat]

theorem strtok_all_dirname_component (e w : List Char) (hne : w ≠ [])
    (hw : ∀ x ∈ w, x ≠ '/') : strtok_all (dirname (e ++ '/' :: w)) = strtok_all e := by
  rw [dirname_component e w hne hw]
  by_cases hr : e.rdropWhile (fun c => c == '/') = []
  · simp only [hr, if_true]
    have he : strtok_all e = [] := by
      rw [← strtok_all_rdropWhile, hr]
      rfl
    rw [he]
    have hall : ∀ x ∈ e, x = '/' := by
      have := List.rdropWhile_eq_nil_iff.mp hr
      intro x hx
      simpa using this x hx
    cases e with
    | nil => simp [strtok_all, strtokAux]
    | cons a e1 =>
      have ha : a = '/' := hall a (List.mem_cons_self _ _)
      subst ha
      cases e1 with
      | nil => simp [strtok_all, strtokAux]
      | cons b e2 => simp [strtok_all, strtokAux]
  · simp only [hr, if_false]
    exact strtok_all_rdropWhile e

theorem find_inode_by_path_root (s : FS) : find_inode_by_path s ['/'] = some s.sb.root := by
  simp [find_inode_by_path]

theorem parent_of_eq_walk (s : FS) (path : List Char) :
    parent_of s path = walk s.heap (strtok_all (dirname path)) (some s.sb.root) := by
  unfold parent_of
  split
  · rename_i h
    rw [h]
    simp [strtok_all, strtokAux, walk]
  · exact find_inode_by_path_eq_walk s _

theorem parent_of_component (s : FS) (e w : List Char) (hne : w ≠ [])
    (hw : ∀ x ∈ w, x ≠ '/') :
    parent_of s (e ++ '/' :: w) = find_inode_by_path s e := by
  rw [parent_of_eq_walk, strtok_all_dirname_component e w hne hw, find_inode_by_path_eq_walk]

theorem join_path_component (d n : List Char) :
    ∃ e, join_path d n = e ++ '/' :: n ∧ strtok_all e = strtok_all d := by
  unfold join_path
  split
  · rename_i h
    rcases List.eq_nil_or_concat d with rfl | ⟨d1, x, rfl⟩
    · simp at h
    · rw [List.concat_eq_append] at h ⊢
      simp at h
      subst h
      exact ⟨d1, by simp, (strtok_all_snoc_slash d1).symm⟩
  · exact ⟨d, rfl, rfl⟩

/-! ## The stored initial content -/

theorem take_getLast_eq (c : List Char) (k : Nat) (hk : (c.take k) ≠ []) :
    (c.take k).getLast? = some (c.getD ((c.take k).length - 1) (Char.ofNat 0)) := by
  have hlen : (c.take k).length = min k c.length := List.length_take _ _
  have hpos : 0 < (c.take k).length := List.length_pos.mpr hk
  rw [List.getLast?_eq_getElem?, List.getElem?_take, List.getD_eq_getElem?_getD]
  have h1 : (c.take k).length - 1 < k := by omega
  have h2 : (c.take k).length - 1 < c.length := by omega
  simp only [h1, if_true]
  rw [List.getElem?_eq_getElem h2]
  rfl

theorem initial_buffer_spec (bs : Nat) (c : List Char) (hbs : 0 < bs) :
    (initial_buffer bs c).2 = ((spec_initial_content bs c).length : Int)
      ∧ (initial_buffer bs c).1.take (spec_initial_content bs c).length
          = spec_initial_content bs c := by
  have hlen : (if c.length ≥ bs then bs - 1 else c.length) = (c.take (bs - 1)).length := by
    rw [List.length_take]
    split <;> omega
  have htake : c.take (c.take (bs - 1)).length = c.take (bs - 1) := by
    rw [List.length_take, List.take_eq_take]
    omega
  unfold initial_buffer spec_initial_content
  simp only [hlen, htake]
  generalize ht : c.take (bs - 1) = t
  have htl : t.length < bs := by
    rw [← ht, List.length_take]; omega
  have hzs : ∃ z zs, List.drop t.length (List.replicate bs (Char.ofNat 0)) = z :: zs := by
    cases hd : List.drop t.length (List.replicate bs (Char.ofNat 0)) with
    | nil =>
      have := congrArg List.length hd
      simp only [List.length_drop, List.length_replicate, List.length_nil] at this
      omega
    | cons z zs => exact ⟨z, zs, rfl⟩
  obtain ⟨z, zs, hz⟩ := hzs
  rw [hz]
  have hlast : (if t.length = 0 then Char.ofNat 0 else c.getD (t.length - 1) (Char.ofNat 0)) ≠ '\n'
      ↔ ¬ t.getLast? = some '\n' := by
    by_cases h0 : t.length = 0
    · have : t = [] := List.length_eq_zero.mp h0
      subst this
      simp only [List.length_nil, if_true, List.getLast?_nil]
      constructor
      · intro _ h; cases h
      · intro _; decide
    · have hne : t ≠ [] := fun h => h0 (by rw [h]; rfl)
      have := take_getLast_eq c (bs - 1) (by rw [ht]; exact hne)
      rw [ht] at this
      simp only [h0, if_false, this, Option.some.injEq]
  generalize (if t.length = 0 then Char.ofNat 0 else c.getD (t.length - 1) (Char.ofNat 0))
    = last at hlast ⊢
  by_cases hl : t.getLast? = some '\n'
  · have h1 : ¬ (last ≠ '\n') := fun h => (hlast.mp h) hl
    rw [if_neg h1, if_pos hl]
    exact ⟨rfl, List.take_left' rfl⟩
  · have h1 : last ≠ '\n' := hlast.mpr hl
    rw [if_pos h1, if_neg hl]
    have hset : (t ++ z :: zs).set t.length '\n' = t ++ '\n' :: zs := by
      rw [List.set_append_right _ _ (Nat.le_refl _)]
      simp
    refine ⟨by simp, ?_⟩
    dsimp only
    rw [hset]
    have h2 : t ++ '\n' :: zs = (t ++ ['\n']) ++ zs := by simp
    rw [h2]
    exact List.take_left' rfl

/-! ## Resolution after a creation -/

theorem create_at_ok {s : FS} {now : List Char} {parent : Option Ptr} {file_name : List Char}
    {init_content : Option (List Char)}
    (hok : (create_at s now parent file_name init_content).2 = .ok ()) :
    ∃ par pn, parent = some par ∧ deref s.heap par = some pn ∧ pn.file_type = 2
      ∧ find_entry pn.children file_name = none ∧ s.sb.free_blocks > 0
      ∧ (create_at s now parent file_name init_content).1
          = create_file_state s now par file_name init_content := by
  unfold create_at at hok ⊢
  cases parent with
  | none => simp at hok
  | some par =>
    dsimp only at hok ⊢
    cases hpn : deref s.heap par with
    | none => simp [hpn] at hok
    | some pn =>
      simp only [hpn] at hok ⊢
      by_cases hft : pn.file_type = 2
      · simp only [hft, ne_eq, not_true_eq_false, if_false] at hok ⊢
        cases hfe : find_entry pn.children file_name with
        | some x => simp [hfe] at hok
        | none =>
          simp only [hfe, Option.isSome_none, Bool.false_eq_true, if_false] at hok ⊢
          by_cases hfb : s.sb.free_blocks > 0
          · simp only [hfb, if_true]
            exact ⟨par, pn, rfl, hpn, hft, hfe, trivial, rfl⟩
          · simp [hfb] at hok
      · simp [hft] at hok

theorem mkdir_at_ok {s : FS} {now : List Char} {parent : Option Ptr} {dir_name : List Char}
    (hok : (mkdir_at s now parent dir_name).2 = .ok ()) :
    ∃ par pn, parent = some par ∧ deref s.heap par = some pn ∧ pn.file_type = 2
      ∧ find_entry pn.children dir_name = none
      ∧ (mkdir_at s now parent dir_name).1 = mkdir_state s now par dir_name := by
  unfold mkdir_at at hok ⊢
  cases parent with
  | none => simp at hok
  | some par =>
    dsimp only at hok ⊢
    cases hpn : deref s.heap par with
    | none => simp [hpn] at hok
    | some pn =>
      simp only [hpn] at hok ⊢
      by_cases hft : pn.file_type = 2
      · simp only [hft, ne_eq, not_true_eq_false, if_false] at hok ⊢
        cases hfe : find_entry pn.children dir_name with
        | some x => simp [hfe] at hok
        | none =>
          simp only [hfe, Option.isSome_none, Bool.false_eq_true, if_false]
          exact ⟨par, pn, rfl, hpn, hft, hfe, rfl⟩
      · simp [hft] at hok

/-- A lookup that succeeds keeps its answer when every binding that was
found is still found. -/
theorem walk_mono {h h1 : Heap}
    (hm : ∀ q name x, find_entry (children_of h q) name = some x →
      find_entry (children_of h1 q) name = some x) :
    ∀ (ts : List (List Char)) (cur : Option Ptr) (x : Ptr),
      walk h ts cur = some x → walk h1 ts cur = some x
  | [], _, _, hw => hw
  | _ :: _, none, _, hw => by simp [walk] at hw
  | t :: ts, some c, x, hw => by
    simp only [walk, find_inode_in_dir] at hw ⊢
    cases hfe : find_entry (children_of h c) t with
    | none => rw [hfe, walk_none] at hw; cases hw
    | some y =>
      rw [hfe] at hw
      rw [hm c t y hfe]
      exact walk_mono hm ts _ x hw

theorem live_of_find_entry {h : Heap} {q : Ptr} {name : List Char} {x : Ptr}
    (hf : find_entry (children_of h q) name = some x) : ∃ a, deref h q = some a := by
  unfold children_of at hf
  cases hq : deref h q with
  | none => rw [hq] at hf; simp [find_entry] at hf
  | some a => exact ⟨a, rfl⟩

/-- The bindings of a heap to which a record has been appended (and possibly
updated) and bound at the head of `par`. -/
theorem find_entry_linked {h h2 : Heap} {par : Ptr} {pn : inode} (e0 : dir_entry)
    (hpar : deref h par = some pn) (hfresh : find_entry pn.children e0.name = none)
    (hold : ∀ q a, deref h q = some a → deref h2 q = some a)
    (q : Ptr) (name : List Char) (x : Ptr)
    (hf : find_entry (children_of h q) name = some x) :
    find_entry
      (children_of (modify h2 par (fun d => { d with children := e0 :: d.children })) q) name
      = some x := by
  obtain ⟨a, ha⟩ := live_of_find_entry hf
  rw [children_of_eq ha] at hf
  obtain ⟨b, hb, _, _, _, _, _, _, hbc⟩ :=
    modify_children_fwd par (fun l => e0 :: l) (hold q a ha)
  rw [children_of_eq hb, hbc]
  by_cases hq : q = par
  · subst hq
    rw [hpar] at ha
    have ha : pn = a := Option.some.inj ha
    subst ha
    simp only [if_true]
    unfold find_entry
    have hne : ¬ e0.name = name := by
      intro heq
      rw [heq] at hfresh
      rw [hfresh] at hf
      cases hf
    simp only [hne, if_false]
    exact hf
  · simp only [hq, if_false]
    exact hf

theorem find_entry_linked_new {h2 : Heap} {par : Ptr} {pn2 : inode} (e0 : dir_entry)
    (hpar : deref h2 par = some pn2) :
    find_entry
      (children_of (modify h2 par (fun d => { d with children := e0 :: d.children })) par)
      e0.name = some e0.node := by
  obtain ⟨b, hb, _, _, _, _, _, _, hbc⟩ :=
    modify_children_fwd par (fun l => e0 :: l) hpar
  rw [children_of_eq hb, hbc]
  simp [find_entry]

/-- After a successful `myfs_create` in directory `par`, a path `e/name`
whose `e` resolved to `par` resolves to the new record. -/
theorem create_file_state_resolves {s : FS} {now : List Char} {par : Ptr} {pn : inode}
    {file_name : List Char} {init_content : Option (List Char)} {e : List Char}
    (hpar : deref s.heap par = some pn) (hfresh : find_entry pn.children file_name = none)
    (he : find_inode_by_path s e = some par)
    (hne : file_name ≠ []) (hns : ∀ x ∈ file_name, x ≠ '/')
    (hshort : file_name.length < 255) :
    find_inode_by_path (create_file_state s now par file_name init_content)
      (e ++ '/' :: file_name) = some s.heap.length := by
  rw [find_inode_by_path_eq_walk] at he ⊢
  rw [strtok_all_append_component e file_name hne hns, walk_append]
  have hroot : (create_file_state s now par file_name init_content).sb.root = s.sb.root := rfl
  rw [hroot]
  have hold : ∀ q a, deref s.heap q = some a →
      deref (modify (s.heap ++ [some (new_inode s now 1 ("rw-r--r--").toList file_name
        init_content (some par))]) s.heap.length
        (fun n =>
          { n with
            start_block := s.sb.total_blocks - s.sb.free_blocks
            total_blocks := 1
            content := some (file_data s init_content).1
            file_size := (file_data s init_content).2 })) q = some a :=
    fun q a ha => deref_modify_new_old _ _ ha
  have hw := walk_mono
    (find_entry_linked ⟨file_name, s.heap.length⟩ hpar hfresh hold) _ _ _ he
  unfold create_file_state
  dsimp only
  rw [name_field_short hshort, hw]
  simp only [walk, find_inode_in_dir]
  exact find_entry_linked_new ⟨file_name, s.heap.length⟩ (hold par pn hpar)

theorem create_file_state_deref {s : FS} (now : List Char) {par : Ptr} {pn : inode}
    (file_name : List Char) (init_content : Option (List Char))
    (hpar : deref s.heap par = some pn) :
    ∃ c, deref (create_file_state s now par file_name init_content).heap s.heap.length = some c
      ∧ c.file_type = 1 ∧ c.content = some (file_data s init_content).1
      ∧ c.file_size = (file_data s init_content).2 := by
  unfold create_file_state
  dsimp only
  rw [deref_modify, if_neg (Nat.ne_of_gt (lt_length_of_deref hpar)), deref_modify_new]
  exact ⟨_, rfl, rfl, rfl, rfl⟩

theorem read_slice_whole (text : List Char) (len L : Nat) (hlen : len ≤ text.length)
    (hL : len ≤ L) (hL2 : L < 2 ^ 64) : read_slice text len L 0 = some (text.take len) := by
  unfold read_slice
  have hmod : (0 + L) % 2 ^ 64 = L := by
    rw [Nat.zero_add]
    exact Nat.mod_eq_of_lt hL2
  rw [hmod]
  by_cases h0 : 0 < len
  · simp only [h0, if_true, Nat.sub_zero, Nat.zero_add, List.drop_zero]
    by_cases hgt : L > len
    · simp [hgt, hlen]
    · have : L = len := by omega
      subst this
      simp [hlen]
  · have : len = 0 := by omega
    subst this
    simp

theorem takeWhile_before_eq (n c : List Char) (hn : ∀ x ∈ n, x ≠ '=') :
    (n ++ '=' :: c).takeWhile (fun x => x != '=') = n := by
  induction n with
  | nil => simp
  | cons a n ih =>
    have ha : a ≠ '=' := hn a (List.mem_cons_self _ _)
    have hb : (a != '=') = true := by simpa using ha
    rw [List.cons_append, List.takeWhile_cons, hb, ih (fun x hx => hn x (List.mem_cons_of_mem _ hx))]
    rfl

theorem dropWhile_before_eq (n c : List Char) (hn : ∀ x ∈ n, x ≠ '=') :
    (n ++ '=' :: c).dropWhile (fun x => x != '=') = '=' :: c := by
  induction n with
  | nil => simp
  | cons a n ih =>
    have ha : a ≠ '=' := hn a (List.mem_cons_self _ _)
    have hb : (a != '=') = true := by simpa using ha
    rw [List.cons_append, List.dropWhile_cons, hb, ih (fun x hx => hn x (List.mem_cons_of_mem _ hx))]
    rfl

theorem takeWhile_no_eq (n : List Char) (hn : ∀ x ∈ n, x ≠ '=') :
    n.takeWhile (fun x => x != '=') = n := by
  induction n with
  | nil => simp
  | cons a n ih =>
    have ha : a ≠ '=' := hn a (List.mem_cons_self _ _)
    have hb : (a != '=') = true := by simpa using ha
    rw [List.takeWhile_cons, hb, ih (fun x hx => hn x (List.mem_cons_of_mem _ hx))]
    rfl

/-- What a successful `myfs_create` of `e/name` (with or without content)
leaves at the path `e/name`, when `e` resolves. -/
theorem create_then_resolve {s : FS} (now e w file_name : List Char)
    (init_content : Option (List Char)) (hwne : w ≠ []) (hws : ∀ x ∈ w, x ≠ '/')
    (hfn : file_name_of (e ++ '/' :: w) = file_name)
    (hic : init_content_of (e ++ '/' :: w) = init_content)
    (hne : file_name ≠ []) (hns : ∀ x ∈ file_name, x ≠ '/')
    (hshort : file_name.length < 255)
    (hok : (myfs_create s now (e ++ '/' :: w)).2 = .ok ()) :
    ∃ node c, find_inode_by_path (myfs_create s now (e ++ '/' :: w)).1
        (e ++ '/' :: file_name) = some node
      ∧ deref (myfs_create s now (e ++ '/' :: w)).1.heap node = some c
      ∧ c.file_type = 1 ∧ c.content = some (file_data s init_content).1
      ∧ c.file_size = (file_data s init_content).2 := by
  rw [myfs_create_eq, parent_of_component s e w hwne hws, hfn, hic] at hok ⊢
  obtain ⟨par, pn, hpar, hpn, _, hfresh, _, hst⟩ := create_at_ok hok
  rw [hst]
  obtain ⟨c, hc, h1, h2, h3⟩ := create_file_state_deref now file_name
    init_content hpn
  exact ⟨s.heap.length, c, create_file_state_resolves hpn hfresh hpar hne hns hshort, hc, h1, h2,
    h3⟩

/-! ## The registry invariant under the heap primitives -/

theorem regok_of_same {reg : List Ptr} {root : Ptr} {h h1 : Heap} (hs : same_on shape h h1)
    (hr : RegOK reg root h) : RegOK reg root h1 := by
  refine ⟨hr.nodup, hr.root_mem, ?_, ?_, ?_, ?_⟩
  · intro p hp
    obtain ⟨n, hn⟩ := hr.live p hp
    obtain ⟨b, hb, _⟩ := same_on_fwd hs hn
    exact ⟨b, hb⟩
  · intro p hp n hn hpar
    obtain ⟨a, ha, hv⟩ := same_on_inv hs hn
    simp only [shape, Prod.mk.injEq] at hv
    exact hr.orphan p hp a ha (by rw [hv.2.2.2]; exact hpar)
  · intro q hq pn hpn e he
    obtain ⟨a, ha, hv⟩ := same_on_inv hs hpn
    simp only [shape, Prod.mk.injEq] at hv
    exact hr.child_mem q hq a ha e (by rw [hv.2.2.1]; exact he)
  · intro p hp n hn q hq
    obtain ⟨a, ha, hv⟩ := same_on_inv hs hn
    simp only [shape, Prod.mk.injEq] at hv
    obtain ⟨hqr, pn, hpn, hft, e, he, hen⟩ := hr.parent_mem p hp a ha q (by rw [hv.2.2.2]; exact hq)
    obtain ⟨b, hb, hvb⟩ := same_on_fwd hs hpn
    simp only [shape, Prod.mk.injEq] at hvb
    exact ⟨hqr, b, hb, by rw [hvb.1]; exact hft, e, by rw [hvb.2.2.1]; exact he, hen⟩

/-- The registry invariant only looks at registered records. -/
theorem regok_of_old {reg : List Ptr} {root : Ptr} {h h1 : Heap}
    (hold : ∀ q a, deref h q = some a → deref h1 q = some a)
    (hr : RegOK reg root h) : RegOK reg root h1 := by
  have hback : ∀ p ∈ reg, ∀ b, deref h1 p = some b → deref h p = some b := by
    intro p hp b hb
    obtain ⟨n, hn⟩ := hr.live p hp
    rw [hold p n hn] at hb
    rw [hn, hb]
  refine ⟨hr.nodup, hr.root_mem, ?_, ?_, ?_, ?_⟩
  · intro p hp
    obtain ⟨n, hn⟩ := hr.live p hp
    exact ⟨n, hold p n hn⟩
  · intro p hp n hn hpar
    exact hr.orphan p hp n (hback p hp n hn) hpar
  · intro q hq pn hpn e he
    exact hr.child_mem q hq pn (hback q hq pn hpn) e he
  · intro p hp n hn q hq
    obtain ⟨hqr, pn, hpn, hft, e, he, hen⟩ := hr.parent_mem p hp n (hback p hp n hn) q hq
    exact ⟨hqr, pn, hold q pn hpn, hft, e, he, hen⟩

theorem regok_link {reg : List Ptr} {root : Ptr} {h2 : Heap} {par node : Ptr} {pn c : inode}
    (name : List Char) (hr : RegOK reg root h2) (hnode : node ∉ reg)
    (hc : deref h2 node = some c) (hcp : c.parent = some par) (hcc : c.children = [])
    (hpar : par ∈ reg) (hpn : deref h2 par = some pn) (hft : pn.file_type = 2) :
    RegOK (node :: reg) root
      (modify h2 par (fun d => { d with children := ⟨name, node⟩ :: d.children })) := by
  have hne : node ≠ par := fun h => hnode (h ▸ hpar)
  refine ⟨List.nodup_cons.mpr ⟨hnode, hr.nodup⟩, List.mem_cons_of_mem _ hr.root_mem,
    ?_, ?_, ?_, ?_⟩
  · intro p hp
    rcases List.mem_cons.mp hp with rfl | hp
    · obtain ⟨b, hb, _⟩ := modify_children_fwd par (fun l => ⟨name, p⟩ :: l) hc
      exact ⟨b, hb⟩
    · obtain ⟨n, hn⟩ := hr.live p hp
      obtain ⟨b, hb, _⟩ := modify_children_fwd par (fun l => ⟨name, node⟩ :: l) hn
      exact ⟨b, hb⟩
  · intro p hp n hn hnone
    obtain ⟨a, ha, hpa, _⟩ := modify_children_inv (g := fun l => ⟨name, node⟩ :: l) hn
    rcases List.mem_cons.mp hp with rfl | hp
    · rw [hc] at ha
      have ha : c = a := Option.some.inj ha
      subst ha
      rw [hpa, hcp] at hnone
      cases hnone
    · exact hr.orphan p hp a ha (by rw [← hpa]; exact hnone)
  · intro q hq b hb e he
    obtain ⟨a, ha, _, _, _, _, _, _, hch⟩ :=
      modify_children_inv (g := fun l => ⟨name, node⟩ :: l) hb
    rw [hch] at he
    rcases List.mem_cons.mp hq with rfl | hq
    · rw [hc] at ha
      have ha : c = a := Option.some.inj ha
      subst ha
      simp [hne, hcc] at he
    · by_cases hqp : q = par
      · simp only [hqp, if_true, List.mem_cons] at he
        rcases he with rfl | he
        · exact List.mem_cons_self _ _
        · exact List.mem_cons_of_mem _ (hr.child_mem q hq a ha e he)
      · simp only [hqp, if_false] at he
        exact List.mem_cons_of_mem _ (hr.child_mem q hq a ha e he)
  · intro p hp n hn q hq
    obtain ⟨a, ha, hpa, _⟩ := modify_children_inv (g := fun l => ⟨name, node⟩ :: l) hn
    rw [hpa] at hq
    have key : q ∈ reg ∧ ∃ pn0, deref h2 q = some pn0 ∧ pn0.file_type = 2
        ∧ ∃ e ∈ (if q = par then ⟨name, node⟩ :: pn0.children else pn0.children),
            e.node = p := by
      rcases List.mem_cons.mp hp with rfl | hp
      · rw [hc] at ha
        have ha : c = a := Option.some.inj ha
        subst ha
        rw [hcp] at hq
        have hq : par = q := Option.some.inj hq
        subst hq
        exact ⟨hpar, pn, hpn, hft, ⟨name, p⟩, by simp, rfl⟩
      · obtain ⟨hqr, pn0, hpn0, hft0, e, he, hen⟩ := hr.parent_mem p hp a ha q hq
        refine ⟨hqr, pn0, hpn0, hft0, e, ?_, hen⟩
        split
        · exact List.mem_cons_of_mem _ he
        · exact he
    obtain ⟨hqr, pn0, hpn0, hft0, e, he, hen⟩ := key
    obtain ⟨b, hb, _, _, hbt, _, _, _, hbc⟩ :=
      modify_children_fwd par (fun l => ⟨name, node⟩ :: l) hpn0
    exact ⟨List.mem_cons_of_mem _ hqr, b, hb, hbt.trans hft0, e, by rw [hbc]; exact he, hen⟩

theorem mem_remove_entry_of_ne {l : List dir_entry} {t : List Char} {x : Ptr} {e : dir_entry}
    (he : e ∈ l) (hf : find_entry l t = some x) (hne : e.node ≠ x) : e ∈ remove_entry l t := by
  induction l with
  | nil => cases he
  | cons a l ih =>
    unfold find_entry at hf
    unfold remove_entry
    by_cases ha : a.name = t
    · simp only [ha, if_true, Option.some.injEq] at hf ⊢
      rcases List.mem_cons.mp he with rfl | he
      · exact absurd hf hne
      · exact he
    · simp only [ha, if_false] at hf ⊢
      rcases List.mem_cons.mp he with rfl | he
      · exact List.mem_cons_self _ _
      · exact List.mem_cons_of_mem _ (ih he hf)

theorem deref_detach_inv {h : Heap} {parent node : Ptr} {t : List Char} {p : Ptr} {b : inode}
    (hb : deref (detach_heap h parent node t) p = some b) :
    p ≠ node ∧ ∃ a, deref h p = some a ∧ b.parent = a.parent ∧ b.file_type = a.file_type
      ∧ b.inode_id = a.inode_id
      ∧ b.children = if p = parent then remove_entry a.children t else a.children := by
  unfold detach_heap at hb
  obtain ⟨hpn, hb⟩ := deref_release_inv hb
  obtain ⟨a, ha, h1, _, h3, _, _, h6, h7⟩ :=
    modify_children_inv (g := fun l => remove_entry l t) hb
  exact ⟨hpn, a, ha, h1, h3, h6, h7⟩

theorem deref_detach_fwd {h : Heap} (parent : Ptr) {node : Ptr} (t : List Char) {p : Ptr}
    {a : inode} (ha : deref h p = some a) (hp : p ≠ node) :
    ∃ b, deref (detach_heap h parent node t) p = some b ∧ b.parent = a.parent
      ∧ b.file_type = a.file_type ∧ b.inode_id = a.inode_id
      ∧ b.children = if p = parent then remove_entry a.children t else a.children := by
  unfold detach_heap
  rw [deref_release, if_neg hp]
  obtain ⟨b, hb, h1, _, h3, _, _, h6, h7⟩ :=
    modify_children_fwd parent (fun l => remove_entry l t) ha
  exact ⟨b, hb, h1, h3, h6, h7⟩

theorem regok_detach {reg : List Ptr} {root : Ptr} {h : Heap} {parent node : Ptr}
    {n pP : inode} {t : List Char} (hr : RegOK reg root h) (hroot : root ≠ node)
    (hn : deref h node = some n) (hnc : n.children = [])
    (hP : deref h parent = some pP) (hfe : find_entry pP.children t = some node)
    (hfree : ∀ q pn, deref (modify h parent
          (fun d => { d with children := remove_entry d.children t })) q = some pn →
        q ≠ node → ∀ e ∈ pn.children, e.node ≠ node) :
    RegOK (reg.erase node) root (detach_heap h parent node t) := by
  have hmem : ∀ p, p ∈ reg.erase node ↔ p ≠ node ∧ p ∈ reg := fun p => hr.nodup.mem_erase_iff
  refine ⟨hr.nodup.erase node, (hmem root).mpr ⟨hroot, hr.root_mem⟩, ?_, ?_, ?_, ?_⟩
  · intro p hp
    obtain ⟨hpn, hp⟩ := (hmem p).mp hp
    obtain ⟨a, ha⟩ := hr.live p hp
    obtain ⟨b, hb, _⟩ := deref_detach_fwd parent t ha hpn
    exact ⟨b, hb⟩
  · intro p hp b hb hnone
    obtain ⟨_, hp⟩ := (hmem p).mp hp
    obtain ⟨_, a, ha, hpa, _⟩ := deref_detach_inv hb
    exact hr.orphan p hp a ha (by rw [← hpa]; exact hnone)
  · intro q hq b hb e he
    obtain ⟨hqn, hq⟩ := (hmem q).mp hq
    have hb1 : deref (modify h parent
        (fun d => { d with children := remove_entry d.children t })) q = some b := by
      unfold detach_heap at hb
      exact (deref_release_inv hb).2
    have hen : e.node ≠ node := hfree q b hb1 hqn e he
    obtain ⟨_, a, ha, _, _, _, hch⟩ := deref_detach_inv hb
    rw [hch] at he
    exact (hmem _).mpr ⟨hen, hr.child_mem q hq a ha e
      (mem_of_shrink (fun l => remove_entry_sublist l t) he)⟩
  · intro p hp b hb q hq
    obtain ⟨hpn, hp⟩ := (hmem p).mp hp
    obtain ⟨_, a, ha, hpa, _⟩ := deref_detach_inv hb
    rw [hpa] at hq
    obtain ⟨hqr, pn, hpn0, hft, e, he, hen⟩ := hr.parent_mem p hp a ha q hq
    have hqn : q ≠ node := by
      rintro rfl
      rw [hn] at hpn0
      have : n = pn := Option.some.inj hpn0
      subst this
      rw [hnc] at he
      cases he
    obtain ⟨b1, hb1, _, hbt, _, hbc⟩ := deref_detach_fwd parent t hpn0 hqn
    refine ⟨(hmem q).mpr ⟨hqn, hqr⟩, b1, hb1, hbt.trans hft, e, ?_, hen⟩
    rw [hbc]
    split
    · rename_i hqp
      subst hqp
      rw [hP] at hpn0
      have : pP = pn := Option.some.inj hpn0
      subst this
      exact mem_remove_entry_of_ne he hfe (by rw [hen]; exact hpn)
    · exact he

theorem walk_mem_reg {reg : List Ptr} {root : Ptr} {h : Heap} (hr : RegOK reg root h) :
    ∀ (ts : List (List Char)) (p x : Ptr), p ∈ reg → walk h ts (some p) = some x → x ∈ reg
  | [], p, x, hp, hw => by
    simp only [walk, Option.some.injEq] at hw
    exact hw ▸ hp
  | t :: ts, p, x, hp, hw => by
    simp only [walk, find_inode_in_dir] at hw
    cases hfe : find_entry (children_of h p) t with
    | none => rw [hfe, walk_none] at hw; cases hw
    | some y =>
      rw [hfe] at hw
      obtain ⟨pP, hP, hmem, _⟩ := entry_of_find hfe
      exact walk_mem_reg hr ts y x (hr.child_mem p hp pP hP _ hmem) hw

theorem resolved_mem_reg {s : FS} (hr : RegOK s.sb.inodes_table s.sb.root s.heap)
    {path : List Char} {node : Ptr} (hf : find_inode_by_path s path = some node) :
    node ∈ s.sb.inodes_table := by
  rw [find_inode_by_path_eq_walk] at hf
  exact walk_mem_reg hr _ _ _ hr.root_mem hf

theorem parent_of_mem_reg {s : FS} (hr : RegOK s.sb.inodes_table s.sb.root s.heap)
    {path : List Char} {par : Ptr} (hf : parent_of s path = some par) :
    par ∈ s.sb.inodes_table := by
  rw [parent_of_eq_walk] at hf
  exact walk_mem_reg hr _ _ _ hr.root_mem hf

/-! ## Identifiers under renumbering -/

theorem ids_rel_refl (d : Int) (h : Heap) : ids_rel d h h :=
  fun _ b hb => ⟨b, hb, Or.inl rfl⟩

theorem ids_rel_trans {d : Int} {h h1 h2 : Heap} (h01 : ids_rel d h h1)
    (h12 : ids_rel d h1 h2) : ids_rel d h h2 := by
  intro p c hc
  obtain ⟨b, hb, hbc⟩ := h12 p c hc
  obtain ⟨a, ha, hab⟩ := h01 p b hb
  refine ⟨a, ha, ?_⟩
  unfold id_step at hab hbc ⊢
  omega

theorem ids_rel_dec (d : Int) (h : Heap) (p : Ptr) : ids_rel d h (modify h p (dec_id d)) := by
  intro q b hb
  rw [deref_modify] at hb
  by_cases hq : q = p
  · subst hq
    cases ha : deref h q with
    | none => simp [ha] at hb
    | some a =>
      simp only [ha, if_true, Option.map_some', Option.some.injEq] at hb
      subst hb
      refine ⟨a, rfl, ?_⟩
      unfold id_step dec_id
      split
      · right
        dsimp only
        omega
      · left; rfl
  · simp only [hq, if_false] at hb
    exact ⟨b, hb, Or.inl rfl⟩

theorem ids_rel_shift_registry (d : Int) : ∀ (ps : List Ptr) (h : Heap),
    ids_rel d h (shift_registry d ps h)
  | [], h => ids_rel_refl d h
  | p :: ps, h => ids_rel_trans (ids_rel_dec d h p) (ids_rel_shift_registry d ps _)

theorem ids_rel_shift_entries (d : Int) : ∀ (es : List dir_entry) (h : Heap),
    ids_rel d h (shift_entries d es h)
  | [], h => ids_rel_refl d h
  | e :: es, h => ids_rel_trans (ids_rel_dec d h e.node) (ids_rel_shift_entries d es _)

theorem ids_rel_shift_children (d : Int) : ∀ (ps : List Ptr) (h : Heap),
    ids_rel d h (shift_children d ps h)
  | [], h => ids_rel_refl d h
  | p :: ps, h =>
    ids_rel_trans (ids_rel_shift_entries d (children_of h p) h)
      (ids_rel_shift_children d ps _)

theorem ids_rel_shift (s : FS) (d : Int) : ids_rel d s.heap (shift_inode_ids s d).heap :=
  ids_rel_trans (ids_rel_shift_registry d s.sb.inodes_table s.heap)
    (ids_rel_shift_children d s.sb.inodes_table _)

theorem idok_transfer {reg reg1 : List Ptr} {root : Ptr} {h h1 : Heap} {next next1 : Int}
    (hi : IdOK reg root h next)
    (hsub : ∀ p ∈ reg1, p ∈ reg ∨ ∀ n, deref h1 p = some n → 1 ≤ n.inode_id)
    (hids : ∀ p b, deref h1 p = some b → (p ∈ reg ∨ p = root) →
      ∃ a, deref h p = some a ∧ b.inode_id = a.inode_id)
    (hnext : (reg1.length : Int) + 1 ≤ next1) : IdOK reg1 root h1 next1 := by
  refine ⟨?_, ?_, hnext⟩
  · intro r hr
    obtain ⟨a, ha, hid⟩ := hids root r hr (Or.inr rfl)
    rw [hid]
    exact hi.root_id a ha
  · intro p hp hne n hn
    rcases hsub p hp with hp | hnew
    · obtain ⟨a, ha, hid⟩ := hids p n hn (Or.inl hp)
      rw [hid]
      exact hi.ids p hp hne a ha
    · exact hnew n hn

theorem idok_shift {reg : List Ptr} {root : Ptr} {h h1 : Heap} {next next1 d : Int}
    (hi : IdOK reg root h next) (hd : 1 ≤ d) (hrel : ids_rel d h h1)
    (hnext : (reg.length : Int) + 1 ≤ next1) : IdOK reg root h1 next1 := by
  refine ⟨?_, ?_, hnext⟩
  · intro r hr
    obtain ⟨a, ha, hstep⟩ := hrel root r hr
    have := hi.root_id a ha
    unfold id_step at hstep
    omega
  · intro p hp hne n hn
    obtain ⟨a, ha, hstep⟩ := hrel p n hn
    have := hi.ids p hp hne a ha
    unfold id_step at hstep
    omega

/-! ## The registry invariant is preserved -/

theorem reginv_main (mount_time root_time : List Char) : RegInv (main mount_time root_time) := by
  have hheap : (main mount_time root_time).heap
      = [some (new_inode
          { sb := { total_inodes := 0, total_blocks := 1024, free_blocks := 1024,
                    free_inodes := 100, block_size := 4096, inodes_table := [],
                    time_mount := mount_time, root := 0, next_inode_id := 0 }, heap := [] }
          root_time 2 ("rwxr-xr-x").toList ("/").toList none none)] := rfl
  have hroot : (main mount_time root_time).sb.root = 0 := rfl
  have hreg : (main mount_time root_time).sb.inodes_table = [0] := rfl
  have hnext : (main mount_time root_time).sb.next_inode_id = 2 := rfl
  have hd : ∀ q pn, deref (main mount_time root_time).heap q = some pn →
      pn.children = [] ∧ pn.parent = none ∧ pn.inode_id = 0 := by
    intro q pn hq
    rw [hheap] at hq
    cases q with
    | zero =>
      simp only [deref, Option.some.injEq] at hq
      subst hq
      exact ⟨rfl, rfl, rfl⟩
    | succ q => simp [deref] at hq
  constructor
  · rw [hroot, hreg]
    refine ⟨List.nodup_singleton _, List.mem_singleton_self _, ?_, ?_, ?_, ?_⟩
    · intro p hp
      rw [List.mem_singleton.mp hp, hheap]
      exact ⟨_, rfl⟩
    · intro p hp _ _ _
      exact List.mem_singleton.mp hp
    · intro q _ pn hpn e he
      rw [(hd q pn hpn).1] at he
      cases he
    · intro p _ n hn q hq
      rw [(hd p n hn).2.1] at hq
      cases hq
  · rw [hroot, hreg, hnext]
    refine ⟨fun r hr => (hd 0 r hr).2.2, ?_, by norm_num⟩
    intro p hp hne
    exact absurd (List.mem_singleton.mp hp) hne

theorem reg_lt_length {s : FS} (hr : RegInv s) {p : Ptr} (hp : p ∈ s.sb.inodes_table) :
    p < s.heap.length := by
  obtain ⟨n, hn⟩ := hr.reg.live p hp
  exact lt_length_of_deref hn

theorem reginv_create_at {s : FS} (hr : RegInv s) (now : List Char) (parent : Option Ptr)
    (file_name : List Char) (init_content : Option (List Char))
    (hparent : ∀ par, parent = some par → par ∈ s.sb.inodes_table) :
    RegInv (create_at s now parent file_name init_content).1 := by
  unfold create_at
  split
  · exact hr
  · rename_i par
    have hpar : par ∈ s.sb.inodes_table := hparent par rfl
    split
    · exact hr
    · rename_i pn hpn
      by_cases hft : pn.file_type = 2
      · simp only [hft, ne_eq, not_true_eq_false, if_false]
        split
        · exact hr
        · have hnext := hr.id.next
          have hold : ∀ q a, deref s.heap q = some a →
              deref (modify (s.heap ++ [some (new_inode s now 1 ("rw-r--r--").toList file_name
                init_content (some par))]) s.heap.length
                (fun n =>
                  { n with
                    start_block := s.sb.total_blocks - s.sb.free_blocks
                    total_blocks := 1
                    content := some (file_data s init_content).1
                    file_size := (file_data s init_content).2 })) q = some a :=
            fun q a ha => deref_modify_new_old _ _ ha
          split
          · constructor
            · exact regok_link (name_field file_name) (regok_of_old hold hr.reg)
                (fun h => Nat.lt_irrefl _ (reg_lt_length hr h))
                (deref_modify_new _ _ _) rfl rfl hpar (hold par pn hpn) hft
            · show IdOK (s.heap.length :: s.sb.inodes_table) s.sb.root
                (create_file_state s now par file_name init_content).heap
                (s.sb.next_inode_id + 1)
              apply idok_transfer hr.id
              · intro p hp
                rcases List.mem_cons.mp hp with rfl | hp
                · right
                  intro n hn
                  obtain ⟨a, ha, _, _, _, _, _, hid, _⟩ := modify_children_inv
                    (g := fun l => ⟨name_field file_name, s.heap.length⟩ :: l) hn
                  rw [deref_modify_new] at ha
                  have ha : _ = a := Option.some.inj ha
                  subst ha
                  rw [hid]
                  show 1 ≤ s.sb.next_inode_id
                  omega
                · exact Or.inl hp
              · intro p b hb hp
                have hpr : p ∈ s.sb.inodes_table := by
                  rcases hp with hp | rfl
                  · exact hp
                  · exact hr.reg.root_mem
                obtain ⟨a0, ha0⟩ := hr.reg.live p hpr
                obtain ⟨a, ha, _, _, _, _, _, hid, _⟩ := modify_children_inv
                  (g := fun l => ⟨name_field file_name, s.heap.length⟩ :: l) hb
                rw [hold p a0 ha0] at ha
                have ha : a0 = a := Option.some.inj ha
                subst ha
                exact ⟨a0, ha0, hid⟩
              · simp only [List.length_cons]
                push_cast
                omega
          · constructor
            · exact regok_of_old (fun q a ha => deref_append_old ha) hr.reg
            · show IdOK s.sb.inodes_table s.sb.root
                (create_leak_state s now par file_name init_content).heap
                (s.sb.next_inode_id + 1)
              apply idok_transfer hr.id
              · exact fun p hp => Or.inl hp
              · intro p b hb hp
                have hpr : p ∈ s.sb.inodes_table := by
                  rcases hp with hp | rfl
                  · exact hp
                  · exact hr.reg.root_mem
                obtain ⟨a0, ha0⟩ := hr.reg.live p hpr
                have : deref (create_leak_state s now par file_name init_content).heap p
                    = some a0 := deref_append_old ha0
                rw [this] at hb
                have hb : a0 = b := Option.some.inj hb
                subst hb
                exact ⟨a0, ha0, rfl⟩
              · omega
      · simp only [hft, ne_eq, not_false_eq_true, if_true]
        exact hr

theorem reginv_mkdir_at {s : FS} (hr : RegInv s) (now : List Char) (parent : Option Ptr)
    (dir_name : List Char)
    (hparent : ∀ par, parent = some par → par ∈ s.sb.inodes_table) :
    RegInv (mkdir_at s now parent dir_name).1 := by
  unfold mkdir_at
  split
  · exact hr
  · rename_i par
    have hpar : par ∈ s.sb.inodes_table := hparent par rfl
    split
    · exact hr
    · rename_i pn hpn
      by_cases hft : pn.file_type = 2
      · simp only [hft, ne_eq, not_true_eq_false, if_false]
        split
        · exact hr
        · have hnext := hr.id.next
          have hold : ∀ q a, deref s.heap q = some a →
              deref (s.heap ++ [some (new_inode s now 2 ("rwxr-xr-x").toList dir_name none
                (some par))]) q = some a :=
            fun q a ha => deref_append_old ha
          constructor
          · exact regok_link (name_field dir_name) (regok_of_old hold hr.reg)
              (fun h => Nat.lt_irrefl _ (reg_lt_length hr h))
              (deref_append_new _ _) rfl rfl hpar (hold par pn hpn) hft
          · show IdOK (s.heap.length :: s.sb.inodes_table) s.sb.root
              (mkdir_state s now par dir_name).heap (s.sb.next_inode_id + 1)
            apply idok_transfer hr.id
            · intro p hp
              rcases List.mem_cons.mp hp with rfl | hp
              · right
                intro n hn
                obtain ⟨a, ha, _, _, _, _, _, hid, _⟩ := modify_children_inv
                  (g := fun l => ⟨name_field dir_name, s.heap.length⟩ :: l) hn
                rw [deref_append_new] at ha
                have ha : _ = a := Option.some.inj ha
                subst ha
                rw [hid]
                show 1 ≤ s.sb.next_inode_id
                omega
              · exact Or.inl hp
            · intro p b hb hp
              have hpr : p ∈ s.sb.inodes_table := by
                rcases hp with hp | rfl
                · exact hp
                · exact hr.reg.root_mem
              obtain ⟨a0, ha0⟩ := hr.reg.live p hpr
              obtain ⟨a, ha, _, _, _, _, _, hid, _⟩ := modify_children_inv
                (g := fun l => ⟨name_field dir_name, s.heap.length⟩ :: l) hb
              rw [hold p a0 ha0] at ha
              have ha : a0 = a := Option.some.inj ha
              subst ha
              exact ⟨a0, ha0, hid⟩
            · simp only [List.length_cons]
              push_cast
              omega
      · simp only [hft, ne_eq, not_false_eq_true, if_true]
        exact hr

theorem reginv_create {s : FS} (hr : RegInv s) (now path : List Char) :
    RegInv (myfs_create s now path).1 := by
  rw [myfs_create_eq]
  exact reginv_create_at hr _ _ _ _ (fun par hp => parent_of_mem_reg hr.reg hp)

theorem reginv_mkdir {s : FS} (hr : RegInv s) (now path : List Char) :
    RegInv (myfs_mkdir s now path).1 := by
  rw [myfs_mkdir_eq]
  exact reginv_mkdir_at hr _ _ _ (fun par hp => parent_of_mem_reg hr.reg hp)

/-- The registry invariant after the record `node`, a registered child of
`parent` without bindings, is detached and the identifiers are shifted. -/
theorem reginv_detach {s : FS} (hi : Inv s) (hr : RegInv s) {path : List Char}
    {node parent : Ptr} {n : inode} (free_blocks : Int)
    (hf : find_inode_by_path s path = some node) (hn : deref s.heap node = some n)
    (hp : n.parent = some parent) (hnc : n.children = []) (hreg : node ∈ s.sb.inodes_table) :
    RegInv (shift_inode_ids
      { sb := { s.sb with
          free_blocks := free_blocks
          inodes_table := s.sb.inodes_table.erase node
          free_inodes := s.sb.free_inodes + 1 },
        heap := detach_heap s.heap parent node (basename path) } n.inode_id) := by
  obtain ⟨_, pP, _, _, hP, _, hfe, _, hfree⟩ := resolved_child hi hf hn hp
  have hroot : s.sb.root ≠ node := root_ne_of_parent hi.heap.root hn hp
  have hdet := regok_detach hr.reg hroot hn hnc hP hfe hfree
  have hlen : ((s.sb.inodes_table.erase node).length : Int) + 1
      = (s.sb.inodes_table.length : Int) := by
    rw [List.length_erase_of_mem hreg]
    have : 0 < s.sb.inodes_table.length := List.length_pos_of_mem hreg
    omega
  have hnext := hr.id.next
  constructor
  · exact regok_of_same (same_on_shape_of_core (same_on_shift _ _)) hdet
  · have hid0 : IdOK (s.sb.inodes_table.erase node) s.sb.root
        (detach_heap s.heap parent node (basename path)) s.sb.next_inode_id := by
      apply idok_transfer hr.id
      · exact fun p hp => Or.inl (List.mem_of_mem_erase hp)
      · intro p b hb _
        obtain ⟨_, a, ha, _, _, hid, _⟩ := deref_detach_inv hb
        exact ⟨a, ha, hid⟩
      · omega
    have hd : 1 ≤ n.inode_id := hr.id.ids node hreg (fun h => hroot h.symm) n hn
    refine idok_shift hid0 hd (ids_rel_shift _ _) ?_
    show ((s.sb.inodes_table.erase node).length : Int) + 1
      ≤ (if s.sb.next_inode_id > 0 then s.sb.next_inode_id - 1 else s.sb.next_inode_id)
    split <;> omega

theorem reginv_unlink {s : FS} (hi : Inv s) (hr : RegInv s) (path : List Char) :
    RegInv (myfs_unlink s path).1 := by
  rcases myfs_unlink_cases s path with h | ⟨node, n, parent, hf, hn, hft, hp, h | h⟩
  · rw [h.1]; exact hr
  · rw [h.2]
    have hnc : n.children = [] := by
      by_contra hne
      have := hi.heap.dirs node n hn hne
      rw [hft] at this
      cases this
    exact reginv_detach hi hr _ hf hn hp hnc h.1
  · exact absurd (resolved_mem_reg hr.reg hf) h.1

theorem reginv_rmdir {s : FS} (hi : Inv s) (hr : RegInv s) (path : List Char) :
    RegInv (myfs_rmdir s path).1 := by
  rcases myfs_rmdir_cases s path with h | ⟨node, n, parent, hf, hn, _, hnc, hp, h | h⟩
  · rw [h.1]; exact hr
  · rw [h.2]
    exact reginv_detach hi hr _ hf hn hp hnc h.1
  · exact absurd (resolved_mem_reg hr.reg hf) h.1

/-- Under the invariant `myfs_write` returns the state unchanged or with one
file record rewritten: its lazy allocation is never reached. -/
theorem myfs_write_cases {s : FS} (hi : Inv s) (path buf : List Char) (offset : Nat) :
    (myfs_write s path buf offset).1 = s
    ∨ ∃ node n content, find_inode_by_path s path = some node ∧ deref s.heap node = some n
        ∧ n.file_type = 1 ∧ n.content = some content
        ∧ myfs_write s path buf offset
          = (write_state s node content buf offset (clipped_size s.sb.block_size offset buf.length),
             .ok (clipped_size s.sb.block_size offset buf.length)) := by
  cases hf : find_inode_by_path s path with
  | none => left; simp only [myfs_write, hf]
  | some node =>
    cases hn : deref s.heap node with
    | none => left; simp only [myfs_write, hf, hn]
    | some n =>
      by_cases hft : n.file_type = 1
      · obtain ⟨content, hc, _⟩ := resolved_file_has_buffer hi hf hn hft
        rw [myfs_write_file hf hn hft hc]
        split
        · split
          · right
            exact ⟨node, n, content, rfl, hn, hft, hc, rfl⟩
          · left; rfl
        · left; rfl
      · left
        simp only [myfs_write, hf, hn, hft, ne_eq, not_false_eq_true, if_true]

theorem reginv_write {s : FS} (hi : Inv s) (hr : RegInv s) (path buf : List Char)
    (offset : Nat) : RegInv (myfs_write s path buf offset).1 := by
  rcases myfs_write_cases hi path buf offset with h | ⟨node, n, content, _, _, _, _, h⟩
  · rw [h]; exact hr
  · rw [h]
    constructor
    · exact regok_of_same (same_on_modify shape s.heap node _ (fun _ => rfl)) hr.reg
    · show IdOK s.sb.inodes_table s.sb.root (write_state s node content buf offset _).heap
        s.sb.next_inode_id
      apply idok_transfer hr.id
      · exact fun p hp => Or.inl hp
      · intro p b hb _
        obtain ⟨a, ha, hv⟩ :=
          same_on_inv (same_on_modify (fun m => m.inode_id) s.heap node
            (written content buf offset (clipped_size s.sb.block_size offset buf.length))
            (fun _ => rfl)) hb
        exact ⟨a, ha, hv.symm⟩
      · exact hr.id.next

theorem reginv_step {s s1 : FS} (hi : Inv s) (hr : RegInv s) (op : Op)
    (hs : step s op = some s1) : RegInv s1 := by
  cases op with
  | getattr path =>
    simp only [step] at hs
    split at hs
    · cases hs
    · cases hs; exact hr
  | readdir path =>
    simp only [step] at hs
    split at hs
    · cases hs
    · cases hs; exact hr
  | create now path =>
    simp only [step] at hs
    split at hs
    · cases hs
    · cases hs; exact reginv_create hr now path
  | mkdir now path =>
    simp only [step] at hs
    split at hs
    · cases hs
    · cases hs; exact reginv_mkdir hr now path
  | rmdir path =>
    simp only [step] at hs
    split at hs
    · cases hs
    · cases hs; exact reginv_rmdir hi hr path
  | unlink path =>
    simp only [step] at hs
    split at hs
    · cases hs
    · cases hs; exact reginv_unlink hi hr path
  | read path size offset =>
    simp only [step] at hs
    split at hs
    · cases hs
    · cases hs; exact hr
  | write path buf offset =>
    simp only [step] at hs
    split at hs
    · cases hs
    · cases hs; exact reginv_write hi hr path buf offset
  | «open» path =>
    simp only [step] at hs
    cases hs; exact hr
  | utimens path =>
    simp only [step] at hs
    cases hs; exact hr

/-- Every reachable state satisfies both invariants. -/
theorem reachable_reginv {s : FS} (hr : Reachable s) : Inv s ∧ RegInv s := by
  induction hr with
  | init mount_time root_time => exact ⟨inv_main _ _, reginv_main _ _⟩
  | step op _ hs ih => exact ⟨inv_step ih.1 op hs, reginv_step ih.1 ih.2 op hs⟩

theorem filter_node_length_one {l : List dir_entry} {p : Ptr}
    (hnd : (l.map (fun e => e.name)).Nodup)
    (hname : ∀ e ∈ l, ∀ e1 ∈ l, e.node = p → e1.node = p → e.name = e1.name)
    (hex : ∃ e ∈ l, e.node = p) : (l.filter (fun e => e.node = p)).length = 1 := by
  induction l with
  | nil => obtain ⟨e, he, _⟩ := hex; cases he
  | cons a l ih =>
    simp only [List.map_cons, List.nodup_cons] at hnd
    by_cases ha : a.node = p
    · have hnone : l.filter (fun e => e.node = p) = [] := by
        rw [List.filter_eq_nil_iff]
        intro e he hep
        have hep : e.node = p := by simpa using hep
        have := hname a (List.mem_cons_self _ _) e (List.mem_cons_of_mem _ he) ha hep
        apply hnd.1
        rw [this]
        exact List.mem_map_of_mem _ he
      simp [List.filter_cons, ha, hnone]
    · have hex1 : ∃ e ∈ l, e.node = p := by
        obtain ⟨e, he, hep⟩ := hex
        rcases List.mem_cons.mp he with rfl | he
        · exact absurd hep ha
        · exact ⟨e, he, hep⟩
      have := ih hnd.2
        (fun e he e1 he1 => hname e (List.mem_cons_of_mem _ he) e1 (List.mem_cons_of_mem _ he1))
        hex1
      simp [List.filter_cons, ha, this]

/-- When the targets of a chain are pairwise distinct, exactly one of its
entries points to a node that the chain points to at all. -/
theorem filter_target_length_one {l : List dir_entry} {p : Ptr}
    (hnd : (l.map (fun e => e.node)).Nodup)
    (hex : ∃ e ∈ l, e.node = p) : (l.filter (fun e => e.node = p)).length = 1 := by
  induction l with
  | nil => obtain ⟨e, he, _⟩ := hex; cases he
  | cons a l ih =>
    simp only [List.map_cons, List.nodup_cons] at hnd
    by_cases ha : a.node = p
    · have hnone : l.filter (fun e => e.node = p) = [] := by
        rw [List.filter_eq_nil_iff]
        intro e he hep
        have hep : e.node = p := by simpa using hep
        apply hnd.1
        rw [ha, ← hep]
        exact List.mem_map_of_mem (fun e => e.node) he
      simp [List.filter_cons, ha, hnone]
    · have hex1 : ∃ e ∈ l, e.node = p := by
        obtain ⟨e, he, hep⟩ := hex
        rcases List.mem_cons.mp he with rfl | he
        · exact absurd hep ha
        · exact ⟨e, he, hep⟩
      have := ih hnd.2 hex1
      simp [List.filter_cons, ha, this]

/-- The content of C6 for the block size 4096 of the reachable states. -/
theorem create_then_read_4096 {s : FS} (hr : Reachable s) (now d n c : List Char)
    (hn : n ≠ []) (hns : ∀ x ∈ n, x ≠ '/') (hne : ∀ x ∈ n, x ≠ '=') (hcs : ∀ x ∈ c, x ≠ '/')
    (hshort : n.length < 255) (hsb : join_path d n ≠ superblock_path) :
    ((myfs_create s now (join_path d n ++ '=' :: c)).2 = .ok () →
      myfs_getattr (myfs_create s now (join_path d n ++ '=' :: c)).1 (join_path d n)
          = .ok { st_mode := S_IFREG + 0o644, st_nlink := 1,
                  st_size := (spec_initial_content 4096 c).length }
        ∧ ∀ L, (spec_initial_content 4096 c).length ≤ L → L < 2 ^ 64 →
            myfs_read (myfs_create s now (join_path d n ++ '=' :: c)).1 (join_path d n) L 0
              = .ok (spec_initial_content 4096 c))
    ∧ ((myfs_create s now (join_path d n)).2 = .ok () →
      myfs_getattr (myfs_create s now (join_path d n)).1 (join_path d n)
          = .ok { st_mode := S_IFREG + 0o644, st_nlink := 1, st_size := 0 }
        ∧ ∀ L, myfs_read (myfs_create s now (join_path d n)).1 (join_path d n) L 0
            = .ok []) := by
  have hi := reachable_inv hr
  have hbs : s.sb.block_size.toNat = 4096 := by rw [hi.block_size]; rfl
  obtain ⟨e, hj, _⟩ := join_path_component d n
  rw [hj] at hsb ⊢
  have hslash : e ++ '/' :: n ≠ ['/'] := by
    intro h
    have := congrArg List.length h
    have hlen : 0 < n.length := List.length_pos.mpr hn
    simp only [List.length_append, List.length_cons, List.length_nil] at this
    omega
  constructor
  · intro hok
    have hpath : e ++ '/' :: n ++ '=' :: c = e ++ '/' :: (n ++ '=' :: c) := by simp
    rw [hpath] at hok ⊢
    have hws : ∀ x ∈ n ++ '=' :: c, x ≠ '/' := by
      intro x hx
      rcases List.mem_append.mp hx with hx | hx
      · exact hns x hx
      · rcases List.mem_cons.mp hx with rfl | hx
        · decide
        · exact hcs x hx
    have hwne : n ++ '=' :: c ≠ [] := by simp
    have hfn : file_name_of (e ++ '/' :: (n ++ '=' :: c)) = n := by
      unfold file_name_of
      rw [basename_component e _ hwne hws, takeWhile_before_eq n c hne]
    have hic : init_content_of (e ++ '/' :: (n ++ '=' :: c)) = some c := by
      unfold init_content_of
      rw [basename_component e _ hwne hws, dropWhile_before_eq n c hne]
      simp
    obtain ⟨node, r, hf, hd, hft, hc, hsz⟩ :=
      create_then_resolve now e _ n (some c) hwne hws hfn hic hn hns hshort hok
    obtain ⟨hs1, hs2⟩ := initial_buffer_spec 4096 c (by norm_num)
    have hdata : file_data s (some c) = initial_buffer 4096 c := by
      simp only [file_data, hbs]
    rw [hdata] at hc hsz
    obtain ⟨hl1, _, hl3⟩ := initial_buffer_length 4096 c (by norm_num)
    constructor
    · simp only [myfs_getattr, hslash, hsb, if_false, hf, hd, hft, if_true, hsz, hs1]
    · intro L hL hL2
      rw [myfs_read_file hsb hf hd hft hc, hsz, hs1, Int.toNat_ofNat,
        read_slice_whole _ _ _ (by rw [hl1]; rw [hs1] at hl3; exact_mod_cast hl3) hL hL2, hs2]
  · intro hok
    have hfn : file_name_of (e ++ '/' :: n) = n := by
      unfold file_name_of
      rw [basename_component e _ hn hns, takeWhile_no_eq n hne]
    have hic : init_content_of (e ++ '/' :: n) = none := by
      unfold init_content_of
      rw [basename_component e _ hn hns]
      have : ¬ '=' ∈ n := fun h => hne _ h rfl
      simp [this]
    obtain ⟨node, r, hf, hd, hft, hc, hsz⟩ :=
      create_then_resolve now e _ n none hn hns hfn hic hn hns hshort hok
    have hdata : file_data s none = (List.replicate 4096 (Char.ofNat 0), 0) := by
      simp only [file_data, hbs]
    rw [hdata] at hc hsz
    constructor
    · simp only [myfs_getattr, hslash, hsb, if_false, hf, hd, hft, if_true, hsz]
    · intro L
      rw [myfs_read_file hsb hf hd hft hc, hsz]
      simp [read_slice]


/-- The content of C7 for the block size 4096 of the reachable states. -/
theorem write_then_read_4096 {s : FS} (hr : Reachable s) (path : List Char)
    (hfile : (resolve s path).map (fun n => n.file_type) = some 1)
    (hsb : path ≠ superblock_path) (offset : Nat) (ho : offset < 4096) (buf : List Char)
    (hsz : offset + buf.length < 2 ^ 64) :
    myfs_read (myfs_write s path buf offset).1 path buf.length offset
      = .ok (buf.take (min buf.length (4096 - offset))) := by
  have hi := reachable_inv hr
  obtain ⟨n, hres, hft⟩ : ∃ n, resolve s path = some n ∧ n.file_type = 1 := by
    cases hr0 : resolve s path with
    | none => simp [hr0] at hfile
    | some n => exact ⟨n, rfl, by simpa [hr0] using hfile⟩
  unfold resolve at hres
  cases hf : find_inode_by_path s path with
  | none => simp [hf] at hres
  | some node =>
    simp only [hf] at hres
    obtain ⟨content, hc, hlen, h0, h1⟩ := resolved_file_has_buffer hi hf hres hft
    have hlen : content.length = 4096 := by exact_mod_cast hlen
    rw [myfs_write_file hf hres hft hc, hi.block_size,
      clipped_size_in_block _ _ (Nat.le_of_lt ho) hsz]
    by_cases ha : min buf.length (4096 - offset) > 0
    · have hb : offset + min buf.length (4096 - offset) ≤ content.length
          ∧ min buf.length (4096 - offset) ≤ buf.length := by
        rw [hlen]; omega
      simp only [ha, hb, and_self, if_true]
      have hf1 : find_inode_by_path
          (write_state s node content buf offset (min buf.length (4096 - offset))) path
          = some node := by
        rw [find_inode_by_path_write_state]
        exact hf
      have hn1 : deref
          (write_state s node content buf offset (min buf.length (4096 - offset))).heap node
          = some (written content buf offset (min buf.length (4096 - offset)) n) := by
        simp [write_state, deref_modify, hres]
      rw [myfs_read_file hsb hf1 hn1 hft rfl]
      have hfs : (written content buf offset (min buf.length (4096 - offset)) n).file_size.toNat
          = max n.file_size.toNat (offset + min buf.length (4096 - offset)) := by
        simp only [written]
        split <;> omega
      rw [hfs]
      unfold read_slice
      have hmod : (offset + buf.length) % 2 ^ 64 = offset + buf.length := Nat.mod_eq_of_lt hsz
      rw [hmod]
      have hlt : offset < max n.file_size.toNat (offset + min buf.length (4096 - offset)) := by
        omega
      simp only [hlt, if_true]
      have hsize : (if offset + buf.length
            > max n.file_size.toNat (offset + min buf.length (4096 - offset))
          then max n.file_size.toNat (offset + min buf.length (4096 - offset)) - offset
          else buf.length) = min buf.length (4096 - offset) := by
        split <;> omega
      rw [hsize]
      rw [length_written_content hb.1 hb.2]
      simp only [hb.1, if_true]
      rw [drop_take_written content buf (by omega) hb.2]
    · have hbl : buf.length = 0 := by omega
      simp only [ha, if_false]
      rw [myfs_read_file hsb hf hres hft hc]
      have hnil : buf = [] := List.length_eq_zero.mp hbl
      subst hnil
      unfold read_slice
      simp only [List.length_nil, Nat.add_zero]
      have hmod : offset % 2 ^ 64 = offset := Nat.mod_eq_of_lt (by simpa using hsz)
      rw [hmod]
      by_cases hlt : offset < n.file_size.toNat
      · have h2 : ¬ offset > n.file_size.toNat := by omega
        have h3 : offset ≤ content.length := by omega
        simp [hlt, h2, h3]
      · simp [hlt]


/-- Within the block `myfs_write` does what C8 describes: for an offset up to
the block size it accepts `min length (4096 - offset)` bytes, copies exactly
these, and records the larger of the old size and the end of the copy. -/
theorem write_within_block {s : FS} (hr : Reachable s) (path : List Char) (node : Ptr)
    (n : inode) (hf : find_inode_by_path s path = some node)
    (hn : deref s.heap node = some n) (hft : n.file_type = 1)
    (offset : Nat) (ho : offset ≤ 4096) (buf : List Char)
    (hsz : offset + buf.length < 2 ^ 64) :
    ∃ content, n.content = some content ∧ content.length = 4096
      ∧ (myfs_write s path buf offset).2 = .ok (min buf.length (4096 - offset))
      ∧ offset + min buf.length (4096 - offset) ≤ 4096
      ∧ (min buf.length (4096 - offset) = 0 → (myfs_write s path buf offset).1 = s)
      ∧ (0 < min buf.length (4096 - offset) →
          ∃ m, deref (myfs_write s path buf offset).1.heap node = some m
            ∧ m.content = some (content.take offset
                ++ buf.take (min buf.length (4096 - offset))
                ++ content.drop (offset + min buf.length (4096 - offset)))
            ∧ m.file_size = max n.file_size ((offset + min buf.length (4096 - offset) : Nat) : Int)
            ∧ m.file_size ≤ 4096) := by
  have hi := reachable_inv hr
  obtain ⟨content, hc, hlen, h0, h1⟩ := resolved_file_has_buffer hi hf hn hft
  have hlen : content.length = 4096 := by exact_mod_cast hlen
  refine ⟨content, hc, hlen, ?_⟩
  rw [myfs_write_file hf hn hft hc, hi.block_size, clipped_size_in_block _ _ ho hsz]
  by_cases ha : min buf.length (4096 - offset) > 0
  · have hb : offset + min buf.length (4096 - offset) ≤ content.length
        ∧ min buf.length (4096 - offset) ≤ buf.length := by
      rw [hlen]; omega
    rw [if_pos ha, if_pos hb]
    refine ⟨rfl, by omega, fun h => by omega, fun _ => ?_⟩
    refine ⟨written content buf offset (min buf.length (4096 - offset)) n, ?_, rfl, ?_, ?_⟩
    · simp [write_state, deref_modify, hn]
    · simp only [written]
      split <;> omega
    · simp only [written]
      split <;> omega
  · rw [if_neg ha]
    exact ⟨rfl, by omega, fun _ => rfl, fun h => absurd h ha⟩

/-! ## Reachability of the example states -/

theorem reachable_create {s : FS} (now path : List Char) (h : Reachable s)
    (hd : (myfs_create s now path).2 ≠ .undefined) : Reachable (myfs_create s now path).1 :=
  Reachable.step (.create now path) h (by simp [step, hd])

theorem reachable_mkdir {s : FS} (now path : List Char) (h : Reachable s)
    (hd : (myfs_mkdir s now path).2 ≠ .undefined) : Reachable (myfs_mkdir s now path).1 :=
  Reachable.step (.mkdir now path) h (by simp [step, hd])

theorem reachable_unlink {s : FS} (path : List Char) (h : Reachable s)
    (hd : (myfs_unlink s path).2 ≠ .undefined) : Reachable (myfs_unlink s path).1 :=
  Reachable.step (.unlink path) h (by simp [step, hd])

theorem reachable_rmdir {s : FS} (path : List Char) (h : Reachable s)
    (hd : (myfs_rmdir s path).2 ≠ .undefined) : Reachable (myfs_rmdir s path).1 :=
  Reachable.step (.rmdir path) h (by simp [step, hd])

theorem reachable_write {s : FS} (path buf : List Char) (offset : Nat) (h : Reachable s)
    (hd : (myfs_write s path buf offset).2 ≠ .undefined) :
    Reachable (myfs_write s path buf offset).1 :=
  Reachable.step (.write path buf offset) h (by simp [step, hd])

theorem reachable_fs0 : Reachable fs0 := Reachable.init [] []

theorem reachable_fs_abc : Reachable fs_abc :=
  reachable_create _ _
    (reachable_create _ _ (reachable_create _ _ reachable_fs0 (by decide!)) (by decide!))
    (by decide!)

theorem reachable_fs_sb : Reachable fs_sb :=
  reachable_create _ _ reachable_fs0 (by decide!)

theorem reachable_fs_d : Reachable fs_d :=
  reachable_create _ _ (reachable_mkdir _ _ reachable_fs0 (by decide!)) (by decide!)

/-! ## Lemmas for the claims on errors, accounting, reading and framing -/

/-- A name longer than all names of a list is not in it. -/
theorem fresh_name_spec (names : List (List Char)) :
    List.replicate ((names.map List.length).sum + 1) 'a' ∉ names := by
  intro hm
  have h1 : (List.replicate ((names.map List.length).sum + 1) 'a').length
      ≤ (names.map List.length).sum :=
    List.single_le_sum (fun _ _ => Nat.zero_le _) _ (List.mem_map_of_mem _ hm)
  simp at h1

/-- What `myfs_create` does when no block is free and parent and name are
fine: it returns `ENOSPC` after `create_inode` has run. -/
theorem create_at_enospc {s : FS} (now : List Char) {par : Ptr} {pn : inode}
    (file_name : List Char) (init_content : Option (List Char))
    (hpn : deref s.heap par = some pn) (hd : pn.file_type = 2)
    (hf : find_entry pn.children file_name = none) (hb : s.sb.free_blocks ≤ 0) :
    create_at s now (some par) file_name init_content
      = (create_leak_state s now par file_name init_content, .error .ENOSPC) := by
  unfold create_at
  simp only [hpn]
  rw [if_neg (by simp [hd]), if_neg (by simp [hf]), if_neg (by omega)]

/-- What `myfs_create` does when a block is free and parent and name are fine. -/
theorem create_at_success {s : FS} (now : List Char) {par : Ptr} {pn : inode}
    (file_name : List Char) (init_content : Option (List Char))
    (hpn : deref s.heap par = some pn) (hd : pn.file_type = 2)
    (hf : find_entry pn.children file_name = none) (hb : 0 < s.sb.free_blocks) :
    create_at s now (some par) file_name init_content
      = (create_file_state s now par file_name init_content, .ok ()) := by
  unfold create_at
  simp only [hpn]
  rw [if_neg (by simp [hd]), if_neg (by simp [hf]), if_pos (by omega)]

/-- In a state that satisfies the tree invariant the root has room for a new
name: a non-empty name without `/` and `=` that none of its bindings carries. -/
theorem fresh_root_name {s : FS} (hi : Inv s) :
    ∃ w r, w ≠ [] ∧ (∀ x ∈ w, x ≠ '/') ∧ (∀ x ∈ w, x ≠ '=')
      ∧ deref s.heap s.sb.root = some r ∧ r.file_type = 2
      ∧ find_entry r.children w = none := by
  obtain ⟨r, hr, _, hd⟩ := hi.heap.root
  refine ⟨List.replicate (((r.children.map (fun e => e.name)).map List.length).sum + 1) 'a',
    r, ?_, ?_, ?_, hr, hd, ?_⟩
  · simp [List.replicate_succ]
  · intro x hx
    rw [List.eq_of_mem_replicate hx]
    decide
  · intro x hx
    rw [List.eq_of_mem_replicate hx]
    decide
  · rw [find_entry_eq_none]
    intro e he heq
    exact fresh_name_spec (r.children.map (fun e => e.name))
      (heq ▸ List.mem_map_of_mem (fun e => e.name) he)

/-- The parent of a path `/w` is the root. -/
theorem parent_of_root_component (s : FS) (w : List Char) (hne : w ≠ [])
    (hs : ∀ x ∈ w, x ≠ '/') : parent_of s ('/' :: w) = some s.sb.root := by
  have h := parent_of_component s [] w hne hs
  rw [List.nil_append] at h
  rw [h, find_inode_by_path_eq_walk]
  rfl

/-- The file name of a path `/w` without `=` is `w`. -/
theorem file_name_of_root_component (w : List Char) (hne : w ≠ [])
    (hs : ∀ x ∈ w, x ≠ '/') (he : ∀ x ∈ w, x ≠ '=') : file_name_of ('/' :: w) = w := by
  have hb : basename ('/' :: w) = w := basename_component [] w hne hs
  unfold file_name_of
  rw [hb, takeWhile_no_eq w he]

/-- The call `myfs_create` makes for a path `/w` in the root. -/
theorem myfs_create_root_component (s : FS) (now w : List Char) (hne : w ≠ [])
    (hs : ∀ x ∈ w, x ≠ '/') (he : ∀ x ∈ w, x ≠ '=') :
    myfs_create s now ('/' :: w) = create_at s now (some s.sb.root) w none := by
  have hb : basename ('/' :: w) = w := basename_component [] w hne hs
  have hc : init_content_of ('/' :: w) = none := by
    unfold init_content_of
    rw [hb, if_neg]
    intro hm
    exact he _ hm rfl
  rw [myfs_create_eq, parent_of_root_component s w hne hs,
    file_name_of_root_component w hne hs he, hc]

/-- Every number of free blocks from 1024 down to 0 occurs in a reachable
state: files can be created in the root until the blocks run out. -/
theorem reachable_free_blocks : ∀ k : Nat, k ≤ 1024 →
    ∃ s, Reachable s ∧ s.sb.free_blocks = 1024 - (k : Int)
  | 0, _ => ⟨fs0, reachable_fs0, by decide!⟩
  | k + 1, hk => by
    obtain ⟨s, hr, hb⟩ := reachable_free_blocks k (by omega)
    obtain ⟨w, r, hne, hs, he, hroot, hd, hf⟩ := fresh_root_name (reachable_inv hr)
    have hc := myfs_create_root_component s [] w hne hs he
    rw [create_at_success [] w none hroot hd hf (by omega)] at hc
    refine ⟨(myfs_create s [] ('/' :: w)).1, reachable_create [] _ hr ?_, ?_⟩
    · rw [hc]
      simp
    · rw [hc]
      simp only [create_file_state]
      omega

/-- An error of `create_at` other than `ENOSPC` leaves the state as it was. -/
theorem create_at_error_state {s : FS} {now : List Char} {parent : Option Ptr}
    {file_name : List Char} {init_content : Option (List Char)} {e : Errno}
    (he : (create_at s now parent file_name init_content).2 = .error e) (hne : e ≠ .ENOSPC) :
    (create_at s now parent file_name init_content).1 = s := by
  unfold create_at at he ⊢
  cases parent with
  | none => rfl
  | some par =>
    simp only at he ⊢
    cases hpn : deref s.heap par with
    | none => rfl
    | some pn =>
      rw [hpn] at he
      simp only at he ⊢
      by_cases h1 : pn.file_type ≠ 2
      · rw [if_pos h1]
      · rw [if_neg h1] at he ⊢
        by_cases h2 : (find_entry pn.children file_name).isSome
        · rw [if_pos h2]
        · rw [if_neg h2] at he ⊢
          by_cases h3 : s.sb.free_blocks > 0
          · rw [if_pos h3] at he
            cases he
          · rw [if_neg h3] at he
            simp only [Result.error.injEq] at he
            exact absurd he.symm hne

/-- An error of `mkdir_at` leaves the state as it was. -/
theorem mkdir_at_error_state {s : FS} {now : List Char} {parent : Option Ptr}
    {dir_name : List Char} {e : Errno}
    (he : (mkdir_at s now parent dir_name).2 = .error e) :
    (mkdir_at s now parent dir_name).1 = s := by
  unfold mkdir_at at he ⊢
  cases parent with
  | none => rfl
  | some par =>
    simp only at he ⊢
    cases hpn : deref s.heap par with
    | none => rfl
    | some pn =>
      rw [hpn] at he
      simp only at he ⊢
      by_cases h1 : pn.file_type ≠ 2
      · rw [if_pos h1]
      · rw [if_neg h1] at he ⊢
        by_cases h2 : (find_entry pn.children dir_name).isSome
        · rw [if_pos h2]
        · rw [if_neg h2] at he
          cases he

/-- From a state that satisfies the invariants, an error of `myfs_unlink`
leaves the state as it was. -/
theorem unlink_error_state {s : FS} (hr : RegInv s) {path : List Char} {e : Errno}
    (he : (myfs_unlink s path).2 = .error e) : (myfs_unlink s path).1 = s := by
  rcases myfs_unlink_cases s path with ⟨h, _⟩ | ⟨node, n, parent, hf, hn, hft, hp, h | h⟩
  · exact h
  · rw [h.2] at he
    cases he
  · exact absurd (resolved_mem_reg hr.reg hf) h.1

/-- From a state that satisfies the invariants, an error of `myfs_rmdir`
leaves the state as it was. -/
theorem rmdir_error_state {s : FS} (hr : RegInv s) {path : List Char} {e : Errno}
    (he : (myfs_rmdir s path).2 = .error e) : (myfs_rmdir s path).1 = s := by
  rcases myfs_rmdir_cases s path with ⟨h, _⟩ | ⟨node, n, parent, hf, hn, hft, hc, hp, h | h⟩
  · exact h
  · rw [h.2] at he
    cases he
  · exact absurd (resolved_mem_reg hr.reg hf) h.1

/-- From a state that satisfies the invariants, an error of `myfs_write`
leaves the state as it was. -/
theorem write_error_state {s : FS} (hi : Inv s) {path buf : List Char} {offset : Nat}
    {e : Errno} (he : (myfs_write s path buf offset).2 = .error e) :
    (myfs_write s path buf offset).1 = s := by
  rcases myfs_write_cases hi path buf offset with h | ⟨node, n, content, _, _, _, _, h⟩
  · exact h
  · rw [h] at he
    cases he

theorem error_of_ne_undefined {α : Type} {r : Result α} {e : Errno}
    (h : error_of r = some e) : r ≠ .undefined := by
  intro hu
  rw [hu] at h
  cases h

theorem error_of_eq {α : Type} {r : Result α} {e : Errno}
    (h : error_of r = some e) : r = .error e := by
  cases r with
  | ok v => cases h
  | error e1 => simp only [error_of, Option.some.injEq] at h; rw [h]
  | undefined => cases h

/-! ### Block accounting -/

theorem blk_dec_id (d : Int) (a : inode) : blk (dec_id d a) = blk a := by
  unfold dec_id
  split <;> rfl

theorem same_on_blk_shift_registry (d : Int) : ∀ (ps : List Ptr) (h : Heap),
    same_on blk h (shift_registry d ps h)
  | [], h => same_on_refl blk h
  | p :: ps, h =>
    same_on_trans (same_on_modify blk h p (dec_id d) (blk_dec_id d))
      (same_on_blk_shift_registry d ps _)

theorem same_on_blk_shift_entries (d : Int) : ∀ (es : List dir_entry) (h : Heap),
    same_on blk h (shift_entries d es h)
  | [], h => same_on_refl blk h
  | e :: es, h =>
    same_on_trans (same_on_modify blk h e.node (dec_id d) (blk_dec_id d))
      (same_on_blk_shift_entries d es _)

theorem same_on_blk_shift_children (d : Int) : ∀ (ps : List Ptr) (h : Heap),
    same_on blk h (shift_children d ps h)
  | [], h => same_on_refl blk h
  | p :: ps, h =>
    same_on_trans (same_on_blk_shift_entries d (children_of h p) h)
      (same_on_blk_shift_children d ps _)

theorem same_on_blk_shift (s : FS) (d : Int) : same_on blk s.heap (shift_inode_ids s d).heap :=
  same_on_trans (same_on_blk_shift_registry d s.sb.inodes_table s.heap)
    (same_on_blk_shift_children d s.sb.inodes_table _)

theorem blocks_of_congr {h h1 : Heap} {p : Ptr}
    (ha : (deref h1 p).map blk = (deref h p).map blk) : blocks_of h1 p = blocks_of h p := by
  unfold blocks_of
  cases h1p : deref h1 p with
  | none =>
    rw [h1p] at ha
    cases hp : deref h p with
    | none => rfl
    | some a => rw [hp] at ha; cases ha
  | some b =>
    rw [h1p] at ha
    cases hp : deref h p with
    | none => rw [hp] at ha; cases ha
    | some a =>
      rw [hp] at ha
      simp only [Option.map_some', Option.some.injEq, blk, Prod.mk.injEq] at ha
      simp only [ha.1, ha.2]

theorem blkok_of_agree {reg : List Ptr} {h h1 : Heap} {used : Int}
    (ha : ∀ p ∈ reg, (deref h1 p).map blk = (deref h p).map blk) (hb : BlkOK reg h used) :
    BlkOK reg h1 used := by
  constructor
  · rw [hb.sum_eq]
    unfold held_blocks
    congr 1
    exact List.map_congr_left (fun p hp => (blocks_of_congr (ha p hp)).symm)
  · intro p hp n hn
    have h1 := ha p hp
    rw [hn] at h1
    cases hq : deref h p with
    | none => rw [hq] at h1; cases h1
    | some a =>
      rw [hq] at h1
      simp only [Option.map_some', Option.some.injEq, blk, Prod.mk.injEq] at h1
      rw [h1.1, h1.2]
      exact hb.count p hp a hq

theorem blkok_cons {reg : List Ptr} {h : Heap} {used : Int} {p : Ptr} {n : inode}
    (hb : BlkOK reg h used) (hn : deref h p = some n)
    (hc : n.total_blocks = if n.file_type = 1 then 1 else 0) :
    BlkOK (p :: reg) h (used + blocks_of h p) := by
  constructor
  · rw [hb.sum_eq]
    unfold held_blocks
    rw [List.map_cons, List.sum_cons]
    omega
  · intro q hq m hm
    rcases List.mem_cons.mp hq with h1 | h1
    · rw [h1, hn] at hm
      cases hm
      exact hc
    · exact hb.count q h1 m hm

theorem blkok_erase {reg : List Ptr} {h : Heap} {used : Int} {p : Ptr}
    (hb : BlkOK reg h used) (hp : p ∈ reg) :
    BlkOK (reg.erase p) h (used - blocks_of h p) := by
  constructor
  · rw [hb.sum_eq]
    unfold held_blocks
    have := List.sum_map_erase (blocks_of h) hp
    omega
  · intro q hq m hm
    exact hb.count q (List.mem_of_mem_erase hq) m hm

theorem blkinv_main (mount_time root_time : List Char) : BlkInv (main mount_time root_time) := by
  have hheap : (main mount_time root_time).heap
      = [some (new_inode
          { sb := { total_inodes := 0, total_blocks := 1024, free_blocks := 1024,
                    free_inodes := 100, block_size := 4096, inodes_table := [],
                    time_mount := mount_time, root := 0, next_inode_id := 0 }, heap := [] }
          root_time 2 ("rwxr-xr-x").toList ("/").toList none none)] := rfl
  have hreg : (main mount_time root_time).sb.inodes_table = [0] := rfl
  have hfree : (main mount_time root_time).sb.free_blocks = 1024 := rfl
  have htotal : (main mount_time root_time).sb.total_blocks = 1024 := rfl
  constructor
  · rw [hfree]
    decide
  · rw [hheap, hreg, hfree, htotal]
    constructor
    · rfl
    · intro p hp n hn
      rw [List.mem_singleton] at hp
      subst hp
      simp only [deref, Option.some.injEq] at hn
      subst hn
      rfl

/-- Appending a cell and rewriting the bindings of `par` leaves kind and
block count of every old cell as they were. -/
theorem blk_agree_link {h : Heap} (c : inode) (f g : inode → inode) (par : Ptr)
    (hg : ∀ a, blk (g a) = blk a) {p : Ptr} (hp : p < h.length) :
    (deref (modify (modify (h ++ [some c]) h.length f) par g) p).map blk
      = (deref h p).map blk := by
  rw [same_on_modify blk _ par g hg p, deref_modify, if_neg (Nat.ne_of_lt hp),
    deref_append, if_neg (Nat.ne_of_lt hp)]

theorem blk_agree_link_dir {h : Heap} (c : inode) (g : inode → inode) (par : Ptr)
    (hg : ∀ a, blk (g a) = blk a) {p : Ptr} (hp : p < h.length) :
    (deref (modify (h ++ [some c]) par g) p).map blk = (deref h p).map blk := by
  rw [same_on_modify blk _ par g hg p, deref_append, if_neg (Nat.ne_of_lt hp)]

theorem blkinv_create_at {s : FS} (hr : RegInv s) (hb : BlkInv s) (now : List Char)
    (parent : Option Ptr) (file_name : List Char) (init_content : Option (List Char)) :
    BlkInv (create_at s now parent file_name init_content).1 := by
  unfold create_at
  cases parent with
  | none => exact hb
  | some par =>
    simp only
    cases hpn : deref s.heap par with
    | none => exact hb
    | some pn =>
      simp only
      by_cases h1 : pn.file_type ≠ 2
      · rw [if_pos h1]; exact hb
      · rw [if_neg h1]
        by_cases h2 : (find_entry pn.children file_name).isSome
        · rw [if_pos h2]; exact hb
        · rw [if_neg h2]
          have hpar : par < s.heap.length := lt_length_of_deref hpn
          by_cases h3 : s.sb.free_blocks > 0
          · rw [if_pos h3]
            constructor
            · simp only [create_file_state]
              omega
            · have hold : BlkOK s.sb.inodes_table (create_file_state s now par file_name
                  init_content).heap (s.sb.total_blocks - s.sb.free_blocks) :=
                blkok_of_agree (fun p hp => blk_agree_link _ _ _ par (fun a => by rfl)
                  (reg_lt_length hr hp)) hb.held
              obtain ⟨c, hnew, hc1, hc2⟩ : ∃ c, deref (create_file_state s now par file_name
                  init_content).heap s.heap.length = some c ∧ c.file_type = 1
                  ∧ c.total_blocks = 1 := by
                simp only [create_file_state]
                rw [deref_modify, if_neg (Nat.ne_of_gt hpar), deref_modify_new]
                exact ⟨_, rfl, rfl, rfl⟩
              have h4 := blkok_cons hold hnew (by rw [hc1, hc2]; rfl)
              have h5 : blocks_of (create_file_state s now par file_name init_content).heap
                  s.heap.length = 1 := by
                unfold blocks_of
                rw [hnew]
                simp only [hc1, hc2, if_true]
              rw [h5] at h4
              have h6 : (create_file_state s now par file_name init_content).sb.total_blocks
                  - (create_file_state s now par file_name init_content).sb.free_blocks
                  = s.sb.total_blocks - s.sb.free_blocks + 1 := by
                simp only [create_file_state]
                omega
              rw [h6]
              exact h4
          · rw [if_neg h3]
            constructor
            · exact hb.free_nonneg
            · refine blkok_of_agree (fun p hp => ?_) hb.held
              simp only [create_leak_state]
              rw [deref_append, if_neg (Nat.ne_of_lt (reg_lt_length hr hp))]

theorem blkinv_mkdir_at {s : FS} (hr : RegInv s) (hb : BlkInv s) (now : List Char)
    (parent : Option Ptr) (dir_name : List Char) :
    BlkInv (mkdir_at s now parent dir_name).1 := by
  unfold mkdir_at
  cases parent with
  | none => exact hb
  | some par =>
    simp only
    cases hpn : deref s.heap par with
    | none => exact hb
    | some pn =>
      simp only
      by_cases h1 : pn.file_type ≠ 2
      · rw [if_pos h1]; exact hb
      · rw [if_neg h1]
        by_cases h2 : (find_entry pn.children dir_name).isSome
        · rw [if_pos h2]; exact hb
        · rw [if_neg h2]
          have hpar : par < s.heap.length := lt_length_of_deref hpn
          constructor
          · exact hb.free_nonneg
          · have hold : BlkOK s.sb.inodes_table (mkdir_state s now par dir_name).heap
                (s.sb.total_blocks - s.sb.free_blocks) :=
              blkok_of_agree (fun p hp => blk_agree_link_dir _ _ par (fun a => by rfl)
                (reg_lt_length hr hp)) hb.held
            obtain ⟨c, hnew, hc1, hc2⟩ : ∃ c, deref (mkdir_state s now par dir_name).heap
                s.heap.length = some c ∧ c.file_type = 2 ∧ c.total_blocks = 0 := by
              simp only [mkdir_state]
              rw [deref_modify, if_neg (Nat.ne_of_gt hpar), deref_append_new]
              exact ⟨_, rfl, rfl, rfl⟩
            have h4 := blkok_cons hold hnew (by rw [hc1, hc2]; rfl)
            have h5 : blocks_of (mkdir_state s now par dir_name).heap s.heap.length = 0 := by
              unfold blocks_of
              rw [hnew]
              simp only [hc1]
              rfl
            rw [h5, add_zero] at h4
            exact h4

theorem blkinv_create {s : FS} (hr : RegInv s) (hb : BlkInv s) (now path : List Char) :
    BlkInv (myfs_create s now path).1 := by
  rw [myfs_create_eq]
  exact blkinv_create_at hr hb _ _ _ _

theorem blkinv_mkdir {s : FS} (hr : RegInv s) (hb : BlkInv s) (now path : List Char) :
    BlkInv (myfs_mkdir s now path).1 := by
  rw [myfs_mkdir_eq]
  exact blkinv_mkdir_at hr hb _ _ _

/-- Removing a registered record from tree, registry and heap leaves the
block accounting of the others as it was. -/
theorem blkok_detach {s : FS} (hr : RegInv s) (hb : BlkInv s) {node : Ptr} (parent : Ptr)
    (name : List Char) (sb1 : superblock) (d : Int)
    (hreg : node ∈ s.sb.inodes_table) :
    BlkOK (s.sb.inodes_table.erase node)
      (shift_inode_ids { sb := sb1, heap := detach_heap s.heap parent node name } d).heap
      (s.sb.total_blocks - s.sb.free_blocks - blocks_of s.heap node) := by
  refine blkok_of_agree (fun p hp => ?_) (blkok_erase hb.held hreg)
  have hne : p ≠ node := fun h => by
    rw [h] at hp
    exact (List.Nodup.mem_erase_iff hr.reg.nodup).mp hp |>.1 rfl
  rw [same_on_blk_shift _ d p]
  simp only [detach_heap]
  rw [deref_release, if_neg hne]
  exact same_on_modify blk _ parent _ (fun a => by rfl) p

theorem blkinv_unlink {s : FS} (hr : RegInv s) (hb : BlkInv s) (path : List Char) :
    BlkInv (myfs_unlink s path).1 := by
  rcases myfs_unlink_cases s path with ⟨h, _⟩ | ⟨node, n, parent, hf, hn, hft, hp, h | h⟩
  · rw [h]; exact hb
  · rw [h.2]
    have hcount := hb.held.count node h.1 n hn
    rw [if_pos hft] at hcount
    have hblocks : blocks_of s.heap node = n.total_blocks := by
      unfold blocks_of
      rw [hn]
      simp only [hft, if_true]
    have h1 := blkok_detach hr hb parent (basename path)
      { s.sb with
        free_blocks := s.sb.free_blocks + n.total_blocks
        inodes_table := s.sb.inodes_table.erase node
        free_inodes := s.sb.free_inodes + 1 } n.inode_id h.1
    rw [hblocks] at h1
    constructor
    · show 0 ≤ s.sb.free_blocks + n.total_blocks
      have := hb.free_nonneg
      omega
    · show BlkOK (s.sb.inodes_table.erase node) _
        (s.sb.total_blocks - (s.sb.free_blocks + n.total_blocks))
      have h2 : s.sb.total_blocks - (s.sb.free_blocks + n.total_blocks)
          = s.sb.total_blocks - s.sb.free_blocks - n.total_blocks := by omega
      rw [h2]
      exact h1
  · exact absurd (resolved_mem_reg hr.reg hf) h.1

theorem blkinv_rmdir {s : FS} (hr : RegInv s) (hb : BlkInv s) (path : List Char) :
    BlkInv (myfs_rmdir s path).1 := by
  rcases myfs_rmdir_cases s path with ⟨h, _⟩ | ⟨node, n, parent, hf, hn, hft, hc, hp, h | h⟩
  · rw [h]; exact hb
  · rw [h.2]
    have hblocks : blocks_of s.heap node = 0 := by
      unfold blocks_of
      rw [hn]
      simp only [hft]
      rfl
    have h1 := blkok_detach hr hb parent (basename path)
      { s.sb with
        inodes_table := s.sb.inodes_table.erase node
        free_inodes := s.sb.free_inodes + 1 } n.inode_id h.1
    rw [hblocks, sub_zero] at h1
    exact ⟨hb.free_nonneg, h1⟩
  · exact absurd (resolved_mem_reg hr.reg hf) h.1

theorem blkinv_write {s : FS} (hi : Inv s) (hb : BlkInv s) (path buf : List Char)
    (offset : Nat) : BlkInv (myfs_write s path buf offset).1 := by
  rcases myfs_write_cases hi path buf offset with h | ⟨node, n, content, _, _, _, _, h⟩
  · rw [h]; exact hb
  · rw [h]
    refine ⟨hb.free_nonneg, blkok_of_agree (fun p _ => ?_) hb.held⟩
    exact same_on_modify blk _ node _ (fun a => by rfl) p

theorem blkinv_step {s s1 : FS} (hi : Inv s) (hr : RegInv s) (hb : BlkInv s) (op : Op)
    (h : step s op = some s1) : BlkInv s1 := by
  cases op with
  | create now path =>
    simp only [step] at h
    split at h
    · cases h
    · cases h; exact blkinv_create hr hb now path
  | mkdir now path =>
    simp only [step] at h
    split at h
    · cases h
    · cases h; exact blkinv_mkdir hr hb now path
  | rmdir path =>
    simp only [step] at h
    split at h
    · cases h
    · cases h; exact blkinv_rmdir hr hb path
  | unlink path =>
    simp only [step] at h
    split at h
    · cases h
    · cases h; exact blkinv_unlink hr hb path
  | write path buf offset =>
    simp only [step] at h
    split at h
    · cases h
    · cases h; exact blkinv_write hi hb path buf offset
  | getattr path =>
    simp only [step] at h
    split at h
    · cases h
    · cases h; exact hb
  | readdir path =>
    simp only [step] at h
    split at h
    · cases h
    · cases h; exact hb
  | read path size offset =>
    simp only [step] at h
    split at h
    · cases h
    · cases h; exact hb
  | _ =>
    simp only [step] at h
    cases h
    exact hb

/-- Every reachable state satisfies the tree, registry and block invariants. -/
theorem reachable_blkinv {s : FS} (h : Reachable s) : Inv s ∧ RegInv s ∧ BlkInv s := by
  induction h with
  | init mount_time root_time =>
    exact ⟨inv_main _ _, reginv_main _ _, blkinv_main _ _⟩
  | step op _ hs ih =>
    exact ⟨inv_step ih.1 op hs, reginv_step ih.1 ih.2.1 op hs, blkinv_step ih.1 ih.2.1 ih.2.2 op hs⟩

theorem held_blocks_nonneg {reg : List Ptr} {h : Heap} {used : Int} (hb : BlkOK reg h used) :
    0 ≤ held_blocks h reg := by
  unfold held_blocks
  apply List.sum_nonneg
  intro x hx
  obtain ⟨p, hp, rfl⟩ := List.mem_map.mp hx
  unfold blocks_of
  cases hd : deref h p with
  | none => exact le_refl _
  | some n =>
    simp only
    have := hb.count p hp n hd
    split
    · rename_i hft
      rw [if_pos hft] at this
      omega
    · exact le_refl _

/-- A registered file owns its content buffer. -/
theorem registered_file_has_buffer {s : FS} (hi : Inv s) (hr : RegInv s) {p : Ptr} {n : inode}
    (hp : p ∈ s.sb.inodes_table) (hn : deref s.heap p = some n) (hft : n.file_type = 1) :
    has_buffer 4096 n := by
  cases hpar : n.parent with
  | none =>
    have h1 := hr.reg.orphan p hp n hn hpar
    obtain ⟨r, hroot, _, hd⟩ := hi.heap.root
    rw [h1, hroot] at hn
    cases hn
    rw [hft] at hd
    cases hd
  | some q =>
    obtain ⟨_, pn, hq, _, e, he, hen⟩ := hr.reg.parent_mem p hp n hn q hpar
    exact hi.heap.files q pn hq e he n (by rw [hen]; exact hn) hft

/-- In a state that satisfies the tree invariant `myfs_write` does not return
`ENOSPC`. -/
theorem myfs_write_ne_enospc {s : FS} (hi : Inv s) (path buf : List Char) (offset : Nat) :
    (myfs_write s path buf offset).2 ≠ .error .ENOSPC := by
  cases hf : find_inode_by_path s path with
  | none => simp [myfs_write, hf]
  | some node =>
    obtain ⟨n, hn⟩ := resolved_live hi hf
    by_cases hft : n.file_type = 1
    · obtain ⟨content, hc, _⟩ := resolved_file_has_buffer hi hf hn hft
      rw [myfs_write_file hf hn hft hc]
      split
      · split <;> simp
      · simp
    · simp [myfs_write, hf, hn, hft]

/-- In a state that satisfies the tree invariant `myfs_read` on a path that
resolves to a file does not return `ENOENT`. -/
theorem myfs_read_file_ne_enoent {s : FS} (hi : Inv s) {path : List Char} {node : Ptr}
    {n : inode} (hf : find_inode_by_path s path = some node) (hn : deref s.heap node = some n)
    (hft : n.file_type = 1) (size offset : Nat) :
    myfs_read s path size offset ≠ .error .ENOENT := by
  by_cases hsb : path = superblock_path
  · unfold myfs_read
    rw [if_pos hsb]
    cases superblock_report s with
    | none => simp
    | some output =>
      simp only
      cases read_slice output output.length size offset <;> simp
  · obtain ⟨content, hc, _⟩ := resolved_file_has_buffer hi hf hn hft
    rw [myfs_read_file hsb hf hn hft hc]
    cases read_slice content n.file_size.toNat size offset <;> simp

/-- The parent `myfs_create` and `myfs_mkdir` look up is what the parent path
resolves to. -/
theorem parent_of_eq_find (s : FS) (path : List Char) :
    parent_of s path = find_inode_by_path s (dirname path) := by
  unfold parent_of
  split
  · rename_i h
    rw [h, find_inode_by_path_root]
  · rfl

/-- The result of `myfs_create` below a live parent, check by check. -/
theorem create_at_result {s : FS} (now : List Char) {par : Ptr} {pn : inode}
    (file_name : List Char) (init_content : Option (List Char))
    (hpn : deref s.heap par = some pn) :
    (create_at s now (some par) file_name init_content).2
      = if pn.file_type ≠ 2 then .error .ENOENT
        else if (find_entry pn.children file_name).isSome then .error .EEXIST
        else if s.sb.free_blocks > 0 then .ok ()
        else .error .ENOSPC := by
  unfold create_at
  simp only [hpn]
  by_cases h1 : pn.file_type ≠ 2
  · rw [if_pos h1, if_pos h1]
  · rw [if_neg h1, if_neg h1]
    by_cases h2 : (find_entry pn.children file_name).isSome
    · rw [if_pos h2, if_pos h2]
    · rw [if_neg h2, if_neg h2]
      by_cases h3 : s.sb.free_blocks > 0
      · rw [if_pos h3, if_pos h3]
      · rw [if_neg h3, if_neg h3]

/-- The outcome of `myfs_mkdir` below a live parent, check by check. -/
theorem mkdir_at_result {s : FS} (now : List Char) {par : Ptr} {pn : inode}
    (dir_name : List Char) (hpn : deref s.heap par = some pn) :
    mkdir_at s now (some par) dir_name
      = if pn.file_type ≠ 2 then (s, .error .ENOENT)
        else if (find_entry pn.children dir_name).isSome then (s, .error .EEXIST)
        else (mkdir_state s now par dir_name, .ok ()) := by
  unfold mkdir_at
  simp only [hpn]

theorem find_entry_isSome_iff {l : List dir_entry} {t : List Char} :
    (find_entry l t).isSome ↔ ∃ e ∈ l, e.name = t := by
  cases h : find_entry l t with
  | none =>
    rw [find_entry_eq_none] at h
    simp only [Option.isSome_none, Bool.false_eq_true, false_iff, not_exists, not_and]
    exact h
  | some x =>
    simp only [Option.isSome_some, true_iff]
    exact ⟨_, find_entry_eq_some h, rfl⟩

theorem strtokAux_eq_splitOnP : ∀ (l cur : List Char),
    strtokAux l cur
      = (List.splitOnP.go (fun c => c == '/') l cur.reverse).filter (fun t => t ≠ [])
  | [], cur => by
    by_cases hc : cur = [] <;> simp [strtokAux, List.splitOnP.go, hc]
  | c :: cs, cur => by
    have ih1 := strtokAux_eq_splitOnP cs []
    have ih2 := strtokAux_eq_splitOnP cs (cur ++ [c])
    by_cases hc : c = '/'
    · by_cases hcur : cur = [] <;> simp [strtokAux, List.splitOnP.go, hc, hcur, ih1]
    · simp [strtokAux, List.splitOnP.go, hc, ih2]

/-- The tokens `strtok` yields are the non-empty `/`-separated components. -/
theorem strtok_all_eq_components (path : List Char) : strtok_all path = components path := by
  unfold strtok_all components List.splitOn List.splitOnP
  exact strtokAux_eq_splitOnP path []

theorem foldl_find_none (h : Heap) : ∀ ts : List (List Char),
    ts.foldl (fun cur t => find_inode_in_dir h cur t) none = none
  | [] => rfl
  | _ :: ts => by
    simp only [List.foldl_cons, find_inode_in_dir]
    exact foldl_find_none h ts

theorem walk_eq_foldl (h : Heap) : ∀ (ts : List (List Char)) (cur : Option Ptr),
    walk h ts cur = ts.foldl (fun cur t => find_inode_in_dir h cur t) cur
  | [], _ => rfl
  | t :: ts, none => by
    simp only [walk, List.foldl_cons, find_inode_in_dir]
    exact (foldl_find_none h ts).symm
  | t :: ts, some c => by
    simp only [walk, List.foldl_cons]
    exact walk_eq_foldl h ts _

theorem find_inode_by_path_eq_lookup (s : FS) (path : List Char) :
    find_inode_by_path s path = lookup_components s (components path) := by
  rw [find_inode_by_path_eq_walk, strtok_all_eq_components, walk_eq_foldl]
  rfl

/-- Below a file there is nothing to look up. -/
theorem lookup_below_file {s : FS} (hi : Inv s) {ts : List (List Char)} {f : Ptr} {n : inode}
    (hw : lookup_components s ts = some f) (hn : deref s.heap f = some n)
    (hft : n.file_type = 1) (t : List Char) (rest : List (List Char)) :
    lookup_components s (ts ++ t :: rest) = none := by
  unfold lookup_components at hw ⊢
  rw [List.foldl_append, hw, List.foldl_cons]
  have hc : n.children = [] := by
    by_contra hne
    have := hi.heap.dirs f n hn hne
    rw [hft] at this
    cases this
  have h1 : find_inode_in_dir s.heap (some f) t = none := by
    simp only [find_inode_in_dir]
    rw [children_of_eq hn, hc]
    rfl
  rw [h1]
  exact foldl_find_none s.heap rest

/-! ### Paths are unique -/

theorem root_not_child {h : Heap} {root P : Ptr} {t : List Char} (hl : links_ok h)
    (hroot : root_ok h root) (hf : find_entry (children_of h P) t = some root) : False := by
  obtain ⟨pP, hP, hmem, _⟩ := entry_of_find hf
  obtain ⟨cn, hcn, hpar, _⟩ := hl P pP hP _ hmem
  obtain ⟨r, hr, hnone, _⟩ := hroot
  rw [hr] at hcn
  cases hcn
  rw [hnone] at hpar
  cases hpar

theorem child_parent_unique {h : Heap} {P1 P2 x : Ptr} {t1 t2 : List Char} (hl : links_ok h)
    (h1 : find_entry (children_of h P1) t1 = some x)
    (h2 : find_entry (children_of h P2) t2 = some x) : P1 = P2 ∧ t1 = t2 := by
  obtain ⟨p1, hP1, hm1, _⟩ := entry_of_find h1
  obtain ⟨p2, hP2, hm2, _⟩ := entry_of_find h2
  obtain ⟨c1, hc1, hpar1, hname1⟩ := hl P1 p1 hP1 _ hm1
  obtain ⟨c2, hc2, hpar2, hname2⟩ := hl P2 p2 hP2 _ hm2
  rw [hc1] at hc2
  cases hc2
  rw [hpar1] at hpar2
  cases hpar2
  exact ⟨rfl, hname1.symm.trans hname2⟩

/-- In a well-formed tree a record is reached from the root by one sequence
of components only. -/
theorem walk_inj {h : Heap} {root : Ptr} (hl : links_ok h) (hroot : root_ok h root) :
    ∀ (n : Nat) (ts1 ts2 : List (List Char)) (x : Ptr), ts1.length = n →
      walk h ts1 (some root) = some x → walk h ts2 (some root) = some x → ts1 = ts2
  | 0, ts1, ts2, x, hlen, hw1, hw2 => by
    have h1 : ts1 = [] := List.length_eq_zero.mp hlen
    subst h1
    simp only [walk, Option.some.injEq] at hw1
    subst hw1
    rcases walk_last hw2 with ⟨h2, _⟩ | ⟨us2, t2, P2, _, _, hf2⟩
    · exact h2.symm
    · exact (root_not_child hl hroot hf2).elim
  | n + 1, ts1, ts2, x, hlen, hw1, hw2 => by
    rcases walk_last hw1 with ⟨h1, _⟩ | ⟨us1, t1, P1, he1, hp1, hf1⟩
    · rw [h1] at hlen
      cases hlen
    · rcases walk_last hw2 with ⟨_, h2⟩ | ⟨us2, t2, P2, he2, hp2, hf2⟩
      · rw [h2] at hf1
        exact (root_not_child hl hroot hf1).elim
      · obtain ⟨hP, ht⟩ := child_parent_unique hl hf1 hf2
        subst hP ht
        have hlen1 : us1.length = n := by
          rw [he1] at hlen
          simpa using hlen
        rw [he1, he2, walk_inj hl hroot n us1 us2 P1 hlen1 hp1 hp2]

theorem walk_unique {h : Heap} {root : Ptr} (hl : links_ok h) (hroot : root_ok h root)
    {ts1 ts2 : List (List Char)} {x : Ptr} (hw1 : walk h ts1 (some root) = some x)
    (hw2 : walk h ts2 (some root) = some x) : ts1 = ts2 :=
  walk_inj hl hroot ts1.length ts1 ts2 x rfl hw1 hw2

/-- What a walk from the root reaches is live. -/
theorem walk_live {h : Heap} {root : Ptr} (hl : links_ok h) (hroot : root_ok h root)
    {ts : List (List Char)} {x : Ptr} (hw : walk h ts (some root) = some x) :
    ∃ n, deref h x = some n := by
  rcases walk_last hw with ⟨_, h2⟩ | ⟨us, t, P, _, _, hf⟩
  · obtain ⟨r, hr, _⟩ := hroot
    exact ⟨r, h2 ▸ hr⟩
  · obtain ⟨pP, hP, hmem, _⟩ := entry_of_find hf
    obtain ⟨cn, hcn, _⟩ := hl P pP hP _ hmem
    exact ⟨cn, hcn⟩

theorem walk_snoc (h : Heap) (us : List (List Char)) (t : List Char) (cur : Option Ptr) :
    walk h (us ++ [t]) cur = find_inode_in_dir h (walk h us cur) t := by
  rw [walk_append]
  cases walk h us cur with
  | none => rfl
  | some c => rfl

/-! ### Resolution of the other paths when a binding is added or removed -/

theorem find_inode_in_dir_none (h : Heap) (t : List Char) : find_inode_in_dir h none t = none :=
  rfl

/-- Adding the binding `name ↦ new` to the directory at the components `ts0`
changes the resolution of `ts0 ++ [name]` only. -/
theorem walk_link_frame {h h1 : Heap} {root par new : Ptr} {pn : inode} {name : List Char}
    {ts0 : List (List Char)} (hl : links_ok h) (hroot : root_ok h root)
    (hpar : deref h par = some pn) (hfresh : find_entry pn.children name = none)
    (hw0 : walk h ts0 (some root) = some par) (hnew : deref h new = none)
    (hch_par : children_of h1 par = ⟨name, new⟩ :: pn.children)
    (hch_new : children_of h1 new = [])
    (hch_other : ∀ q, q ≠ par → q ≠ new → children_of h1 q = children_of h q) :
    ∀ ts : List (List Char),
      (ts ≠ ts0 ++ [name] → walk h1 ts (some root) = walk h ts (some root))
      ∧ (ts = ts0 ++ [name] → walk h1 ts (some root) = some new) := by
  intro ts
  induction ts using List.reverseRecOn with
  | nil =>
    refine ⟨fun _ => rfl, fun h0 => ?_⟩
    exact absurd (congrArg List.length h0) (by simp)
  | append_singleton us t ih =>
    have haff : walk h (ts0 ++ [name]) (some root) = none := by
      rw [walk_snoc, hw0]
      simp only [find_inode_in_dir]
      rw [children_of_eq hpar, hfresh]
    constructor
    · intro hne
      rw [walk_snoc, walk_snoc]
      by_cases hus : us = ts0 ++ [name]
      · rw [ih.2 hus, hus, haff]
        simp only [find_inode_in_dir]
        rw [hch_new]
        rfl
      · rw [ih.1 hus]
        cases hc : walk h us (some root) with
        | none => rfl
        | some c =>
          simp only [find_inode_in_dir]
          obtain ⟨cn, hcn⟩ := walk_live hl hroot hc
          have hcnew : c ≠ new := fun he => by
            rw [he, hnew] at hcn
            cases hcn
          by_cases hcp : c = par
          · subst hcp
            have hus0 : us = ts0 := walk_unique hl hroot hc hw0
            have htn : ¬ name = t := fun he => hne (by rw [hus0, he])
            rw [hch_par, children_of_eq hpar]
            simp only [find_entry, if_neg htn]
          · rw [hch_other c hcp hcnew]
    · intro heq
      obtain ⟨h1e, h2e⟩ := List.append_inj' heq rfl
      have ht : t = name := by simpa using h2e
      have hus : us ≠ ts0 ++ [name] := fun he => by
        have := congrArg List.length he
        rw [h1e] at this
        simp at this
      rw [walk_snoc, ih.1 hus, h1e, hw0, ht]
      simp only [find_inode_in_dir]
      rw [hch_par]
      simp only [find_entry, if_true]

/-- Removing the binding `t` of a record without bindings from the directory
at the components `ts0` changes the resolution of `ts0 ++ [t]` only. -/
theorem walk_unlink_frame {h h1 : Heap} {root parent node : Ptr} {pP : inode} {t : List Char}
    {ts0 : List (List Char)} (hl : links_ok h) (hroot : root_ok h root)
    (hnd : find_entry (remove_entry pP.children t) t = none)
    (hP : deref h parent = some pP) (hfe : find_entry pP.children t = some node)
    (hn : children_of h node = [])
    (hw0 : walk h ts0 (some root) = some parent)
    (hch_par : children_of h1 parent = remove_entry pP.children t)
    (hch_other : ∀ q, q ≠ parent → q ≠ node → children_of h1 q = children_of h q) :
    ∀ ts : List (List Char),
      (ts ≠ ts0 ++ [t] → walk h1 ts (some root) = walk h ts (some root))
      ∧ (ts = ts0 ++ [t] → walk h1 ts (some root) = none) := by
  intro ts
  induction ts using List.reverseRecOn with
  | nil =>
    refine ⟨fun _ => rfl, fun h0 => ?_⟩
    exact absurd (congrArg List.length h0) (by simp)
  | append_singleton us u ih =>
    have haff : walk h (ts0 ++ [t]) (some root) = some node := by
      rw [walk_snoc, hw0]
      simp only [find_inode_in_dir]
      rw [children_of_eq hP, hfe]
    constructor
    · intro hne
      rw [walk_snoc, walk_snoc]
      by_cases hus : us = ts0 ++ [t]
      · rw [ih.2 hus, hus, haff]
        simp only [find_inode_in_dir]
        rw [hn]
        rfl
      · rw [ih.1 hus]
        cases hc : walk h us (some root) with
        | none => rfl
        | some c =>
          simp only [find_inode_in_dir]
          by_cases hcn : c = node
          · exact absurd (walk_unique hl hroot (hcn ▸ hc) haff) hus
          · by_cases hcp : c = parent
            · subst hcp
              have hus0 : us = ts0 := walk_unique hl hroot hc hw0
              have htn : u ≠ t := fun he => hne (by rw [hus0, he])
              rw [hch_par, children_of_eq hP, find_entry_remove_entry_other htn]
            · rw [hch_other c hcp hcn]
    · intro heq
      obtain ⟨h1e, h2e⟩ := List.append_inj' heq rfl
      have ht : u = t := by simpa using h2e
      have hus : us ≠ ts0 ++ [t] := fun he => by
        have := congrArg List.length he
        rw [h1e] at this
        simp at this
      rw [walk_snoc, ih.1 hus, h1e, hw0, ht]
      simp only [find_inode_in_dir]
      rw [hch_par]
      exact hnd

/-- The frame of a call, from what it does to walks and to records: every
path off the affected components resolves to the same record, with the same
kind, name, size and content, and with the same child names unless it is the
parent of the affected entity. -/
theorem frame_of_walk {s s1 : FS} (hi : Inv s) (hroot : s1.sb.root = s.sb.root)
    {aff : List (List Char)} (fP : List (List Char) → List (List Char))
    (hwalk : ∀ ts, ts ≠ aff →
      walk s1.heap ts (some s.sb.root) = walk s.heap ts (some s.sb.root))
    (hrec : ∀ x a, deref s.heap x = some a →
      (∀ ts, walk s.heap ts (some s.sb.root) = some x → ts ≠ aff) →
      ∃ b, deref s1.heap x = some b ∧ file_view b = file_view a
        ∧ child_names b
          = if walk s.heap aff.dropLast (some s.sb.root) = some x then fP (child_names a)
            else child_names a)
    (q : List Char) (hq : components q ≠ aff) :
    find_inode_by_path s1 q = find_inode_by_path s q
    ∧ (resolve s1 q).map file_view = (resolve s q).map file_view
    ∧ (resolve s1 q).map child_names
        = (resolve s q).map (fun n =>
            if components q = aff.dropLast then fP (child_names n) else child_names n) := by
  have hfind : find_inode_by_path s1 q = find_inode_by_path s q := by
    rw [find_inode_by_path_eq_walk, find_inode_by_path_eq_walk, hroot,
      strtok_all_eq_components]
    exact hwalk _ hq
  refine ⟨hfind, ?_⟩
  unfold resolve
  rw [hfind]
  cases hf : find_inode_by_path s q with
  | none => exact ⟨rfl, rfl⟩
  | some x =>
    have hw : walk s.heap (components q) (some s.sb.root) = some x := by
      rw [← strtok_all_eq_components, ← find_inode_by_path_eq_walk]
      exact hf
    obtain ⟨a, ha⟩ := walk_live hi.heap.links hi.heap.root hw
    obtain ⟨b, hb, hv, hc⟩ := hrec x a ha
      (fun ts hts => by
        rw [walk_unique hi.heap.links hi.heap.root hts hw]
        exact hq)
    simp only [ha, hb, Option.map_some', hv, hc, true_and, Option.some.injEq]
    by_cases hp : components q = aff.dropLast
    · rw [if_pos hp, if_pos (by rw [← hp]; exact hw)]
    · rw [if_neg hp, if_neg]
      intro hw2
      exact hp (walk_unique hi.heap.links hi.heap.root hw hw2)

theorem views_of_core {a b : inode} (h : core b = core a) :
    file_view b = file_view a ∧ child_names b = child_names a := by
  simp only [core, shape, Prod.mk.injEq] at h
  obtain ⟨⟨h1, h2, h3, _⟩, h5, h6⟩ := h
  simp only [file_view, child_names, h1, h2, h3, h5, h6, and_self]

theorem map_name_remove_entry (t : List Char) : ∀ l : List dir_entry,
    (remove_entry l t).map (fun e => e.name) = (l.map (fun e => e.name)).erase t
  | [] => rfl
  | e :: es => by
    simp only [remove_entry, List.map_cons, List.erase_cons]
    by_cases h : e.name = t
    · simp [h]
    · simp [h, map_name_remove_entry t es]

/-- The frame of a call that allocates the next cell, leaves it without
bindings and binds it under `name` in the directory at the components `ts0`. -/
theorem frame_link {s : FS} (s1 : FS) (hi : Inv s) (hroot : s1.sb.root = s.sb.root) {par : Ptr}
    {pn : inode} {name : List Char} {ts0 : List (List Char)}
    (hpn : deref s.heap par = some pn) (hfresh : find_entry pn.children name = none)
    (hw0 : walk s.heap ts0 (some s.sb.root) = some par)
    (hlen : s1.heap.length = s.heap.length + 1)
    (hold : ∀ x, x < s.heap.length → deref s1.heap x
      = if x = par then some { pn with children := ⟨name, s.heap.length⟩ :: pn.children }
        else deref s.heap x)
    (hnewc : children_of s1.heap s.heap.length = [])
    (q : List Char) (hq : components q ≠ ts0 ++ [name]) :
    find_inode_by_path s1 q = find_inode_by_path s q
    ∧ (resolve s1 q).map file_view = (resolve s q).map file_view
    ∧ (resolve s1 q).map child_names
        = (resolve s q).map (fun n =>
            if components q = (ts0 ++ [name]).dropLast then name :: child_names n
            else child_names n) := by
  have hparlt : par < s.heap.length := lt_length_of_deref hpn
  refine frame_of_walk hi hroot (fun names => name :: names) ?_ ?_ q hq
  · intro ts hts
    refine (walk_link_frame hi.heap.links hi.heap.root hpn hfresh hw0
      (deref_of_length_le _ _ (le_refl _)) ?_ hnewc ?_ ts).1 hts
    · exact children_of_eq (by rw [hold par hparlt, if_pos rfl])
    · intro x hxp hxn
      unfold children_of
      by_cases hx : x < s.heap.length
      · rw [hold x hx, if_neg hxp]
      · have hgt : s.heap.length < x := Nat.lt_of_le_of_ne (Nat.le_of_not_lt hx) (Ne.symm hxn)
        rw [deref_of_length_le s1.heap x (hlen ▸ hgt), deref_of_length_le s.heap x (Nat.le_of_lt hgt)]
  · intro x a ha _
    have hx : x < s.heap.length := lt_length_of_deref ha
    rw [List.dropLast_concat, hold x hx]
    by_cases hxp : x = par
    · subst hxp
      rw [hpn] at ha
      cases ha
      rw [if_pos rfl, if_pos hw0]
      exact ⟨_, rfl, rfl, rfl⟩
    · rw [if_neg hxp, if_neg]
      · exact ⟨a, ha, rfl, rfl⟩
      · intro hw
        rw [hw0] at hw
        exact hxp (Option.some.inj hw).symm

theorem frame_create_state {s : FS} (hi : Inv s) (now : List Char) {par : Ptr} {pn : inode}
    {name : List Char} (init_content : Option (List Char)) {ts0 : List (List Char)}
    (hpn : deref s.heap par = some pn) (hfresh : find_entry pn.children name = none)
    (hw0 : walk s.heap ts0 (some s.sb.root) = some par) (hshort : name.length < 255)
    (q : List Char) (hq : components q ≠ ts0 ++ [name]) :
    find_inode_by_path (create_file_state s now par name init_content) q
      = find_inode_by_path s q
    ∧ (resolve (create_file_state s now par name init_content) q).map file_view
      = (resolve s q).map file_view
    ∧ (resolve (create_file_state s now par name init_content) q).map child_names
        = (resolve s q).map (fun n =>
            if components q = (ts0 ++ [name]).dropLast then name :: child_names n
            else child_names n) := by
  have hparlt : par < s.heap.length := lt_length_of_deref hpn
  refine frame_link (create_file_state s now par name init_content) hi rfl hpn hfresh hw0
    ?_ ?_ ?_ q hq
  · simp only [create_file_state, length_modify, List.length_append, List.length_singleton]
  · intro x hx
    simp only [create_file_state]
    rw [name_field_short hshort, deref_modify]
    by_cases hxp : x = par
    · subst hxp
      rw [if_pos rfl, if_pos rfl, deref_modify, if_neg (Nat.ne_of_lt hx), deref_append,
        if_neg (Nat.ne_of_lt hx), hpn]
      rfl
    · rw [if_neg hxp, if_neg hxp, deref_modify, if_neg (Nat.ne_of_lt hx), deref_append,
        if_neg (Nat.ne_of_lt hx)]
  · obtain ⟨c, hc, hcc⟩ : ∃ c, deref (create_file_state s now par name init_content).heap
        s.heap.length = some c ∧ c.children = [] := by
      simp only [create_file_state]
      rw [deref_modify, if_neg (Nat.ne_of_gt hparlt), deref_modify_new]
      exact ⟨_, rfl, rfl⟩
    rw [children_of_eq hc, hcc]

theorem frame_mkdir_state {s : FS} (hi : Inv s) (now : List Char) {par : Ptr} {pn : inode}
    {name : List Char} {ts0 : List (List Char)}
    (hpn : deref s.heap par = some pn) (hfresh : find_entry pn.children name = none)
    (hw0 : walk s.heap ts0 (some s.sb.root) = some par) (hshort : name.length < 255)
    (q : List Char) (hq : components q ≠ ts0 ++ [name]) :
    find_inode_by_path (mkdir_state s now par name) q = find_inode_by_path s q
    ∧ (resolve (mkdir_state s now par name) q).map file_view = (resolve s q).map file_view
    ∧ (resolve (mkdir_state s now par name) q).map child_names
        = (resolve s q).map (fun n =>
            if components q = (ts0 ++ [name]).dropLast then name :: child_names n
            else child_names n) := by
  have hparlt : par < s.heap.length := lt_length_of_deref hpn
  refine frame_link (mkdir_state s now par name) hi rfl hpn hfresh hw0 ?_ ?_ ?_ q hq
  · simp only [mkdir_state, length_modify, List.length_append, List.length_singleton]
  · intro x hx
    simp only [mkdir_state]
    rw [name_field_short hshort, deref_modify]
    by_cases hxp : x = par
    · subst hxp
      rw [if_pos rfl, if_pos rfl, deref_append, if_neg (Nat.ne_of_lt hx), hpn]
      rfl
    · rw [if_neg hxp, if_neg hxp, deref_append, if_neg (Nat.ne_of_lt hx)]
  · obtain ⟨c, hc, hcc⟩ : ∃ c, deref (mkdir_state s now par name).heap
        s.heap.length = some c ∧ c.children = [] := by
      simp only [mkdir_state]
      rw [deref_modify, if_neg (Nat.ne_of_gt hparlt), deref_append_new]
      exact ⟨_, rfl, rfl⟩
    rw [children_of_eq hc, hcc]

/-- The frame of `myfs_unlink` and `myfs_rmdir`: the record a path resolves
to is unbound, released and the identifiers are shifted. -/
theorem frame_detach {s : FS} (hi : Inv s) {path : List Char} {node parent : Ptr} {n : inode}
    (hf : find_inode_by_path s path = some node) (hn : deref s.heap node = some n)
    (hp : n.parent = some parent) (hnc : n.children = []) (sb1 : superblock)
    (hsb : sb1.root = s.sb.root) (d : Int) (hshort : (basename path).length < 255)
    (q : List Char) (hq : components q ≠ components path) :
    find_inode_by_path (shift_inode_ids
        { sb := sb1, heap := detach_heap s.heap parent node (basename path) } d) q
      = find_inode_by_path s q
    ∧ (resolve (shift_inode_ids
        { sb := sb1, heap := detach_heap s.heap parent node (basename path) } d) q).map file_view
      = (resolve s q).map file_view
    ∧ (resolve (shift_inode_ids
        { sb := sb1, heap := detach_heap s.heap parent node (basename path) } d) q).map
          child_names
        = (resolve s q).map (fun m =>
            if components q = (components path).dropLast then
              (child_names m).erase (basename path)
            else child_names m) := by
  obtain ⟨ts1, pP, hts, hw1, hP, _, hfe, _, _⟩ := resolved_child hi hf hn hp
  rw [strtok_all_eq_components] at hts
  have hnd := find_entry_remove_entry_short hshort (hi.heap.names parent pP hP)
  have hpn : parent ≠ node := fun he => by
    rw [he, hn] at hP
    cases hP
    rw [hnc] at hfe
    cases hfe
  have hcore : same_on core (detach_heap s.heap parent node (basename path))
      (shift_inode_ids { sb := sb1, heap := detach_heap s.heap parent node (basename path) }
        d).heap :=
    same_on_shift { sb := sb1, heap := detach_heap s.heap parent node (basename path) } d
  have hch : ∀ x, children_of (shift_inode_ids
      { sb := sb1, heap := detach_heap s.heap parent node (basename path) } d).heap x
      = if x = node then [] else if x = parent then remove_entry pP.children (basename path)
        else children_of s.heap x := by
    intro x
    rw [children_of_same (same_on_shape_of_core hcore) x]
    exact children_of_detach (basename path) hP x
  have haff : walk s.heap (components path) (some s.sb.root) = some node := by
    rw [← strtok_all_eq_components, ← find_inode_by_path_eq_walk]
    exact hf
  rw [hts] at hq haff ⊢
  refine frame_of_walk hi hsb (fun names => names.erase (basename path)) ?_ ?_ q hq
  · intro ts hne
    refine (walk_unlink_frame hi.heap.links hi.heap.root hnd hP hfe
      (by rw [children_of_eq hn, hnc]) hw1 ?_ ?_ ts).1 hne
    · rw [hch parent, if_neg hpn, if_pos rfl]
    · intro x hxp hxn
      rw [hch x, if_neg hxn, if_neg hxp]
  · intro x a ha hx
    have hxn : x ≠ node := fun he => hx _ (he ▸ haff) rfl
    rw [List.dropLast_concat]
    have hdet : deref (detach_heap s.heap parent node (basename path)) x
        = if x = parent then
            some { pP with children := remove_entry pP.children (basename path) }
          else some a := by
      simp only [detach_heap]
      rw [deref_release, if_neg hxn, deref_modify]
      by_cases hxp : x = parent
      · rw [if_pos hxp, if_pos hxp, hP]
        rfl
      · rw [if_neg hxp, if_neg hxp, ha]
    by_cases hxp : x = parent
    · subst hxp
      rw [hP] at ha
      cases ha
      rw [if_pos rfl] at hdet
      obtain ⟨b, hb, hv⟩ := same_on_fwd hcore hdet
      obtain ⟨h1, h2⟩ := views_of_core hv
      refine ⟨b, hb, h1, ?_⟩
      rw [if_pos hw1, h2]
      exact map_name_remove_entry (basename path) _
    · rw [if_neg hxp] at hdet
      obtain ⟨b, hb, hv⟩ := same_on_fwd hcore hdet
      obtain ⟨h1, h2⟩ := views_of_core hv
      refine ⟨b, hb, h1, ?_⟩
      rw [if_neg, h2]
      intro hw
      rw [hw1] at hw
      exact hxp (Option.some.inj hw).symm

/-- The frame of `myfs_write`: only the record the path resolves to changes. -/
theorem frame_write_state {s : FS} (hi : Inv s) {path : List Char} {node : Ptr}
    (hf : find_inode_by_path s path = some node) (content buf : List Char)
    (offset size1 : Nat) (q : List Char) (hq : components q ≠ components path) :
    find_inode_by_path (write_state s node content buf offset size1) q
      = find_inode_by_path s q
    ∧ (resolve (write_state s node content buf offset size1) q).map file_view
      = (resolve s q).map file_view
    ∧ (resolve (write_state s node content buf offset size1) q).map child_names
        = (resolve s q).map (fun m =>
            if components q = (components path).dropLast then child_names m
            else child_names m) := by
  have haff : walk s.heap (components path) (some s.sb.root) = some node := by
    rw [← strtok_all_eq_components, ← find_inode_by_path_eq_walk]
    exact hf
  have hroot : (write_state s node content buf offset size1).sb.root = s.sb.root := rfl
  refine frame_of_walk hi hroot (fun names => names) ?_ ?_ q hq
  · intro ts _
    exact walk_congr (children_of_same
      (same_on_modify shape s.heap node _ (fun a => by rfl))) ts _
  · intro x a ha hx
    have hxn : x ≠ node := fun he => hx _ (he ▸ haff) rfl
    refine ⟨a, ?_, rfl, ?_⟩
    · simp only [write_state]
      rw [deref_modify, if_neg hxn, ha]
    · split <;> rfl

theorem is_ok_unit {r : Result Unit} (h : is_ok r = true) : r = .ok () := by
  cases r with
  | ok v => rfl
  | error e => cases h
  | undefined => cases h

theorem ite_same_names (c : Prop) [Decidable c] (o : Option inode) :
    o.map (fun n => if c then child_names n else child_names n) = o.map child_names := by
  congr 1
  funext n
  split <;> rfl

/-! ### Resolvability of the registered records -/

theorem builtby_reachable {ok : Op → Bool} {s : FS} (h : BuiltBy ok s) : Reachable s := by
  induction h with
  | init mount_time root_time => exact Reachable.init _ _
  | step op _ _ hs ih => exact Reachable.step op ih hs

theorem chain_path_append (ts : List (List Char)) (t : List Char) :
    chain_path (ts ++ [t]) = chain_path ts ++ '/' :: t := by
  induction ts with
  | nil => simp [chain_path]
  | cons u us ih => simp [chain_path, ih]

/-- The components of the joined path are the names, when each can be a
component. -/
theorem strtok_all_chain_path (ts : List (List Char)) (hts : ∀ t ∈ ts, component_name t) :
    strtok_all (chain_path ts) = ts := by
  induction ts using List.reverseRecOn with
  | nil => rfl
  | append_singleton us t ih =>
    have ht := hts t (by simp)
    rw [chain_path_append, strtok_all_append_component _ _ ht.1 ht.2.1,
      ih (fun u hu => hts u (by simp [hu]))]

/-- The names a walk follows are names of bindings. -/
theorem walk_component_names {h : Heap}
    (hn : ∀ q pn, deref h q = some pn → ∀ e ∈ pn.children, component_name e.name) :
    ∀ (ts : List (List Char)) (c p : Ptr), walk h ts (some c) = some p →
      ∀ t ∈ ts, component_name t
  | [], _, _, _ => fun t ht => by cases ht
  | u :: us, c, p, hw => by
    simp only [walk, find_inode_in_dir] at hw
    cases hfe : find_entry (children_of h c) u with
    | none => rw [hfe, walk_none] at hw; cases hw
    | some y =>
      rw [hfe] at hw
      obtain ⟨pP, hP, hmem, _⟩ := entry_of_find hfe
      intro t ht
      rcases List.mem_cons.mp ht with h1 | h1
      · rw [h1]
        exact hn c pP hP _ hmem
      · exact walk_component_names hn us y p hw t h1

/-- A walk from the root follows the chain of parent links. -/
theorem chain_of_walk {h : Heap} {root : Ptr} (hl : links_ok h) :
    ∀ (ts : List (List Char)) (p : Ptr), walk h ts (some root) = some p → Chain h root ts p := by
  intro ts
  induction ts using List.reverseRecOn with
  | nil =>
    intro p hw
    simp only [walk, Option.some.injEq] at hw
    rw [← hw]
    exact Chain.top
  | append_singleton us t ih =>
    intro p hw
    rw [walk_snoc] at hw
    cases hq : walk h us (some root) with
    | none => rw [hq] at hw; cases hw
    | some q =>
      rw [hq] at hw
      obtain ⟨pP, hP, hmem, _⟩ := entry_of_find hw
      obtain ⟨cn, hcn, hpar, hname⟩ := hl q pP hP _ hmem
      have := Chain.child (ih q hq) hcn hpar
      rw [hname] at this
      exact this

/-- Names shorter than 255 bytes are pairwise distinct. -/
theorem nodup_names_of_short : ∀ {l : List dir_entry},
    l.Pairwise (fun a b => a.name = b.name → 255 ≤ a.name.length) →
    (∀ e ∈ l, e.name.length < 255) → (l.map (fun e => e.name)).Nodup
  | [], _, _ => List.nodup_nil
  | a :: l, hp, hs => by
    have hp1 := List.pairwise_cons.mp hp
    simp only [List.map_cons, List.nodup_cons]
    refine ⟨?_, nodup_names_of_short hp1.2 (fun e he => hs e (List.mem_cons_of_mem _ he))⟩
    intro hmem
    obtain ⟨e, he, heq⟩ := List.mem_map.mp hmem
    have h1 := hp1.1 e he heq.symm
    have h2 := hs a (List.mem_cons_self _ _)
    omega

theorem find_entry_of_mem {l : List dir_entry} (hnd : (l.map (fun e => e.name)).Nodup)
    {e : dir_entry} (he : e ∈ l) : find_entry l e.name = some e.node := by
  induction l with
  | nil => cases he
  | cons a as ih =>
    simp only [List.map_cons, List.nodup_cons] at hnd
    simp only [find_entry]
    rcases List.mem_cons.mp he with h1 | h1
    · rw [h1, if_pos rfl]
    · have hne : ¬ a.name = e.name := fun heq =>
        hnd.1 (heq ▸ List.mem_map_of_mem (fun e => e.name) h1)
      rw [if_neg hne]
      exact ih hnd.2 h1

/-- The chain of a registered record is a walk from the root. -/
theorem walk_of_chain {s : FS} (hi : Inv s) (hr : RegInv s)
    (hshort : ∀ q pn, deref s.heap q = some pn → ∀ e ∈ pn.children, e.name.length < 255)
    {ts : List (List Char)} {p : Ptr}
    (hc : Chain s.heap s.sb.root ts p) (hp : p ∈ s.sb.inodes_table) :
    walk s.heap ts (some s.sb.root) = some p := by
  induction hc with
  | top => rfl
  | child hq hn hpar ih =>
    rename_i us q p n
    obtain ⟨hqreg, pn, hpn, _, e, he, hen⟩ := hr.reg.parent_mem p hp n hn q hpar
    obtain ⟨cn, hcn, _, hname⟩ := hi.heap.links q pn hpn e he
    rw [hen, hn] at hcn
    cases hcn
    rw [walk_snoc, ih hqreg]
    simp only [find_inode_in_dir]
    rw [children_of_eq hpn, hname,
      find_entry_of_mem (nodup_names_of_short (hi.heap.names q pn hpn) (hshort q pn hpn)) he, hen]

theorem pathinv_main (mount_time root_time : List Char) :
    PathInv (main mount_time root_time) := by
  have hheap : (main mount_time root_time).heap
      = [some (new_inode
          { sb := { total_inodes := 0, total_blocks := 1024, free_blocks := 1024,
                    free_inodes := 100, block_size := 4096, inodes_table := [],
                    time_mount := mount_time, root := 0, next_inode_id := 0 }, heap := [] }
          root_time 2 ("rwxr-xr-x").toList ("/").toList none none)] := rfl
  have hreg : (main mount_time root_time).sb.inodes_table = [0] := rfl
  have hroot : (main mount_time root_time).sb.root = 0 := rfl
  constructor
  · intro q pn hq e he
    rw [hheap] at hq
    cases q with
    | zero =>
      simp only [deref, Option.some.injEq] at hq
      subst hq
      cases he
    | succ q => simp [deref] at hq
  · intro p hp
    rw [hreg, List.mem_singleton] at hp
    subst hp
    exact ⟨[], by rw [hroot]; rfl⟩

/-- The path invariant after a call that allocates the next cell, leaves it
without bindings, binds it under a component name and registers it. -/
theorem pathinv_link {s : FS} (s1 : FS) (hi : Inv s) (hp : PathInv s)
    (hroot : s1.sb.root = s.sb.root) {par : Ptr} {pn : inode} {name : List Char}
    {ts0 : List (List Char)}
    (hpn : deref s.heap par = some pn) (hfresh : find_entry pn.children name = none)
    (hw0 : walk s.heap ts0 (some s.sb.root) = some par)
    (hlen : s1.heap.length = s.heap.length + 1)
    (hold : ∀ x, x < s.heap.length → deref s1.heap x
      = if x = par then some { pn with children := ⟨name, s.heap.length⟩ :: pn.children }
        else deref s.heap x)
    (hnewc : children_of s1.heap s.heap.length = [])
    (hname : component_name name)
    (hreg : s1.sb.inodes_table = s.heap.length :: s.sb.inodes_table) : PathInv s1 := by
  have hparlt : par < s.heap.length := lt_length_of_deref hpn
  have hframe : ∀ ts : List (List Char),
      (ts ≠ ts0 ++ [name] → walk s1.heap ts (some s.sb.root) = walk s.heap ts (some s.sb.root))
      ∧ (ts = ts0 ++ [name] → walk s1.heap ts (some s.sb.root) = some s.heap.length) :=
    walk_link_frame hi.heap.links hi.heap.root hpn hfresh hw0
    (deref_of_length_le _ _ (le_refl _))
    (children_of_eq (by rw [hold par hparlt, if_pos rfl])) hnewc
    (by
      intro x hxp hxn
      unfold children_of
      by_cases hx : x < s.heap.length
      · rw [hold x hx, if_neg hxp]
      · have hgt : s.heap.length < x :=
          Nat.lt_of_le_of_ne (Nat.le_of_not_lt hx) (Ne.symm hxn)
        rw [deref_of_length_le s1.heap x (hlen ▸ hgt),
          deref_of_length_le s.heap x (Nat.le_of_lt hgt)])
  constructor
  · intro q qn hq e he
    have hqlt : q < s1.heap.length := lt_length_of_deref hq
    by_cases hx : q < s.heap.length
    · rw [hold q hx] at hq
      by_cases hqp : q = par
      · rw [if_pos hqp] at hq
        cases hq
        rcases List.mem_cons.mp he with h1 | h1
        · rw [h1]
          exact hname
        · exact hp.names par pn hpn e h1
      · rw [if_neg hqp] at hq
        exact hp.names q qn hq e he
    · have hql : q = s.heap.length := by
        rw [hlen] at hqlt
        exact Nat.le_antisymm (Nat.le_of_lt_succ hqlt) (Nat.le_of_not_lt hx)
      rw [hql] at hq
      rw [children_of_eq hq] at hnewc
      rw [hnewc] at he
      cases he
  · intro p hpreg
    rw [hreg] at hpreg
    rw [hroot]
    rcases List.mem_cons.mp hpreg with h1 | h1
    · exact ⟨ts0 ++ [name], h1 ▸ (hframe (ts0 ++ [name])).2 rfl⟩
    · obtain ⟨ts, hts⟩ := hp.reach p h1
      refine ⟨ts, ?_⟩
      rw [(hframe ts).1 ?_]
      · exact hts
      · intro he
        rw [he, walk_snoc, hw0] at hts
        simp only [find_inode_in_dir] at hts
        rw [children_of_eq hpn, hfresh] at hts
        cases hts

/-- The heap of a successful `myfs_create`, cell by cell. -/
theorem create_file_state_cells {s : FS} (now : List Char) {par : Ptr} {pn : inode}
    (name : List Char) (init_content : Option (List Char))
    (hpn : deref s.heap par = some pn) (hshort : name.length < 255) :
    (create_file_state s now par name init_content).heap.length = s.heap.length + 1
    ∧ (∀ x, x < s.heap.length →
        deref (create_file_state s now par name init_content).heap x
          = if x = par then
              some { pn with children := ⟨name, s.heap.length⟩ :: pn.children }
            else deref s.heap x)
    ∧ children_of (create_file_state s now par name init_content).heap s.heap.length = [] := by
  have hparlt : par < s.heap.length := lt_length_of_deref hpn
  refine ⟨?_, ?_, ?_⟩
  · simp only [create_file_state, length_modify, List.length_append, List.length_singleton]
  · intro x hx
    simp only [create_file_state]
    rw [name_field_short hshort, deref_modify]
    by_cases hxp : x = par
    · subst hxp
      rw [if_pos rfl, if_pos rfl, deref_modify, if_neg (Nat.ne_of_lt hx), deref_append,
        if_neg (Nat.ne_of_lt hx), hpn]
      rfl
    · rw [if_neg hxp, if_neg hxp, deref_modify, if_neg (Nat.ne_of_lt hx), deref_append,
        if_neg (Nat.ne_of_lt hx)]
  · obtain ⟨c, hc, hcc⟩ : ∃ c, deref (create_file_state s now par name init_content).heap
        s.heap.length = some c ∧ c.children = [] := by
      simp only [create_file_state]
      rw [deref_modify, if_neg (Nat.ne_of_gt hparlt), deref_modify_new]
      exact ⟨_, rfl, rfl⟩
    rw [children_of_eq hc, hcc]

/-- The heap of a successful `myfs_mkdir`, cell by cell. -/
theorem mkdir_state_cells {s : FS} (now : List Char) {par : Ptr} {pn : inode}
    (name : List Char) (hpn : deref s.heap par = some pn) (hshort : name.length < 255) :
    (mkdir_state s now par name).heap.length = s.heap.length + 1
    ∧ (∀ x, x < s.heap.length →
        deref (mkdir_state s now par name).heap x
          = if x = par then
              some { pn with children := ⟨name, s.heap.length⟩ :: pn.children }
            else deref s.heap x)
    ∧ children_of (mkdir_state s now par name).heap s.heap.length = [] := by
  have hparlt : par < s.heap.length := lt_length_of_deref hpn
  refine ⟨?_, ?_, ?_⟩
  · simp only [mkdir_state, length_modify, List.length_append, List.length_singleton]
  · intro x hx
    simp only [mkdir_state]
    rw [name_field_short hshort, deref_modify]
    by_cases hxp : x = par
    · subst hxp
      rw [if_pos rfl, if_pos rfl, deref_append, if_neg (Nat.ne_of_lt hx), hpn]
      rfl
    · rw [if_neg hxp, if_neg hxp, deref_append, if_neg (Nat.ne_of_lt hx)]
  · obtain ⟨c, hc, hcc⟩ : ∃ c, deref (mkdir_state s now par name).heap
        s.heap.length = some c ∧ c.children = [] := by
      simp only [mkdir_state]
      rw [deref_modify, if_neg (Nat.ne_of_gt hparlt), deref_append_new]
      exact ⟨_, rfl, rfl⟩
    rw [children_of_eq hc, hcc]

/-- Allocating a record without bindings that nothing refers to keeps the
path invariant. -/
theorem pathinv_leak {s : FS} (hp : PathInv s) (sb1 : superblock) (c : inode)
    (hc : c.children = []) (hroot : sb1.root = s.sb.root)
    (hreg : sb1.inodes_table = s.sb.inodes_table) :
    PathInv { sb := sb1, heap := s.heap ++ [some c] } := by
  constructor
  · intro q qn hq e he
    simp only at hq
    rw [deref_append] at hq
    by_cases hql : q = s.heap.length
    · rw [if_pos hql] at hq
      cases hq
      rw [hc] at he
      cases he
    · rw [if_neg hql] at hq
      exact hp.names q qn hq e he
  · intro p hpreg
    simp only [hreg, hroot] at hpreg ⊢
    obtain ⟨ts, hts⟩ := hp.reach p hpreg
    refine ⟨ts, walk_mono ?_ ts _ p hts⟩
    intro q name x hf
    obtain ⟨a, ha⟩ := live_of_find_entry hf
    have h1 : children_of (s.heap ++ [some c]) q = children_of s.heap q := by
      unfold children_of
      rw [deref_append_old ha, ha]
    rw [h1]
    exact hf

theorem pathinv_create_at {s : FS} (hi : Inv s) (hp : PathInv s) (now : List Char)
    {parent : Option Ptr} {file_name : List Char} (init_content : Option (List Char))
    {ts0 : List (List Char)} (hw0 : walk s.heap ts0 (some s.sb.root) = parent)
    (hname : component_name file_name) :
    PathInv (create_at s now parent file_name init_content).1 := by
  unfold create_at
  cases parent with
  | none => exact hp
  | some par =>
    simp only
    cases hpn : deref s.heap par with
    | none => exact hp
    | some pn =>
      simp only
      by_cases h1 : pn.file_type ≠ 2
      · rw [if_pos h1]; exact hp
      · rw [if_neg h1]
        by_cases h2 : (find_entry pn.children file_name).isSome
        · rw [if_pos h2]; exact hp
        · rw [if_neg h2]
          have hfresh : find_entry pn.children file_name = none := by
            cases hfe : find_entry pn.children file_name with
            | none => rfl
            | some x => rw [hfe] at h2; simp at h2
          by_cases h3 : s.sb.free_blocks > 0
          · rw [if_pos h3]
            obtain ⟨hlen, hold, hnewc⟩ :=
              create_file_state_cells now file_name init_content hpn hname.2.2
            exact pathinv_link (create_file_state s now par file_name init_content) hi hp rfl
              hpn hfresh hw0 hlen hold hnewc hname rfl
          · rw [if_neg h3]
            exact pathinv_leak hp _ _ rfl rfl rfl

theorem pathinv_mkdir_at {s : FS} (hi : Inv s) (hp : PathInv s) (now : List Char)
    {parent : Option Ptr} {dir_name : List Char}
    {ts0 : List (List Char)} (hw0 : walk s.heap ts0 (some s.sb.root) = parent)
    (hname : component_name dir_name) :
    PathInv (mkdir_at s now parent dir_name).1 := by
  unfold mkdir_at
  cases parent with
  | none => exact hp
  | some par =>
    simp only
    cases hpn : deref s.heap par with
    | none => exact hp
    | some pn =>
      simp only
      by_cases h1 : pn.file_type ≠ 2
      · rw [if_pos h1]; exact hp
      · rw [if_neg h1]
        by_cases h2 : (find_entry pn.children dir_name).isSome
        · rw [if_pos h2]; exact hp
        · rw [if_neg h2]
          have hfresh : find_entry pn.children dir_name = none := by
            cases hfe : find_entry pn.children dir_name with
            | none => rfl
            | some x => rw [hfe] at h2; simp at h2
          obtain ⟨hlen, hold, hnewc⟩ := mkdir_state_cells now dir_name hpn hname.2.2
          exact pathinv_link (mkdir_state s now par dir_name) hi hp rfl
            hpn hfresh hw0 hlen hold hnewc hname rfl

/-- Every state built by well-named `create` and `mkdir` calls satisfies the
path invariant. -/
theorem builtby_pathinv {s : FS} (h : BuiltBy well_named s) : PathInv s := by
  induction h with
  | init mount_time root_time => exact pathinv_main _ _
  | step op hb hok hs ih =>
    have hi := reachable_inv (builtby_reachable hb)
    cases op with
    | create now path =>
      simp only [well_named, decide_eq_true_eq] at hok
      simp only [step] at hs
      split at hs
      · cases hs
      · cases hs
        rw [myfs_create_eq]
        exact pathinv_create_at hi ih now _ (parent_of_eq_walk _ path).symm hok
    | mkdir now path =>
      simp only [well_named, decide_eq_true_eq] at hok
      simp only [step] at hs
      split at hs
      · cases hs
      · cases hs
        rw [myfs_mkdir_eq]
        exact pathinv_mkdir_at hi ih now (parent_of_eq_walk _ path).symm hok
    | _ => cases hok

theorem builtby_create {ok : Op → Bool} {s : FS} (now path : List Char) (h : BuiltBy ok s)
    (hok : ok (.create now path) = true) (hd : (myfs_create s now path).2 ≠ .undefined) :
    BuiltBy ok (myfs_create s now path).1 :=
  BuiltBy.step (.create now path) h hok (by simp only [step, if_neg hd])

theorem builtby_mkdir {ok : Op → Bool} {s : FS} (now path : List Char) (h : BuiltBy ok s)
    (hok : ok (.mkdir now path) = true) (hd : (myfs_mkdir s now path).2 ≠ .undefined) :
    BuiltBy ok (myfs_mkdir s now path).1 :=
  BuiltBy.step (.mkdir now path) h hok (by simp only [step, if_neg hd])

theorem builtby_fs_d : BuiltBy well_named fs_d :=
  builtby_create [] _ (builtby_mkdir [] _ (BuiltBy.init [] []) (by decide!) (by decide!))
    (by decide!) (by decide!)

theorem deref_mem : ∀ {h : Heap} {p : Ptr} {n : inode}, deref h p = some n → some n ∈ h
  | [], _, _, hd => by cases hd
  | c :: h, 0, n, hd => by
    simp only [deref] at hd
    rw [hd]
    exact List.mem_cons_self _ _
  | c :: h, p + 1, n, hd => by
    simp only [deref] at hd
    exact List.mem_cons_of_mem _ (deref_mem hd)

theorem components_ne_nil {path : List Char} {t : List Char} (ht : t ∈ components path) :
    t ≠ [] := by
  unfold components at ht
  simpa using (List.mem_filter.mp ht).2

/-! ### The report when nothing is cut off -/

theorem tree_line_pos (depth : Nat) (n : inode) : 0 < (tree_line depth n).length := by
  simp [tree_line, tree_branch]

theorem inode_line_pos (n : inode) : 0 < (inode_line n).length := by
  simp [inode_line]

theorem tree_lines_cons (x : Nat × inode) (es : List (Nat × inode)) :
    tree_lines (x :: es) = tree_line x.1 x.2 ++ tree_lines es := by
  simp [tree_lines]

theorem tree_lines_append (l1 l2 : List (Nat × inode)) :
    tree_lines (l1 ++ l2) = tree_lines l1 ++ tree_lines l2 := by
  simp [tree_lines]

theorem append_subtree_none (f : Ptr → Option (List (Nat × inode))) :
    ∀ cs : List dir_entry, cs.foldl (append_subtree f) none = none
  | [] => rfl
  | _ :: cs => by
    simp only [List.foldl_cons, append_subtree]
    exact append_subtree_none f cs

theorem append_subtree_front (f : Ptr → Option (List (Nat × inode))) :
    ∀ (cs : List dir_entry) (l0 : List (Nat × inode)),
      cs.foldl (append_subtree f) (some l0)
        = (cs.foldl (append_subtree f) (some [])).map (fun r => l0 ++ r)
  | [], l0 => by simp
  | c :: cs, l0 => by
    simp only [List.foldl_cons, append_subtree]
    cases hf : f c.node with
    | none =>
      simp only [append_subtree_none]
      rfl
    | some l1 =>
      simp only [List.nil_append]
      rw [append_subtree_front f cs (l0 ++ l1), append_subtree_front f cs l1,
        Option.map_map]
      congr 1
      funext r
      simp

/-- The loop over the children in `build_tree_string`, when the recursive
calls copy their lines whole. -/
theorem build_children_full {h : Heap} {max_size fuel depth : Nat}
    (ih : ∀ (node : Ptr) (es : List (Nat × inode)) (acc : List Char × Nat),
      tree_entities h fuel node (depth + 1) = some es →
      (∀ x ∈ es, (tree_line x.1 x.2).length ≤ 255) →
      acc.2 = acc.1.length →
      acc.1.length + (tree_lines es).length + 200 ≤ max_size →
      build_tree_string h max_size fuel node acc (depth + 1)
        = some (acc.1 ++ tree_lines es, acc.2 + (tree_lines es).length)) :
    ∀ (cs : List dir_entry) (rest : List (Nat × inode)) (acc : List Char × Nat),
      cs.foldl (append_subtree (fun p => tree_entities h fuel p (depth + 1))) (some [])
        = some rest →
      (∀ x ∈ rest, (tree_line x.1 x.2).length ≤ 255) →
      acc.2 = acc.1.length →
      acc.1.length + (tree_lines rest).length + 200 ≤ max_size →
      cs.foldl
          (fun r child =>
            match r with
            | none => none
            | some a => build_tree_string h max_size fuel child.node a (depth + 1))
          (some acc)
        = some (acc.1 ++ tree_lines rest, acc.2 + (tree_lines rest).length)
  | [], rest, acc, hes, _, _, _ => by
    simp only [List.foldl_nil, Option.some.injEq] at hes
    subst hes
    simp [tree_lines]
  | c :: cs, rest, acc, hes, hl, hacc, hfit => by
    simp only [List.foldl_cons, append_subtree] at hes
    cases hc : tree_entities h fuel c.node (depth + 1) with
    | none =>
      rw [hc] at hes
      simp only [append_subtree_none] at hes
      cases hes
    | some l1 =>
      rw [hc] at hes
      simp only [List.nil_append] at hes
      rw [append_subtree_front] at hes
      cases hr : cs.foldl (append_subtree (fun p => tree_entities h fuel p (depth + 1)))
          (some []) with
      | none => rw [hr] at hes; cases hes
      | some rest2 =>
        rw [hr] at hes
        simp only [Option.map_some', Option.some.injEq] at hes
        subst hes
        rw [tree_lines_append, List.length_append] at hfit
        simp only [List.foldl_cons]
        rw [ih c.node l1 acc hc (fun x hx => hl x (List.mem_append_left _ hx)) hacc
          (by omega)]
        rw [build_children_full ih cs rest2 _ hr
          (fun x hx => hl x (List.mem_append_right _ hx))
          (by simp only [hacc, List.length_append]) (by simp only [List.length_append]; omega)]
        simp only [tree_lines_append, List.length_append, List.append_assoc, Nat.add_assoc]

/-- When the tree has at most `fuel` levels, every line fits `node_info` and
the buffer has room for all lines and 200 bytes more, `build_tree_string`
appends exactly one line per record, in depth-first pre-order. -/
theorem build_tree_string_full {h : Heap} (hd : dirs_ok h) (max_size : Nat) :
    ∀ (fuel : Nat) (depth : Nat) (node : Ptr) (es : List (Nat × inode))
      (acc : List Char × Nat),
      tree_entities h fuel node depth = some es →
      (∀ x ∈ es, (tree_line x.1 x.2).length ≤ 255) →
      acc.2 = acc.1.length →
      acc.1.length + (tree_lines es).length + 200 ≤ max_size →
      build_tree_string h max_size fuel node acc depth
        = some (acc.1 ++ tree_lines es, acc.2 + (tree_lines es).length)
  | 0, _, _, _, _, hes, _, _, _ => by
    simp only [tree_entities] at hes
    cases hes
  | fuel + 1, depth, node, es, acc, hes, hl, hacc, hfit => by
    simp only [tree_entities] at hes
    cases hn : deref h node with
    | none => rw [hn] at hes; cases hes
    | some n =>
      rw [hn] at hes
      simp only at hes
      rw [append_subtree_front] at hes
      cases hr : n.children.foldl
          (append_subtree (fun p => tree_entities h fuel p (depth + 1))) (some []) with
      | none => rw [hr] at hes; cases hes
      | some rest =>
        rw [hr] at hes
        simp only [Option.map_some', Option.some.injEq, List.singleton_append] at hes
        subst hes
        have hline := hl (depth, n) (List.mem_cons_self _ _)
        have hpos := tree_line_pos depth n
        simp only at hline
        rw [tree_lines_cons, List.length_append] at hfit
        simp only at hfit
        have htake : (tree_line depth n).take 255 = tree_line depth n :=
          List.take_of_length_le hline
        have h1 : ¬ (acc.2 + 200 ≥ max_size) := by omega
        have h2 : acc.2 + (tree_line depth n).length < max_size := by omega
        simp only [build_tree_string, hn, htake, if_neg h1, if_pos h2, if_pos hacc]
        by_cases hft : n.file_type = 2
        · rw [if_pos hft]
          rw [build_children_full
            (fun node es acc => build_tree_string_full hd max_size fuel (depth + 1) node es acc)
            n.children rest _ hr (fun x hx => hl x (List.mem_cons_of_mem _ hx))
            (by simp only [hacc, List.length_append])
            (by simp only [List.length_append]; omega)]
          simp only [tree_lines_cons, List.length_append, List.append_assoc, Nat.add_assoc]
        · rw [if_neg hft]
          have hc : n.children = [] := by
            by_contra hne
            exact hft (hd node n hn hne)
          rw [hc] at hr
          simp only [List.foldl_nil, Option.some.injEq] at hr
          subst hr
          simp [tree_lines]

theorem registry_lines_cons (n : inode) (rs : List inode) :
    registry_lines (n :: rs) = inode_line n ++ registry_lines rs := by
  simp [registry_lines]

/-- When every registered record is live, every line fits `info` and the
buffer has room for all lines and 200 bytes more, the registry loop of
`myfs_read` appends exactly one line per registered record, in registry
order. -/
theorem list_inodes_full {h : Heap} (max_size : Nat) :
    ∀ (ps : List Ptr) (acc : List Char × Nat),
      (∀ p ∈ ps, ∃ n, deref h p = some n) →
      (∀ n ∈ ps.filterMap (deref h), (inode_line n).length ≤ 511) →
      acc.2 = acc.1.length →
      acc.1.length + (registry_lines (ps.filterMap (deref h))).length + 200 ≤ max_size →
      list_inodes h max_size ps acc
        = some (acc.1 ++ registry_lines (ps.filterMap (deref h)),
            acc.2 + (registry_lines (ps.filterMap (deref h))).length)
  | [], acc, _, _, _, _ => by
    simp [list_inodes, registry_lines]
  | p :: ps, acc, hlive, hl, hacc, hfit => by
    obtain ⟨n, hn⟩ := hlive p (List.mem_cons_self _ _)
    have hfm : (p :: ps).filterMap (deref h) = n :: ps.filterMap (deref h) := by
      simp [List.filterMap_cons, hn]
    rw [hfm] at hl hfit ⊢
    rw [registry_lines_cons, List.length_append] at hfit
    have hline := hl n (List.mem_cons_self _ _)
    have hpos := inode_line_pos n
    have htake : (inode_line n).take 511 = inode_line n := List.take_of_length_le hline
    have h1 : acc.2 + 200 < max_size := by omega
    have h2 : acc.2 + (inode_line n).length < max_size := by omega
    simp only [list_inodes, hn, htake, if_pos h1, if_pos h2, if_pos hacc]
    rw [list_inodes_full max_size ps _ (fun q hq => hlive q (List.mem_cons_of_mem _ hq))
      (fun m hm => hl m (List.mem_cons_of_mem _ hm))
      (by simp only [hacc, List.length_append])
      (by simp only [List.length_append]; omega)]
    simp only [registry_lines_cons, List.length_append, List.append_assoc, Nat.add_assoc]

/-- The report is the full report when the tree has at most 22 levels, no
line is cut and the full report leaves 200 bytes of the buffer free. -/
theorem superblock_report_full {s : FS} (hi : Inv s) (hg : RegInv s)
    {es : List (Nat × inode)} (hes : tree_entities s.heap 22 s.sb.root 0 = some es)
    (hl : ∀ x ∈ es, (tree_line x.1 x.2).length ≤ 255)
    (hrl : ∀ n ∈ registered_records s, (inode_line n).length ≤ 511)
    (hfit : (full_report s es).length + 200 ≤ 16384) :
    superblock_report s = some (full_report s es) := by
  have htitle : (("File system tree:\n").toList).length = 18 := by decide
  have hlen : (full_report s es).length
      = (report_header s.sb).length + 18 + (tree_lines es).length
        + (registry_lines (registered_records s)).length := by
    simp only [full_report, List.length_append, htitle]
  rw [hlen] at hfit
  have htake : (("File system tree:\n").toList).take (16384 - (report_header s.sb).length - 1)
      = ("File system tree:\n").toList :=
    List.take_of_length_le (by rw [htitle]; omega)
  have hhead : ¬ (report_header s.sb).length ≥ 16384 := by omega
  have htree := build_tree_string_full hi.heap.dirs 16384 22 0 s.sb.root es
    (report_header s.sb ++ ("File system tree:\n").toList,
      (report_header s.sb).length + (("File system tree:\n").toList).length) hes hl
    (by simp only [List.length_append])
    (by simp only [List.length_append, htitle]; omega)
  have hlist := list_inodes_full (h := s.heap) 16384 s.sb.inodes_table
    (report_header s.sb ++ ("File system tree:\n").toList ++ tree_lines es,
      (report_header s.sb).length + (("File system tree:\n").toList).length
        + (tree_lines es).length) hg.reg.live hrl
    (by simp only [List.length_append])
    (by simp only [List.length_append, htitle]; unfold registered_records at hfit; omega)
  unfold superblock_report
  dsimp only
  rw [if_neg hhead, htake, htree]
  dsimp only
  rw [hlist]
  dsimp only [full_report, registered_records]

/-! ### The report never outgrows its buffer -/

theorem build_children_bound {h : Heap} {max_size fuel depth : Nat}
    (ih : ∀ (node : Ptr) (acc r : List Char × Nat), acc.1.length < max_size →
      build_tree_string h max_size fuel node acc (depth + 1) = some r →
      r.1.length < max_size) :
    ∀ (cs : List dir_entry) (acc r : List Char × Nat), acc.1.length < max_size →
      cs.foldl
          (fun r child =>
            match r with
            | none => none
            | some a => build_tree_string h max_size fuel child.node a (depth + 1))
          (some acc) = some r →
      r.1.length < max_size
  | [], acc, r, hacc, hr => by
    simp only [List.foldl_nil, Option.some.injEq] at hr
    rw [← hr]
    exact hacc
  | c :: cs, acc, r, hacc, hr => by
    simp only [List.foldl_cons] at hr
    cases hc : build_tree_string h max_size fuel c.node acc (depth + 1) with
    | none =>
      rw [hc] at hr
      have hnone : ∀ l : List dir_entry, l.foldl
          (fun r child =>
            match r with
            | none => none
            | some a => build_tree_string h max_size fuel child.node a (depth + 1))
          none = none := by
        intro l
        induction l with
        | nil => rfl
        | cons _ _ ihl => simpa only [List.foldl_cons] using ihl
      rw [hnone] at hr
      cases hr
    | some a =>
      rw [hc] at hr
      exact build_children_bound ih cs a r (ih c.node acc a hacc hc) hr

/-- The text `build_tree_string` leaves is shorter than the buffer. -/
theorem build_tree_string_bound {h : Heap} {max_size : Nat} :
    ∀ (fuel depth : Nat) (node : Ptr) (acc r : List Char × Nat), acc.1.length < max_size →
      build_tree_string h max_size fuel node acc depth = some r → r.1.length < max_size
  | 0, _, _, acc, r, hacc, hr => by
    simp only [build_tree_string] at hr
    split at hr
    · cases hr
      exact hacc
    · cases hr
  | fuel + 1, depth, node, acc, r, hacc, hr => by
    simp only [build_tree_string] at hr
    split at hr
    · cases hr
      exact hacc
    · cases hn : deref h node with
      | none => rw [hn] at hr; cases hr
      | some n =>
        rw [hn] at hr
        simp only at hr
        have hacc1 : (if acc.2 + ((tree_line depth n).take 255).length < max_size then
              (if acc.2 = acc.1.length then acc.1 ++ (tree_line depth n).take 255 else acc.1,
                acc.2 + ((tree_line depth n).take 255).length)
            else acc).1.length < max_size := by
          split
          · split
            · rename_i h1 h2
              simp only [List.length_append]
              omega
            · exact hacc
          · exact hacc
        split at hr
        · exact build_children_bound
            (fun node acc r => build_tree_string_bound fuel (depth + 1) node acc r)
            n.children _ r hacc1 hr
        · cases hr
          exact hacc1

/-- The text the registry loop leaves is shorter than the buffer. -/
theorem list_inodes_bound {h : Heap} {max_size : Nat} :
    ∀ (ps : List Ptr) (acc r : List Char × Nat), acc.1.length < max_size →
      list_inodes h max_size ps acc = some r → r.1.length < max_size
  | [], acc, r, hacc, hr => by
    simp only [list_inodes, Option.some.injEq] at hr
    rw [← hr]
    exact hacc
  | p :: ps, acc, r, hacc, hr => by
    simp only [list_inodes] at hr
    split at hr
    · cases hn : deref h p with
      | none => rw [hn] at hr; cases hr
      | some n =>
        rw [hn] at hr
        simp only at hr
        split at hr
        · rename_i h1 h2
          refine list_inodes_bound ps _ r ?_ hr
          split
          · rename_i h3
            simp only [List.length_append, List.length_take]
            omega
          · exact hacc
        · cases hr
          exact hacc
    · cases hr
      exact hacc

/-- The report is shorter than its buffer of 16384 bytes. -/
theorem superblock_report_bound {s : FS} {b : List Char} (hb : superblock_report s = some b) :
    b.length < 16384 := by
  unfold superblock_report at hb
  dsimp only at hb
  by_cases hh : (report_header s.sb).length ≥ 16384
  · rw [if_pos hh] at hb
    cases hb
  · rw [if_neg hh] at hb
    have h0 : (report_header s.sb
        ++ (("File system tree:\n").toList).take (16384 - (report_header s.sb).length - 1)).length
        < 16384 := by
      simp only [List.length_append, List.length_take]
      omega
    cases h1 : build_tree_string s.heap 16384 22 s.sb.root
        (report_header s.sb
          ++ (("File system tree:\n").toList).take (16384 - (report_header s.sb).length - 1),
         (report_header s.sb).length + (("File system tree:\n").toList).length) 0 with
    | none =>
      rw [h1] at hb
      cases hb
    | some acc1 =>
      rw [h1] at hb
      dsimp only at hb
      have hb1 := build_tree_string_bound 22 0 s.sb.root _ acc1 h0 h1
      cases h2 : list_inodes s.heap 16384 s.sb.inodes_table acc1 with
      | none =>
        rw [h2] at hb
        cases hb
      | some acc2 =>
        rw [h2] at hb
        simp only [Option.some.injEq] at hb
        rw [← hb]
        exact list_inodes_bound s.sb.inodes_table acc1 acc2 hb1 h2

theorem read_slice_length_le {text : List Char} {len size offset : Nat} {bytes : List Char}
    (h : read_slice text len size offset = some bytes) : bytes.length ≤ text.length := by
  unfold read_slice at h
  by_cases h1 : offset < len
  · rw [if_pos h1] at h
    dsimp only at h
    by_cases h2 : offset + (if (offset + size) % 2 ^ 64 > len then len - offset else size)
        ≤ text.length
    · rw [if_pos h2] at h
      simp only [Option.some.injEq] at h
      rw [← h]
      simp only [List.length_take, List.length_drop]
      omega
    · rw [if_neg h2] at h
      cases h
  · rw [if_neg h1] at h
    simp only [Option.some.injEq] at h
    rw [← h]
    exact Nat.zero_le _

/-- Whatever `read` returns for the diagnostic path is shorter than 16384
bytes. -/
theorem myfs_read_superblock_bound {s : FS} {size offset : Nat} {body : List Char}
    (h : myfs_read s superblock_path size offset = .ok body) : body.length < 16384 := by
  unfold myfs_read at h
  rw [if_pos rfl] at h
  cases hb : superblock_report s with
  | none => rw [hb] at h; cases h
  | some output =>
    rw [hb] at h
    simp only at h
    cases hs : read_slice output output.length size offset with
    | none => rw [hs] at h; cases h
    | some bytes =>
      rw [hs] at h
      simp only [Result.ok.injEq] at h
      rw [← h]
      have := read_slice_length_le hs
      have := superblock_report_bound hb
      omega

/-- Any number of files up to 1024 can be registered: there is a reachable
state with `k` files created in the root and as many blocks in use. -/
theorem reachable_many_files : ∀ k : Nat, k ≤ 1024 →
    ∃ s, Reachable s ∧ s.sb.free_blocks = 1024 - (k : Int)
      ∧ s.sb.inodes_table.length = k + 1
  | 0, _ => ⟨fs0, reachable_fs0, by decide!, by decide!⟩
  | k + 1, hk => by
    obtain ⟨s, hr, hb, hlen⟩ := reachable_many_files k (by omega)
    obtain ⟨w, r, hne, hs, he, hroot, hd, hf⟩ := fresh_root_name (reachable_inv hr)
    have hc := myfs_create_root_component s [] w hne hs he
    rw [create_at_success [] w none hroot hd hf (by omega)] at hc
    refine ⟨(myfs_create s [] ('/' :: w)).1, reachable_create [] _ hr ?_, ?_, ?_⟩
    · rw [hc]
      simp
    · rw [hc]
      simp only [create_file_state]
      omega
    · rw [hc]
      simp only [create_file_state, List.length_cons, hlen]

theorem inode_line_length_ge (n : inode) : 17 ≤ (inode_line n).length := by
  simp only [inode_line, List.length_append]
  have h1 : (("Inode ").toList).length = 6 := by decide
  have h2 : ((", type=").toList).length = 7 := by decide
  have h3 : ((", size=").toList).length = 7 := by decide
  omega

theorem registry_lines_length_ge : ∀ rs : List inode,
    17 * rs.length ≤ (registry_lines rs).length
  | [] => by simp [registry_lines]
  | n :: rs => by
    have h1 := inode_line_length_ge n
    have h2 := registry_lines_length_ge rs
    rw [registry_lines_cons, List.length_append, List.length_cons]
    omega

theorem registered_records_length {s : FS} (hg : RegInv s) :
    (registered_records s).length = s.sb.inodes_table.length := by
  unfold registered_records
  have h : ∀ ps : List Ptr, (∀ p ∈ ps, ∃ n, deref s.heap p = some n) →
      (ps.filterMap (deref s.heap)).length = ps.length := by
    intro ps
    induction ps with
    | nil => intro _; rfl
    | cons p ps ih =>
      intro hl
      obtain ⟨n, hn⟩ := hl p (List.mem_cons_self _ _)
      rw [List.filterMap_cons, hn]
      simp only [List.length_cons]
      rw [ih (fun q hq => hl q (List.mem_cons_of_mem _ hq))]
  exact h _ hg.reg.live

theorem full_report_length_ge (s : FS) (es : List (Nat × inode)) :
    (registry_lines (registered_records s)).length ≤ (full_report s es).length := by
  simp only [full_report, List.length_append]
  omega

theorem map_deref_of_live {h : Heap} : ∀ ps : List Ptr,
    (∀ p ∈ ps, ∃ n, deref h p = some n) →
    ps.map (deref h) = (ps.filterMap (deref h)).map some
  | [], _ => rfl
  | p :: ps, hl => by
    obtain ⟨n, hn⟩ := hl p (List.mem_cons_self _ _)
    rw [List.map_cons, List.filterMap_cons, hn]
    simp only [List.map_cons]
    rw [map_deref_of_live ps (fun q hq => hl q (List.mem_cons_of_mem _ hq))]

/-! ## Claims -/

/-- C1 (fails on the code): after the single call `create("/a")` the registered
identifiers are 2 and 0 while `total_inodes` is 2, and after `create("/a")`,
`create("/b")`, `create("/c")`, `unlink("/a")` they are 2, 2 and 0 while
`total_inodes` is 4: in these reachable states the identifiers are not the
range from 0 to `total_inodes - 1`. -/
theorem C1_identifiers_not_dense :
    (Reachable (after_create fs0 "/a")
      ∧ registered_ids (after_create fs0 "/a") = [2, 0]
      ∧ (after_create fs0 "/a").sb.total_inodes = 2)
    ∧ (Reachable (myfs_unlink fs_abc ("/a").toList).1
      ∧ registered_ids (myfs_unlink fs_abc ("/a").toList).1 = [2, 2, 0]
      ∧ (myfs_unlink fs_abc ("/a").toList).1.sb.total_inodes = 4) :=
  ⟨⟨reachable_create _ _ reachable_fs0 (by decide!), by decide!, by decide!⟩,
   ⟨reachable_unlink _ reachable_fs_abc (by decide!), by decide!, by decide!⟩⟩

/-- C2 (fails on the code): the state after `create("/a")`, `create("/b")`,
`create("/c")`, `unlink("/a")` is reachable, `/b` and `/c` are two distinct
registered records in it, and both carry identifier 2: the registered
identifiers are not pairwise distinct. -/
theorem C2_identifiers_collide :
    Reachable (myfs_unlink fs_abc ("/a").toList).1
      ∧ find_inode_by_path (myfs_unlink fs_abc ("/a").toList).1 ("/b").toList = some 2
      ∧ find_inode_by_path (myfs_unlink fs_abc ("/a").toList).1 ("/c").toList = some 3
      ∧ (myfs_unlink fs_abc ("/a").toList).1.sb.inodes_table = [3, 2, 0]
      ∧ (deref (myfs_unlink fs_abc ("/a").toList).1.heap 2).map (fun n => n.inode_id) = some 2
      ∧ (deref (myfs_unlink fs_abc ("/a").toList).1.heap 3).map (fun n => n.inode_id) = some 2
      ∧ ¬ (registered_ids (myfs_unlink fs_abc ("/a").toList).1).Nodup :=
  ⟨reachable_unlink _ reachable_fs_abc (by decide!), by decide!, by decide!, by decide!,
    by decide!, by decide!, by decide!⟩

/-- C3 (fails on the code): in the reachable state where `/a`, `/b`, `/c` hold
identifiers 2, 3 and 4, a successful `unlink("/a")` leaves `/b` with
identifier 2 and takes `/c` from 4 to 2, two less and not one. -/
theorem C3_unlink_decrements_twice :
    Reachable fs_abc
      ∧ (resolve fs_abc ("/a").toList).map (fun n => n.inode_id) = some 2
      ∧ (resolve fs_abc ("/b").toList).map (fun n => n.inode_id) = some 3
      ∧ (resolve fs_abc ("/c").toList).map (fun n => n.inode_id) = some 4
      ∧ (myfs_unlink fs_abc ("/a").toList).2 = .ok ()
      ∧ (resolve (myfs_unlink fs_abc ("/a").toList).1 ("/b").toList).map
          (fun n => n.inode_id) = some 2
      ∧ (resolve (myfs_unlink fs_abc ("/a").toList).1 ("/c").toList).map
          (fun n => n.inode_id) = some 2 :=
  ⟨reachable_fs_abc, by decide!⟩

/-- C4 (fails on the code): `create` called twice with one path whose name has
300 bytes succeeds both times on the empty filesystem, because the lookup
compares the whole name with the 255 bytes a binding holds; the root of the
reachable state this leaves has two bindings, both named by the same 255
bytes, so its child names are not pairwise distinct. -/
theorem C4_long_name_bound_twice :
    Reachable fs_long2
      ∧ (myfs_create fs0 [] long_path).2 = .ok ()
      ∧ (myfs_create (myfs_create fs0 [] long_path).1 [] long_path).2 = .ok ()
      ∧ (resolve fs_long2 ("/").toList).map child_names
          = some [List.replicate 255 'a', List.replicate 255 'a']
      ∧ ∃ d, deref fs_long2.heap fs_long2.sb.root = some d
          ∧ d.file_type = 2 ∧ ¬ (d.children.map (fun e => e.name)).Nodup :=
  ⟨reachable_create _ _ (reachable_create _ _ reachable_fs0 (by decide!)) (by decide!),
    by decide!, by decide!, by decide!, by decide!⟩

/-- C5: in every reachable state the registry and the tree agree: the root is
registered, has no parent, identifier 0 and kind directory; no record is
registered twice and the root is the only registered record without parent;
every other registered record has a registered directory as parent whose
bindings contain exactly one that points to it; every binding of a
registered record points to a registered record. -/
theorem C5_registry_tree_agree {s : FS} (hr : Reachable s) : registry_tree_agree s := by
  obtain ⟨hi, hg⟩ := reachable_reginv hr
  refine ⟨?_, hg.reg.nodup, ?_, ?_, hg.reg.child_mem⟩
  · obtain ⟨r, hr0, hp, hft⟩ := hi.heap.root
    exact ⟨r, hr0, hg.reg.root_mem, hp, hg.id.root_id r hr0, hft⟩
  · intro p hp
    exact ⟨hg.reg.live p hp, hg.reg.orphan p hp⟩
  · intro p hp hne
    obtain ⟨n, hn⟩ := hg.reg.live p hp
    cases hpar : n.parent with
    | none => exact absurd (hg.reg.orphan p hp n hn hpar) hne
    | some q =>
      obtain ⟨hq, pn, hpn, hft, e, he, hen⟩ := hg.reg.parent_mem p hp n hn q hpar
      refine ⟨n, q, pn, hn, hpar, hq, hpn, hft,
        filter_target_length_one (hi.heap.targets q pn hpn) ⟨e, he, hen⟩⟩

/-- Witness for C5: the state holding `/d/b.txt`. -/
theorem C5_registry_tree_agree_witness : Reachable fs_d ∧ registry_tree_agree fs_d :=
  ⟨reachable_fs_d, C5_registry_tree_agree reachable_fs_d⟩

/-- C6 as stated fails: `create("/superblock=hello")` succeeds in the empty
filesystem, but `stat("/superblock")` then reports the diagnostic file (size
1024, mode 0444) and `read` returns the report, not the 6 bytes `hello\n`. -/
theorem C6_superblock_counterexample :
    Reachable fs0
      ∧ join_path ("/").toList ("superblock").toList = superblock_path
      ∧ (myfs_create fs0 [] (join_path ("/").toList ("superblock").toList
            ++ '=' :: ("hello").toList)).2 = .ok ()
      ∧ spec_initial_content fs0.sb.block_size.toNat ("hello").toList = ("hello\n").toList
      ∧ myfs_getattr (myfs_create fs0 [] (join_path ("/").toList ("superblock").toList
            ++ '=' :: ("hello").toList)).1 (join_path ("/").toList ("superblock").toList)
          = .ok { st_mode := S_IFREG + 0o444, st_nlink := 1, st_size := 1024 }
      ∧ myfs_read (myfs_create fs0 [] (join_path ("/").toList ("superblock").toList
            ++ '=' :: ("hello").toList)).1 (join_path ("/").toList ("superblock").toList) 6 0
          = .ok ("Superb").toList :=
  ⟨reachable_fs0, by decide!, by decide!, by decide!, by decide!, by decide!⟩

/-- C6 (amended): in every reachable state, for a directory path `d`, a
non-empty name `n` of fewer than 255 bytes without `/` and `=`, and a content
`c` without `/`, such that `d/n` is not the literal `/superblock`: if
`create(d/n=c)` succeeds, `stat(d/n)` reports a regular file whose size is the
length of `c` cut to `block_size - 1` bytes and newline-terminated, and
`read(d/n, 0, L)` returns exactly that text for every `L` from its length up
to the range of `size_t`; if `create(d/n)` succeeds, the size is 0 and `read`
returns nothing.  (A successful `create` implies that `d` resolves to a
directory.) -/
theorem C6_create_then_read {s : FS} (hr : Reachable s) (now d n c : List Char)
    (hn : n ≠ []) (hns : ∀ x ∈ n, x ≠ '/') (hne : ∀ x ∈ n, x ≠ '=') (hlen : n.length < 255)
    (hcs : ∀ x ∈ c, x ≠ '/') (hsb : join_path d n ≠ superblock_path) :
    ((myfs_create s now (join_path d n ++ '=' :: c)).2 = .ok () →
      myfs_getattr (myfs_create s now (join_path d n ++ '=' :: c)).1 (join_path d n)
          = .ok { st_mode := S_IFREG + 0o644, st_nlink := 1,
                  st_size := (spec_initial_content s.sb.block_size.toNat c).length }
        ∧ ∀ L, (spec_initial_content s.sb.block_size.toNat c).length ≤ L → L < 2 ^ 64 →
            myfs_read (myfs_create s now (join_path d n ++ '=' :: c)).1 (join_path d n) L 0
              = .ok (spec_initial_content s.sb.block_size.toNat c))
    ∧ ((myfs_create s now (join_path d n)).2 = .ok () →
      myfs_getattr (myfs_create s now (join_path d n)).1 (join_path d n)
          = .ok { st_mode := S_IFREG + 0o644, st_nlink := 1, st_size := 0 }
        ∧ ∀ L, myfs_read (myfs_create s now (join_path d n)).1 (join_path d n) L 0
            = .ok []) := by
  have hbs : s.sb.block_size.toNat = 4096 := by rw [(reachable_inv hr).block_size]; rfl
  rw [hbs]
  exact create_then_read_4096 hr now d n c hn hns hne hcs hlen hsb

/-- Witness for C6: `create("/a.txt=hello")` on the empty filesystem. -/
theorem C6_create_then_read_witness :
    Reachable fs0
      ∧ ("a.txt").toList ≠ []
      ∧ (∀ x ∈ ("a.txt").toList, x ≠ '/')
      ∧ (∀ x ∈ ("a.txt").toList, x ≠ '=')
      ∧ (("a.txt").toList).length < 255
      ∧ (∀ x ∈ ("hello").toList, x ≠ '/')
      ∧ join_path ("/").toList ("a.txt").toList ≠ superblock_path
      ∧ (myfs_create fs0 [] (join_path ("/").toList ("a.txt").toList
            ++ '=' :: ("hello").toList)).2 = .ok ()
      ∧ spec_initial_content fs0.sb.block_size.toNat ("hello").toList = ("hello\n").toList
      ∧ (((myfs_create fs0 [] (join_path ("/").toList ("a.txt").toList
              ++ '=' :: ("hello").toList)).2 = .ok () →
          myfs_getattr (myfs_create fs0 [] (join_path ("/").toList ("a.txt").toList
                ++ '=' :: ("hello").toList)).1 (join_path ("/").toList ("a.txt").toList)
              = .ok { st_mode := S_IFREG + 0o644, st_nlink := 1,
                      st_size := (spec_initial_content fs0.sb.block_size.toNat ("hello").toList).length }
            ∧ ∀ L, (spec_initial_content fs0.sb.block_size.toNat ("hello").toList).length ≤ L → L < 2 ^ 64 →
                myfs_read (myfs_create fs0 [] (join_path ("/").toList ("a.txt").toList
                    ++ '=' :: ("hello").toList)).1 (join_path ("/").toList ("a.txt").toList) L 0
                  = .ok (spec_initial_content fs0.sb.block_size.toNat ("hello").toList))
        ∧ ((myfs_create fs0 [] (join_path ("/").toList ("a.txt").toList)).2 = .ok () →
          myfs_getattr (myfs_create fs0 [] (join_path ("/").toList ("a.txt").toList)).1
                (join_path ("/").toList ("a.txt").toList)
              = .ok { st_mode := S_IFREG + 0o644, st_nlink := 1, st_size := 0 }
            ∧ ∀ L, myfs_read (myfs_create fs0 [] (join_path ("/").toList ("a.txt").toList)).1
                  (join_path ("/").toList ("a.txt").toList) L 0
                = .ok [])) :=
  ⟨reachable_fs0, by decide!, by decide!, by decide!, by decide!, by decide!, by decide!,
    by decide!, by decide!,
    C6_create_then_read reachable_fs0 [] ("/").toList ("a.txt").toList ("hello").toList
      (by decide!) (by decide!) (by decide!) (by decide!) (by decide!) (by decide!)⟩

/-- C7 as stated fails: after `create("/superblock=x")` the path `/superblock`
resolves to a file; a byte `y` written to it at offset 0 is stored in that
file, but reading the path back returns the first byte of the diagnostic
report. -/
theorem C7_superblock_counterexample :
    Reachable fs_sb
      ∧ (resolve fs_sb superblock_path).map (fun n => n.file_type) = some 1
      ∧ (myfs_write fs_sb superblock_path ['y'] 0).2 = .ok 1
      ∧ myfs_read (myfs_write fs_sb superblock_path ['y'] 0).1 superblock_path 1 0
          = .ok ['S'] :=
  ⟨reachable_fs_sb, by decide!, by decide!, by decide!⟩

/-- C7 (amended): in every reachable state, for a path other than the literal
`/superblock` that resolves to a file, an offset below the block size
and a buffer whose end `offset + length` is below `2 ^ 64`, `write` followed by
`read` of the same offset and length returns the first
`min length (block_size - offset)` bytes of the buffer. -/
theorem C7_write_then_read {s : FS} (hr : Reachable s) (path : List Char)
    (hfile : (resolve s path).map (fun n => n.file_type) = some 1)
    (hsb : path ≠ superblock_path) (offset : Nat) (ho : (offset : Int) < s.sb.block_size)
    (buf : List Char) (hsz : offset + buf.length < 2 ^ 64) :
    myfs_read (myfs_write s path buf offset).1 path buf.length offset
      = .ok (buf.take (min buf.length (s.sb.block_size.toNat - offset))) := by
  have hbs := (reachable_inv hr).block_size
  have hnat : s.sb.block_size.toNat = 4096 := by rw [hbs]; rfl
  rw [hbs] at ho
  rw [hnat]
  exact write_then_read_4096 hr path hfile hsb offset (by omega) buf hsz

/-- Witness for C7: two bytes written at offset 0 of `/d/b.txt`. -/
theorem C7_write_then_read_witness :
    Reachable fs_d
      ∧ (resolve fs_d ("/d/b.txt").toList).map (fun n => n.file_type) = some 1
      ∧ ("/d/b.txt").toList ≠ superblock_path
      ∧ ((0 : Nat) : Int) < fs_d.sb.block_size
      ∧ 0 + (("hi").toList).length < 2 ^ 64
      ∧ myfs_read (myfs_write fs_d ("/d/b.txt").toList ("hi").toList 0).1 ("/d/b.txt").toList
          (("hi").toList).length 0
        = .ok ((("hi").toList).take
            (min (("hi").toList).length (fs_d.sb.block_size.toNat - 0))) :=
  ⟨reachable_fs_d, by decide!, by decide!, by decide!, by norm_num [String.toList],
    C7_write_then_read reachable_fs_d ("/d/b.txt").toList (by decide!) (by decide!) 0
      (by decide!) ("hi").toList (by norm_num [String.toList])⟩

/-- C8 (fails on the code): in the reachable state holding the file `/d/b.txt`, a
write of one byte at offset 5000 is not clipped: `block_size - offset` is
negative, its conversion to `size_t` is `2 ^ 64 - 904`, and copying that many
bytes leaves the 4096-byte buffer, so the behaviour is undefined. -/
theorem C8_write_beyond_block :
    Reachable fs_d
      ∧ (resolve fs_d ("/d/b.txt").toList).map (fun n => n.file_type) = some 1
      ∧ clipped_size fs_d.sb.block_size 5000 1 = 2 ^ 64 - 904
      ∧ (myfs_write fs_d ("/d/b.txt").toList ['x'] 5000).2 = .undefined :=
  ⟨reachable_fs_d, by decide!, by decide!, by decide!⟩

/-- C9 as stated fails: the file that `create("/superblock=x")` leaves in the
root can be unlinked through the path `/superblock`, and afterwards `stat`, `open` and `read` of
that path still succeed, because they answer for the diagnostic file. -/
theorem C9_superblock_counterexample :
    Reachable fs_sb
      ∧ (myfs_unlink fs_sb superblock_path).2 = .ok ()
      ∧ myfs_getattr (myfs_unlink fs_sb superblock_path).1 superblock_path
          = .ok { st_mode := S_IFREG + 0o444, st_nlink := 1, st_size := 1024 }
      ∧ myfs_open (myfs_unlink fs_sb superblock_path).1 superblock_path = .ok ()
      ∧ myfs_read (myfs_unlink fs_sb superblock_path).1 superblock_path 10 0
          = .ok ("Superblock").toList :=
  ⟨reachable_fs_sb, by decide!, by decide!, by decide!, by decide!⟩

/-- C9 (amended): in every reachable state, after a successful `unlink` of a
path other than the literal `/superblock` whose final component has fewer
than 255 bytes, `stat`, `read` (any size and offset), `list` and `open` of
that path all return `ENOENT`. -/
theorem C9_unlinked_path_not_found {s : FS} (hr : Reachable s) (path : List Char)
    (hok : (myfs_unlink s path).2 = .ok ()) (hsb : path ≠ superblock_path)
    (hlen : (basename path).length < 255) :
    myfs_getattr (myfs_unlink s path).1 path = .error .ENOENT
      ∧ (∀ size offset, myfs_read (myfs_unlink s path).1 path size offset = .error .ENOENT)
      ∧ (myfs_readdir (myfs_unlink s path).1 path).2 = .error .ENOENT
      ∧ myfs_open (myfs_unlink s path).1 path = .error .ENOENT := by
  have hi := reachable_inv hr
  rcases myfs_unlink_cases s path with h | ⟨node, n, parent, hf, hn, _, hp, h | h⟩
  · exact absurd hok h.2
  · have hnone := unlink_state_resolves_none hi hf hn hp hlen
    have hslash : path ≠ ['/'] := by
      rintro rfl
      have : find_inode_by_path s ['/'] = some s.sb.root := by simp [find_inode_by_path]
      rw [this] at hf
      exact root_ne_of_parent hi.heap.root hn hp (Option.some.inj hf)
    rw [h.2]
    refine ⟨?_, ?_, ?_, ?_⟩
    · simp [myfs_getattr, hslash, hsb, hnone]
    · intro size offset
      simp [myfs_read, hsb, hnone]
    · simp [myfs_readdir, hslash, hnone]
    · simp [myfs_open, hsb, hnone]
  · rw [h.2] at hok
    cases hok

/-- Witness for C9: unlinking `/a` in the state holding `/a`, `/b`, `/c`. -/
theorem C9_unlinked_path_not_found_witness :
    Reachable fs_abc
      ∧ (myfs_unlink fs_abc ("/a").toList).2 = .ok ()
      ∧ ("/a").toList ≠ superblock_path
      ∧ (basename ("/a").toList).length < 255
      ∧ myfs_getattr (myfs_unlink fs_abc ("/a").toList).1 ("/a").toList = .error .ENOENT
      ∧ (∀ size offset,
          myfs_read (myfs_unlink fs_abc ("/a").toList).1 ("/a").toList size offset
            = .error .ENOENT)
      ∧ (myfs_readdir (myfs_unlink fs_abc ("/a").toList).1 ("/a").toList).2 = .error .ENOENT
      ∧ myfs_open (myfs_unlink fs_abc ("/a").toList).1 ("/a").toList = .error .ENOENT :=
  ⟨reachable_fs_abc, by decide!, by decide!, by decide!,
    C9_unlinked_path_not_found reachable_fs_abc ("/a").toList (by decide!) (by decide!)
      (by decide!)⟩

/-- C10: when a path resolves to a directory that has at least one child,
`rmdir` returns `ENOTEMPTY`, the state it returns is the state it was given,
and listing the path afterwards yields what it yielded before. -/
theorem C10_rmdir_nonempty_unchanged (s : FS) (path : List Char) (n : inode)
    (hres : resolve s path = some n) (hdir : n.file_type = 2) (hne : n.children ≠ []) :
    myfs_rmdir s path = (s, .error .ENOTEMPTY)
      ∧ myfs_readdir (myfs_rmdir s path).1 path = myfs_readdir s path
      ∧ ∀ e ∈ n.children, e.name ∈ (myfs_readdir (myfs_rmdir s path).1 path).1 := by
  have hr : myfs_rmdir s path = (s, .error .ENOTEMPTY) := by
    unfold resolve at hres
    unfold myfs_rmdir
    cases hf : find_inode_by_path s path with
    | none => simp [hf] at hres
    | some node =>
      simp only [hf] at hres
      simp [hres, hdir, hne]
  refine ⟨hr, by rw [hr], ?_⟩
  intro e he
  rw [hr]
  unfold resolve at hres
  have hdirp : (if path = ['/'] then some s.sb.root else find_inode_by_path s path)
      = find_inode_by_path s path := by
    by_cases hp : path = ['/']
    · simp [hp, find_inode_by_path]
    · simp [hp]
  unfold myfs_readdir
  simp only [hdirp]
  cases hf : find_inode_by_path s path with
  | none => simp [hf] at hres
  | some node =>
    simp only [hf] at hres
    simp only [hres, hdir]
    simp
    exact Or.inr (Or.inr (Or.inr ⟨e, he, rfl⟩))

/-- Witness for C10 on the state holding `/d/b.txt`. -/
theorem C10_rmdir_nonempty_unchanged_witness :
    myfs_rmdir fs_d ("/d").toList = (fs_d, .error .ENOTEMPTY)
      ∧ myfs_readdir (myfs_rmdir fs_d ("/d").toList).1 ("/d").toList
          = myfs_readdir fs_d ("/d").toList
      ∧ ∀ e ∈ [(⟨("b.txt").toList, 2⟩ : dir_entry)],
          e.name ∈ (myfs_readdir (myfs_rmdir fs_d ("/d").toList).1 ("/d").toList).1 :=
  C10_rmdir_nonempty_unchanged fs_d ("/d").toList
    { inode_id := 2, file_type := 2, access_rights := ("rwxr-xr-x").toList,
      name := ("d").toList, file_size := 0, create_time := [], start_block := -1,
      total_blocks := 0, content := none, children := [⟨("b.txt").toList, 2⟩],
      initial_content := none, parent := some 0 }
    (by decide) (by decide) (by decide)

/-- C11. There is a reachable state without free blocks and a path whose
parent resolves to a directory without a child of the target name, for which
`myfs_create` returns `ENOSPC` and yet changes the state: the identifier
counter `next_inode_id` has advanced by one and a record has been allocated
on the heap that no registry entry and no binding refers to. -/
theorem C11_create_without_blocks_changes_state :
    ∃ s now path par pn, Reachable s ∧ s.sb.free_blocks = 0
      ∧ parent_of s path = some par ∧ deref s.heap par = some pn ∧ pn.file_type = 2
      ∧ find_entry pn.children (file_name_of path) = none
      ∧ (myfs_create s now path).2 = .error .ENOSPC
      ∧ (myfs_create s now path).1 ≠ s
      ∧ (myfs_create s now path).1.sb.next_inode_id = s.sb.next_inode_id + 1
      ∧ (myfs_create s now path).1.heap.length = s.heap.length + 1
      ∧ (myfs_create s now path).1.sb.inodes_table = s.sb.inodes_table
      ∧ (myfs_create s now path).1.sb.free_inodes = s.sb.free_inodes
      ∧ (myfs_create s now path).1.sb.total_inodes = s.sb.total_inodes := by
  obtain ⟨s, hr, hb⟩ := reachable_free_blocks 1024 (le_refl _)
  obtain ⟨w, r, hne, hs, he, hroot, hd, hf⟩ := fresh_root_name (reachable_inv hr)
  have hc := myfs_create_root_component s [] w hne hs he
  rw [create_at_enospc [] w none hroot hd hf (by omega)] at hc
  have hp := parent_of_root_component s w hne hs
  have hn := file_name_of_root_component w hne hs he
  refine ⟨s, [], '/' :: w, s.sb.root, r, hr, by omega, hp, hroot, hd, by rw [hn]; exact hf,
    ?_, ?_, ?_, ?_, ?_, ?_, ?_⟩
  · rw [hc]
  · rw [hc]
    intro h
    have h1 := congrArg (fun u => u.heap.length) h
    simp [create_leak_state] at h1
  · rw [hc]
    rfl
  · rw [hc]
    simp [create_leak_state]
  · rw [hc]
    rfl
  · rw [hc]
    rfl
  · rw [hc]
    rfl

/-- C12. From every reachable state, a call of any handler that returns
`ENOENT`, `EEXIST`, `ENOTDIR` or `ENOTEMPTY` leaves the state exactly as it
was; and every record a path resolves to is registered, so the late `ENOENT`
returns of `myfs_unlink` and `myfs_rmdir`, taken only when the resolved record
is missing from the registry, are never reached. -/
theorem C12_error_leaves_state {s : FS} (hr : Reachable s) (op : Op) (e : Errno)
    (he : op_error s op = some e)
    (hne : e = .ENOENT ∨ e = .EEXIST ∨ e = .ENOTDIR ∨ e = .ENOTEMPTY) :
    step s op = some s
    ∧ ∀ path node, find_inode_by_path s path = some node → node ∈ s.sb.inodes_table := by
  obtain ⟨hi, hg⟩ := reachable_reginv hr
  have hns : e ≠ .ENOSPC := by
    rcases hne with h | h | h | h <;> rw [h] <;> decide
  refine ⟨?_, fun path node hf => resolved_mem_reg hg.reg hf⟩
  cases op with
  | getattr path => simp only [step, if_neg (error_of_ne_undefined he)]
  | readdir path => simp only [step, if_neg (error_of_ne_undefined he)]
  | create now path =>
    simp only [step, if_neg (error_of_ne_undefined he)]
    have h1 := error_of_eq he
    rw [myfs_create_eq] at h1 ⊢
    rw [create_at_error_state h1 hns]
  | mkdir now path =>
    simp only [step, if_neg (error_of_ne_undefined he)]
    have h1 := error_of_eq he
    rw [myfs_mkdir_eq] at h1 ⊢
    rw [mkdir_at_error_state h1]
  | rmdir path =>
    simp only [step, if_neg (error_of_ne_undefined he)]
    rw [rmdir_error_state hg (error_of_eq he)]
  | unlink path =>
    simp only [step, if_neg (error_of_ne_undefined he)]
    rw [unlink_error_state hg (error_of_eq he)]
  | read path size offset => simp only [step, if_neg (error_of_ne_undefined he)]
  | write path buf offset =>
    simp only [step, if_neg (error_of_ne_undefined he)]
    rw [write_error_state hi (error_of_eq he)]
  | _ => rfl

theorem C12_error_leaves_state_witness :
    step fs_d (.rmdir ("/d").toList) = some fs_d
    ∧ ∀ path node, find_inode_by_path fs_d path = some node → node ∈ fs_d.sb.inodes_table :=
  C12_error_leaves_state reachable_fs_d (.rmdir ("/d").toList) .ENOTEMPTY (by decide!)
    (Or.inr (Or.inr (Or.inr rfl)))

/-- C13. After `create("/a")` and `unlink("/a")` on the mounted filesystem the
state is reachable and holds `free_inodes = 99` and `total_inodes = 2`: their
sum is 101, above the capacity of 100. -/
theorem C13_inode_counters_exceed_capacity :
    Reachable fs_a_unlinked
    ∧ fs_a_unlinked.sb.free_inodes = 99 ∧ fs_a_unlinked.sb.total_inodes = 2
    ∧ ¬ (fs_a_unlinked.sb.free_inodes + fs_a_unlinked.sb.total_inodes ≤ 100) := by
  refine ⟨?_, by decide!, by decide!, by decide!⟩
  exact reachable_unlink _ (reachable_create [] ("/a").toList reachable_fs0 (by decide!))
    (by decide!)

/-- C14. In every reachable state the free blocks lie between 0 and
`total_blocks`, the blocks in use (`total_blocks - free_blocks`) are exactly
the sum of the block counts of the registered files, and every registered
directory has block count 0. -/
theorem C14_block_accounting {s : FS} (hr : Reachable s) :
    0 ≤ s.sb.free_blocks ∧ s.sb.free_blocks ≤ s.sb.total_blocks
    ∧ s.sb.total_blocks - s.sb.free_blocks = held_blocks s.heap s.sb.inodes_table
    ∧ ∀ p ∈ s.sb.inodes_table, ∀ n, deref s.heap p = some n → n.file_type = 2 →
        n.total_blocks = 0 := by
  obtain ⟨_, _, hb⟩ := reachable_blkinv hr
  refine ⟨hb.free_nonneg, ?_, hb.held.sum_eq, ?_⟩
  · have h1 := held_blocks_nonneg hb.held
    have h2 := hb.held.sum_eq
    omega
  · intro p hp n hn hd
    have := hb.held.count p hp n hn
    rw [if_neg (by rw [hd]; decide)] at this
    exact this

theorem C14_block_accounting_witness :
    0 ≤ fs_d.sb.free_blocks ∧ fs_d.sb.free_blocks ≤ fs_d.sb.total_blocks
    ∧ fs_d.sb.total_blocks - fs_d.sb.free_blocks = held_blocks fs_d.heap fs_d.sb.inodes_table
    ∧ ∀ p ∈ fs_d.sb.inodes_table, ∀ n, deref fs_d.heap p = some n → n.file_type = 2 →
        n.total_blocks = 0 :=
  C14_block_accounting reachable_fs_d

/-- C15. From a reachable state `myfs_create` decides in this order: it
returns `ENOENT` exactly when the parent path does not resolve to a
directory; below a directory it returns `EEXIST` exactly when the directory
has a child named like the final component up to its first `=`; without such
a child it returns `ENOSPC` exactly when `free_blocks` is 0 and succeeds
otherwise. `myfs_mkdir` makes the same first two checks with the whole final
component as name, and otherwise succeeds and leaves `free_blocks` as it was. -/
theorem C15_create_outcome_order {s : FS} (hr : Reachable s) (now path : List Char) :
    ((myfs_create s now path).2 = .error .ENOENT
        ↔ ¬ ∃ pn, resolve s (dirname path) = some pn ∧ pn.file_type = 2)
    ∧ (∀ pn, resolve s (dirname path) = some pn → pn.file_type = 2 →
        ((myfs_create s now path).2 = .error .EEXIST
          ↔ ∃ e ∈ pn.children, e.name = file_name_of path)
        ∧ ((¬ ∃ e ∈ pn.children, e.name = file_name_of path) →
            ((myfs_create s now path).2 = .error .ENOSPC ↔ s.sb.free_blocks = 0)
            ∧ (s.sb.free_blocks ≠ 0 → (myfs_create s now path).2 = .ok ())))
    ∧ ((myfs_mkdir s now path).2 = .error .ENOENT
        ↔ ¬ ∃ pn, resolve s (dirname path) = some pn ∧ pn.file_type = 2)
    ∧ (∀ pn, resolve s (dirname path) = some pn → pn.file_type = 2 →
        ((myfs_mkdir s now path).2 = .error .EEXIST
          ↔ ∃ e ∈ pn.children, e.name = basename path)
        ∧ ((¬ ∃ e ∈ pn.children, e.name = basename path) →
            (myfs_mkdir s now path).2 = .ok ()
            ∧ (myfs_mkdir s now path).1.sb.free_blocks = s.sb.free_blocks)) := by
  obtain ⟨hi, _, hb⟩ := reachable_blkinv hr
  have hfree := hb.free_nonneg
  rw [myfs_create_eq, myfs_mkdir_eq, parent_of_eq_find]
  unfold resolve
  cases hf : find_inode_by_path s (dirname path) with
  | none =>
    simp [create_at, mkdir_at]
  | some par =>
    obtain ⟨pn, hpn⟩ := resolved_live hi hf
    simp only [hpn, Option.some.injEq, exists_eq_left', forall_eq']
    rw [create_at_result now _ _ hpn, mkdir_at_result now _ hpn]
    by_cases h1 : pn.file_type = 2
    · simp only [h1, ne_eq, not_true_eq_false, if_false, not_false_eq_true, forall_true_left]
      rw [← find_entry_isSome_iff, ← find_entry_isSome_iff]
      refine ⟨by split <;> [simp; split] <;> simp, ⟨?_, ?_⟩, by split <;> simp, ?_, ?_⟩
      · by_cases h2 : (find_entry pn.children (file_name_of path)).isSome
        · simp [h2]
        · simp only [h2, if_false, Bool.false_eq_true, iff_false]
          split <;> simp
      · intro h2
        simp only [h2, if_false, Bool.false_eq_true]
        by_cases h3 : s.sb.free_blocks > 0
        · simp only [if_pos h3]
          refine ⟨?_, fun _ => trivial⟩
          simp
          omega
        · simp only [if_neg h3]
          refine ⟨?_, fun h => ?_⟩
          · simp
            omega
          · omega
      · by_cases h2 : (find_entry pn.children (basename path)).isSome
        · simp [h2]
        · simp [h2]
      · intro h2
        simp only [h2, if_false, Bool.false_eq_true]
        exact ⟨trivial, rfl⟩
    · simp [h1]

theorem C15_create_outcome_order_witness :
    ((myfs_create fs_d [] ("/d/b.txt").toList).2 = .error .ENOENT
        ↔ ¬ ∃ pn, resolve fs_d (dirname ("/d/b.txt").toList) = some pn ∧ pn.file_type = 2)
    ∧ (∀ pn, resolve fs_d (dirname ("/d/b.txt").toList) = some pn → pn.file_type = 2 →
        ((myfs_create fs_d [] ("/d/b.txt").toList).2 = .error .EEXIST
          ↔ ∃ e ∈ pn.children, e.name = file_name_of ("/d/b.txt").toList)
        ∧ ((¬ ∃ e ∈ pn.children, e.name = file_name_of ("/d/b.txt").toList) →
            ((myfs_create fs_d [] ("/d/b.txt").toList).2 = .error .ENOSPC
              ↔ fs_d.sb.free_blocks = 0)
            ∧ (fs_d.sb.free_blocks ≠ 0 → (myfs_create fs_d [] ("/d/b.txt").toList).2 = .ok ())))
    ∧ ((myfs_mkdir fs_d [] ("/d/b.txt").toList).2 = .error .ENOENT
        ↔ ¬ ∃ pn, resolve fs_d (dirname ("/d/b.txt").toList) = some pn ∧ pn.file_type = 2)
    ∧ (∀ pn, resolve fs_d (dirname ("/d/b.txt").toList) = some pn → pn.file_type = 2 →
        ((myfs_mkdir fs_d [] ("/d/b.txt").toList).2 = .error .EEXIST
          ↔ ∃ e ∈ pn.children, e.name = basename ("/d/b.txt").toList)
        ∧ ((¬ ∃ e ∈ pn.children, e.name = basename ("/d/b.txt").toList) →
            (myfs_mkdir fs_d [] ("/d/b.txt").toList).2 = .ok ()
            ∧ (myfs_mkdir fs_d [] ("/d/b.txt").toList).1.sb.free_blocks
              = fs_d.sb.free_blocks)) :=
  C15_create_outcome_order reachable_fs_d [] ("/d/b.txt").toList

/-- C17. In every state `find_inode_by_path` returns the root for `/`, and for
every path the result of applying `find_inode_in_dir` from the root with each
non-empty `/`-separated component in order (nothing once a lookup failed); so
two paths with the same components resolve alike; and in a reachable state a
path with a component after a prefix that names a file resolves to nothing. -/
theorem C17_path_resolution (s : FS) :
    find_inode_by_path s ['/'] = some s.sb.root
    ∧ (∀ path, find_inode_by_path s path = lookup_components s (components path))
    ∧ (∀ p q, components p = components q → find_inode_by_path s p = find_inode_by_path s q)
    ∧ (Reachable s → ∀ path ts t rest f n, components path = ts ++ t :: rest →
        lookup_components s ts = some f → deref s.heap f = some n → n.file_type = 1 →
        find_inode_by_path s path = none) := by
  refine ⟨find_inode_by_path_root s, find_inode_by_path_eq_lookup s, ?_, ?_⟩
  · intro p q h
    rw [find_inode_by_path_eq_lookup, find_inode_by_path_eq_lookup, h]
  · intro hr path ts t rest f n hc hw hn hft
    rw [find_inode_by_path_eq_lookup, hc]
    exact lookup_below_file (reachable_inv hr) hw hn hft t rest

/-- Witness for C17: below the file `/d/b.txt` the path `/d//b.txt/x/` resolves
to nothing, and `//d/b.txt/` resolves like `/d/b.txt`. -/
theorem C17_path_resolution_witness :
    components ("/d//b.txt/x/").toList = [("d").toList, ("b.txt").toList, ("x").toList]
    ∧ find_inode_by_path fs_d ("/d//b.txt/x/").toList = none
    ∧ find_inode_by_path fs_d ("//d/b.txt/").toList
        = find_inode_by_path fs_d ("/d/b.txt").toList
    ∧ (find_inode_by_path fs_d ("/d/b.txt").toList).isSome = true := by
  have h := C17_path_resolution fs_d
  have hc : components ("/d//b.txt/x/").toList
      = [("d").toList, ("b.txt").toList] ++ ("x").toList :: [] := by decide!
  have hf : lookup_components fs_d [("d").toList, ("b.txt").toList] = some 2 := by decide!
  have hn : ∃ n, deref fs_d.heap 2 = some n ∧ n.file_type = 1 := by
    cases hd : deref fs_d.heap 2 with
    | none => exact absurd hd (by decide!)
    | some n =>
      refine ⟨n, rfl, ?_⟩
      have : (deref fs_d.heap 2).map (fun n => n.file_type) = some 1 := by decide!
      rw [hd] at this
      simpa using this
  obtain ⟨n, hn, hft⟩ := hn
  exact ⟨by decide!, h.2.2.2 reachable_fs_d _ _ _ _ _ _ hc hf hn hft,
    h.2.2.1 _ _ (by decide!), by decide!⟩

/-- C18 as stated fails once the report outgrows its buffer: there is a
reachable state with 1025 registered records (1024 files created in the
root) whose registry lines alone are longer than 16384 bytes, while whatever
`read` returns for the diagnostic path is shorter than 16384 bytes; so the
body is never the full report, whatever the length asked for. -/
theorem C18_truncated_counterexample :
    ∃ s, Reachable s ∧ (registered_records s).length = 1025
      ∧ 16384 < (registry_lines (registered_records s)).length
      ∧ (∀ L body, myfs_read s superblock_path L 0 = .ok body → body.length < 16384)
      ∧ ∀ L es, myfs_read s superblock_path L 0 ≠ .ok (full_report s es) := by
  obtain ⟨s, hr, _, hlen⟩ := reachable_many_files 1024 (le_refl _)
  obtain ⟨_, hg⟩ := reachable_reginv hr
  have h1 : (registered_records s).length = 1025 := by
    rw [registered_records_length hg, hlen]
  have h2 : 16384 < (registry_lines (registered_records s)).length := by
    have := registry_lines_length_ge (registered_records s)
    rw [h1] at this
    omega
  refine ⟨s, hr, h1, h2, fun L body hb => myfs_read_superblock_bound hb, ?_⟩
  intro L es hb
  have h3 := myfs_read_superblock_bound hb
  have h4 := full_report_length_ge s es
  omega

/-- C18 (amended): in every reachable state whose tree has at most 22 levels,
in which every tree line is at most 255 bytes and every registry line at most
511 bytes long and the full report leaves 200 of the 16384 bytes of the
buffer free, `read("/superblock", 0, L)` for `L` from the length of the full
report up to the range of `size_t` returns the full report: the counters, the
title, exactly one tree line for every record reachable from the root in
depth-first pre-order with children in binding order, then exactly one line
for every registered record in registry order, none of them missing. -/
theorem C18_report_when_it_fits {s : FS} (hr : Reachable s) (es : List (Nat × inode))
    (hes : tree_entities s.heap 22 s.sb.root 0 = some es)
    (hl : ∀ x ∈ es, (tree_line x.1 x.2).length ≤ 255)
    (hrl : ∀ n ∈ registered_records s, (inode_line n).length ≤ 511)
    (hfit : (full_report s es).length + 200 ≤ 16384)
    (L : Nat) (hL : (full_report s es).length ≤ L) (hL2 : L < 2 ^ 64) :
    myfs_read s superblock_path L 0 = .ok (full_report s es)
    ∧ s.sb.inodes_table.map (deref s.heap) = (registered_records s).map some := by
  obtain ⟨hi, hg⟩ := reachable_reginv hr
  refine ⟨?_, map_deref_of_live _ hg.reg.live⟩
  unfold myfs_read
  rw [if_pos rfl, superblock_report_full hi hg hes hl hrl hfit]
  simp only
  rw [read_slice_whole _ _ L (le_refl _) hL hL2, List.take_length]

/-- Witness for C18: the state holding `/d/b.txt`, read with `L = 1000`. -/
theorem C18_report_when_it_fits_witness :
    tree_entities fs_d.heap 22 fs_d.sb.root 0 = some fs_d_entities
    ∧ fs_d_entities.length = 3
    ∧ (full_report fs_d fs_d_entities).length + 200 ≤ 16384
    ∧ (full_report fs_d fs_d_entities).length ≤ 1000
    ∧ myfs_read fs_d superblock_path 1000 0 = .ok (full_report fs_d fs_d_entities)
    ∧ fs_d.sb.inodes_table.map (deref fs_d.heap) = (registered_records fs_d).map some := by
  have hes : tree_entities fs_d.heap 22 fs_d.sb.root 0 = some fs_d_entities := by
    cases h : tree_entities fs_d.heap 22 fs_d.sb.root 0 with
    | none =>
      have : (tree_entities fs_d.heap 22 fs_d.sb.root 0).isSome = true := by decide!
      rw [h] at this
      cases this
    | some l => simp only [fs_d_entities, h, Option.getD_some]
  exact ⟨hes, by decide!, by decide!, by decide!,
    C18_report_when_it_fits reachable_fs_d fs_d_entities hes (by decide!) (by decide!)
      (by decide!) 1000 (by decide!) (by decide)⟩

/-- C19. In every reachable state every registered file has an allocated
content buffer and block count 1; a path that resolves to a file finds the
buffer allocated, so `myfs_write` never allocates lazily; `myfs_write` never
returns `ENOSPC`; and `myfs_read` on a path that resolves to a file never
returns `ENOENT`. -/
theorem C19_files_hold_one_block {s : FS} (hr : Reachable s) :
    (∀ p ∈ s.sb.inodes_table, ∀ n, deref s.heap p = some n → n.file_type = 1 →
        (∃ buf, n.content = some buf) ∧ n.total_blocks = 1)
    ∧ (∀ path node n, find_inode_by_path s path = some node → deref s.heap node = some n →
        n.file_type = 1 → ∃ buf, n.content = some buf)
    ∧ (∀ path buf offset, (myfs_write s path buf offset).2 ≠ .error .ENOSPC)
    ∧ (∀ path node n, find_inode_by_path s path = some node → deref s.heap node = some n →
        n.file_type = 1 → ∀ size offset, myfs_read s path size offset ≠ .error .ENOENT) := by
  obtain ⟨hi, hg, hb⟩ := reachable_blkinv hr
  refine ⟨?_, ?_, ?_, ?_⟩
  · intro p hp n hn hft
    obtain ⟨buf, hc, _⟩ := registered_file_has_buffer hi hg hp hn hft
    have h1 := hb.held.count p hp n hn
    rw [if_pos hft] at h1
    exact ⟨⟨buf, hc⟩, h1⟩
  · intro path node n hf hn hft
    obtain ⟨buf, hc, _⟩ := resolved_file_has_buffer hi hf hn hft
    exact ⟨buf, hc⟩
  · intro path buf offset
    exact myfs_write_ne_enospc hi path buf offset
  · intro path node n hf hn hft size offset
    exact myfs_read_file_ne_enoent hi hf hn hft size offset

theorem C19_files_hold_one_block_witness :
    (∀ p ∈ fs_d.sb.inodes_table, ∀ n, deref fs_d.heap p = some n → n.file_type = 1 →
        (∃ buf, n.content = some buf) ∧ n.total_blocks = 1)
    ∧ (∀ path node n, find_inode_by_path fs_d path = some node →
        deref fs_d.heap node = some n → n.file_type = 1 → ∃ buf, n.content = some buf)
    ∧ (∀ path buf offset, (myfs_write fs_d path buf offset).2 ≠ .error .ENOSPC)
    ∧ (∀ path node n, find_inode_by_path fs_d path = some node →
        deref fs_d.heap node = some n → n.file_type = 1 →
        ∀ size offset, myfs_read fs_d path size offset ≠ .error .ENOENT) :=
  C19_files_hold_one_block reachable_fs_d

/-- C20 as stated fails for the parent directory: `create("/a")` on the empty
filesystem succeeds, the path `/` has other components than `/a` and resolves
before and after, but its child names are none before and `a` after. -/
theorem C20_parent_counterexample :
    Reachable fs0
    ∧ succeeds fs0 (.create [] ("/a").toList) = true
    ∧ affected (.create [] ("/a").toList) = some [("a").toList]
    ∧ components ("/").toList ≠ [("a").toList]
    ∧ (resolve fs0 ("/").toList).map child_names = some []
    ∧ (resolve (after_create fs0 "/a") ("/").toList).map child_names = some [("a").toList]
    ∧ (resolve (after_create fs0 "/a") ("/").toList).map entity_view
        ≠ (resolve fs0 ("/").toList).map entity_view :=
  ⟨reachable_fs0, by decide!, by decide!, by decide!, by decide!, by decide!, by decide!⟩

/-- C20 (amended): for every reachable state and every successful `create`,
`mkdir`, `unlink`, `rmdir` or `write`, where the name that `create` or `mkdir`
binds or `unlink` or `rmdir` removes has fewer than 255 bytes, every path
whose components differ
from those of the affected entity's path resolves after the call to the same
record as before (or to nothing, as before), with the same kind, name,
recorded size and content; its child names are the same too, unless the path
is that of the parent directory of the affected entity, whose child names
gain the new name in front (`create`, `mkdir`) or lose the removed name
(`unlink`, `rmdir`). -/
theorem C20_frame {s s1 : FS} (hr : Reachable s) (op : Op) (aff : List (List Char))
    (ha : affected op = some aff) (hok : succeeds s op = true) (hs : step s op = some s1)
    (hlen : short_named op = true) (q : List Char) (hq : components q ≠ aff) :
    find_inode_by_path s1 q = find_inode_by_path s q
    ∧ (resolve s1 q).map file_view = (resolve s q).map file_view
    ∧ (resolve s1 q).map child_names
        = (resolve s q).map (fun n =>
            if components q = aff.dropLast then parent_names_after op (child_names n)
            else child_names n) := by
  obtain ⟨hi, hg⟩ := reachable_reginv hr
  cases op with
  | create now path =>
    simp only [affected, Option.some.injEq] at ha
    subst ha
    have hok1 := is_ok_unit hok
    simp only [step, hok1] at hs
    cases hs
    rw [myfs_create_eq] at hok1 ⊢
    obtain ⟨par, pn, hpar, hpn, _, hfresh, _, hst⟩ := create_at_ok hok1
    rw [parent_of_eq_walk, strtok_all_eq_components] at hpar
    rw [hst]
    exact frame_create_state hi now _ hpn hfresh hpar (of_decide_eq_true hlen) q hq
  | mkdir now path =>
    simp only [affected, Option.some.injEq] at ha
    subst ha
    have hok1 := is_ok_unit hok
    simp only [step, hok1] at hs
    cases hs
    rw [myfs_mkdir_eq] at hok1 ⊢
    obtain ⟨par, pn, hpar, hpn, _, hfresh, hst⟩ := mkdir_at_ok hok1
    rw [parent_of_eq_walk, strtok_all_eq_components] at hpar
    rw [hst]
    exact frame_mkdir_state hi now hpn hfresh hpar (of_decide_eq_true hlen) q hq
  | rmdir path =>
    simp only [affected, Option.some.injEq] at ha
    subst ha
    have hok1 := is_ok_unit hok
    simp only [step, hok1] at hs
    cases hs
    rcases myfs_rmdir_cases s path with ⟨_, h⟩ | ⟨node, n, parent, hf, hn, _, hc, hp, h | h⟩
    · exact absurd hok1 h
    · rw [h.2]
      exact frame_detach hi hf hn hp hc
        { s.sb with
          inodes_table := s.sb.inodes_table.erase node
          free_inodes := s.sb.free_inodes + 1 } rfl n.inode_id
        (of_decide_eq_true hlen) q hq
    · rw [h.2] at hok1
      cases hok1
  | unlink path =>
    simp only [affected, Option.some.injEq] at ha
    subst ha
    have hok1 := is_ok_unit hok
    simp only [step, hok1] at hs
    cases hs
    rcases myfs_unlink_cases s path with ⟨_, h⟩ | ⟨node, n, parent, hf, hn, hft, hp, h | h⟩
    · exact absurd hok1 h
    · rw [h.2]
      have hc : n.children = [] := by
        by_contra hne
        have := hi.heap.dirs node n hn hne
        rw [hft] at this
        cases this
      exact frame_detach hi hf hn hp hc
        { s.sb with
          free_blocks := s.sb.free_blocks + n.total_blocks
          inodes_table := s.sb.inodes_table.erase node
          free_inodes := s.sb.free_inodes + 1 } rfl n.inode_id
        (of_decide_eq_true hlen) q hq
    · rw [h.2] at hok1
      cases hok1
  | write path buf offset =>
    simp only [affected, Option.some.injEq] at ha
    subst ha
    have hu : (myfs_write s path buf offset).2 ≠ .undefined := by
      intro hu
      simp only [succeeds, hu, is_ok] at hok
      cases hok
    simp only [step, hu, if_false, Option.some.injEq] at hs
    subst hs
    simp only [parent_names_after]
    rcases myfs_write_cases hi path buf offset with h | ⟨node, n, content, hf, _, _, _, h⟩
    · rw [h, ite_same_names]
      exact ⟨rfl, rfl, rfl⟩
    · rw [h]
      exact frame_write_state hi hf content buf offset _ q hq
  | _ => cases ha

/-- Witness for C20: `unlink("/d/b.txt")` in the state holding `/d/b.txt`,
seen from the parent path `/d`. -/
theorem C20_frame_witness :
    affected (.unlink ("/d/b.txt").toList) = some [("d").toList, ("b.txt").toList]
    ∧ succeeds fs_d (.unlink ("/d/b.txt").toList) = true
    ∧ step fs_d (.unlink ("/d/b.txt").toList) = some (myfs_unlink fs_d ("/d/b.txt").toList).1
    ∧ short_named (.unlink ("/d/b.txt").toList) = true
    ∧ components ("/d").toList ≠ [("d").toList, ("b.txt").toList]
    ∧ find_inode_by_path (myfs_unlink fs_d ("/d/b.txt").toList).1 ("/d").toList
        = find_inode_by_path fs_d ("/d").toList
    ∧ (resolve (myfs_unlink fs_d ("/d/b.txt").toList).1 ("/d").toList).map file_view
        = (resolve fs_d ("/d").toList).map file_view
    ∧ (resolve (myfs_unlink fs_d ("/d/b.txt").toList).1 ("/d").toList).map child_names
        = (resolve fs_d ("/d").toList).map (fun n =>
            if components ("/d").toList = [("d").toList, ("b.txt").toList].dropLast then
              parent_names_after (.unlink ("/d/b.txt").toList) (child_names n)
            else child_names n) :=
  ⟨by decide!, by decide!, by decide!, by decide!, by decide!,
    C20_frame reachable_fs_d (.unlink ("/d/b.txt").toList) [("d").toList, ("b.txt").toList]
      (by decide!) (by decide!) (by decide!) (by decide!) ("/d").toList (by decide!)⟩

/-- C21 as stated fails for a final component that begins with `=`:
`create("/=x")` on the empty filesystem registers a file with the empty name
below the root; the names on its chain joined with `/` give `/`, which
resolves to the root, and no path at all resolves to the file. -/
theorem C21_empty_name_counterexample :
    BuiltBy is_create_or_mkdir fs_eq
    ∧ 1 ∈ fs_eq.sb.inodes_table ∧ 1 ≠ fs_eq.sb.root
    ∧ Chain fs_eq.heap fs_eq.sb.root [[]] 1
    ∧ find_inode_by_path fs_eq (chain_path [[]]) = some fs_eq.sb.root
    ∧ ∀ path, find_inode_by_path fs_eq path ≠ some 1 := by
  have hn : ∃ n, deref fs_eq.heap 1 = some n ∧ n.parent = some fs_eq.sb.root ∧ n.name = [] := by
    cases hd : deref fs_eq.heap 1 with
    | none => exact absurd hd (by decide!)
    | some n =>
      have h1 : (deref fs_eq.heap 1).map (fun n => n.parent) = some (some fs_eq.sb.root) := by
        decide!
      have h2 : (deref fs_eq.heap 1).map (fun n => n.name) = some [] := by decide!
      rw [hd] at h1 h2
      exact ⟨n, rfl, by simpa using h1, by simpa using h2⟩
  obtain ⟨n, hn, hpar, hname⟩ := hn
  have hall : fs_eq.heap.all (fun c =>
      match c with
      | some m => m.children.all (fun e => decide (e.name = []))
      | none => true) = true := by decide!
  refine ⟨builtby_create [] _ (BuiltBy.init [] []) rfl (by decide!), by decide!, by decide!,
    ?_, by decide!, ?_⟩
  · have := Chain.child Chain.top hn hpar
    rw [hname] at this
    exact this
  · intro path hf
    rw [find_inode_by_path_eq_walk, strtok_all_eq_components] at hf
    rcases walk_last hf with ⟨_, h1⟩ | ⟨us, t, P, hts, _, hfe⟩
    · exact absurd h1 (by decide!)
    · obtain ⟨pP, hP, hmem, _⟩ := entry_of_find hfe
      have h1 := List.all_eq_true.mp hall _ (deref_mem hP)
      have h2 := List.all_eq_true.mp h1 _ hmem
      have h3 : t = [] := by simpa using h2
      have h4 : t ∈ components path := by
        rw [hts]
        simp
      exact components_ne_nil h4 h3

/-- C21 (amended): in every state reached from the initial state by `create`
and `mkdir` calls whose new name (the final component, for `create` up to its
first `=`) is not empty, has no `/` and has fewer than 255 bytes, every
registered record has a chain of names from the root, and `find_inode_by_path`
applied to the names of any such chain joined with `/` returns the record. -/
theorem C21_registered_resolvable {s : FS} (hb : BuiltBy well_named s) (p : Ptr)
    (hp : p ∈ s.sb.inodes_table) :
    (∃ ts, Chain s.heap s.sb.root ts p)
    ∧ ∀ ts, Chain s.heap s.sb.root ts p → find_inode_by_path s (chain_path ts) = some p := by
  obtain ⟨hi, hg⟩ := reachable_reginv (builtby_reachable hb)
  have hpi := builtby_pathinv hb
  constructor
  · obtain ⟨ts, hts⟩ := hpi.reach p hp
    exact ⟨ts, chain_of_walk hi.heap.links ts p hts⟩
  · intro ts hc
    have hw :=
      walk_of_chain hi hg (fun q pn hq e he => (hpi.names q pn hq e he).2.2) hc hp
    rw [find_inode_by_path_eq_walk,
      strtok_all_chain_path ts (walk_component_names hpi.names ts _ p hw)]
    exact hw

/-- Witness for C21: the file `/d/b.txt` (cell 2) in the state built by
`mkdir("/d")` and `create("/d/b.txt")`. -/
theorem C21_registered_resolvable_witness :
    2 ∈ fs_d.sb.inodes_table
    ∧ (∃ ts, Chain fs_d.heap fs_d.sb.root ts 2)
    ∧ ∀ ts, Chain fs_d.heap fs_d.sb.root ts 2 →
        find_inode_by_path fs_d (chain_path ts) = some 2 :=
  ⟨by decide!, C21_registered_resolvable builtby_fs_d 2 (by decide!)⟩

end MyFS
